import Mathlib

/-!
# Xapian query optimiser: a shallow embedding of `matcher/queryoptimiser.cc`

The optimiser turns a `Xapian::Query::Internal` tree into a tree of `PostList`
objects.  This file embeds the functions of `queryoptimiser.cc` as Lean
functions and proves properties of them.

Modelling conventions.

* A `const Query::Internal *` is a `Query`; the null pointer is `Query.null`.
* A `PostList *` is a `PostList` term recording which constructor (or which
  factory of `LocalSubMatch`) built the object and from which arguments.
* In `queryoptimiser.cc` the weight factors and maximum weights, of type `double`,
  are rationals: the optimiser passes them on, multiplies a factor once, and
  compares two weights.  In `weightinternal.h`, where a quotient is computed,
  `double` arithmetic is rounded: `round_double` gives the nearest `double`.
* Every builder returns a `Run`: an outcome and the log of the events it caused.
  The outcome is `ok` with the value returned, `thrown` when the leaf factory
  raised an exception that propagates (nothing in `queryoptimiser.cc` catches),
  or `aborted` for undefined behaviour (dereferencing a null pointer, `front()`
  of an empty vector, an iterator range outside its vector) and for a failing
  assertion.  `Env.assertions` says whether the `Assert...` macros of
  `omassert.h` are compiled in.
* The log records, in program order, every postlist object that comes to exist
  (returned by `new` or by a factory of `LocalSubMatch`) and every `delete`.
* The virtual methods `get_termfreq_est`, `get_termfreq_max`, `get_maxweight`
  of the postlist classes, `Database::has_positions` and the algorithms of
  `<algorithm>` (`make_heap`, `pop_heap`, `push_heap`, `nth_element`) are not
  part of `queryoptimiser.cc`; they are fields of `Env`.  `Env.Conforming`
  states the postconditions the C++ standard gives for the four algorithms.
-/

namespace Xapian

/-- Operator codes of `Xapian::Query::Internal::op_t` handled by `do_subquery`. -/
inductive Op where
  | OP_LEAF
  | OP_EXTERNAL_SOURCE
  | OP_AND
  | OP_OR
  | OP_AND_NOT
  | OP_XOR
  | OP_AND_MAYBE
  | OP_FILTER
  | OP_NEAR
  | OP_PHRASE
  | OP_VALUE_RANGE
  | OP_SCALE_WEIGHT
  | OP_ELITE_SET
  | OP_VALUE_GE
  | OP_VALUE_LE
  | OP_SYNONYM
  deriving DecidableEq, Repr

/-- The scalar members of a `Xapian::Query::Internal` object read by the optimiser. -/
structure QueryFields where
  op : Op
  tname : String
  parameter : Nat
  str_parameter : String
  dbl_parameter : ℚ
  wqf : Nat
  external_source : Option Nat

/-- A `const Xapian::Query::Internal *`: the null pointer, or an object with its
scalar members and its `subqs` vector of pointers. -/
inductive Query where
  | null : Query
  | node (fields : QueryFields) (subqs : List Query) : Query

/-- A `PostList *`, as the record of how the object was constructed. -/
inductive PostList where
  | EmptyPostList : PostList
  /-- Result of `localsubmatch.postlist_from_op_leaf_query(query, factor)`. -/
  | LeafPostList (query : Query) (factor : ℚ) : PostList
  | ExternalPostList (source : Option Nat) (factor : ℚ) : PostList
  | MultiAndPostList (plists : List PostList) : PostList
  | OrPostList (l r : PostList) : PostList
  | XorPostList (l r : PostList) : PostList
  | AndNotPostList (l r : PostList) : PostList
  | AndMaybePostList (l r : PostList) : PostList
  | ValueRangePostList (valno : Nat) (range_begin range_end : String) : PostList
  | ValueGePostList (valno : Nat) (range_begin : String) : PostList
  | NearPostList (source : PostList) (window : Nat) (terms : List PostList) : PostList
  | ExactPhrasePostList (source : PostList) (terms : List PostList) : PostList
  | PhrasePostList (source : PostList) (window : Nat) (terms : List PostList) : PostList
  /-- Result of `localsubmatch.make_synonym_postlist(or_pl, matcher, factor)`. -/
  | SynonymPostList (or_pl : PostList) (factor : ℚ) : PostList

/-- A comparison functor on `PostList *`. -/
abbrev Cmp := PostList → PostList → Bool

/-- Everything `queryoptimiser.cc` uses but does not define. -/
structure Env where
  /-- Value of `db.has_positions()`. -/
  has_positions : Bool
  /-- Whether the `Assert`, `AssertEq`, `AssertRel` macros are compiled in. -/
  assertions : Bool
  /-- Whether `localsubmatch.postlist_from_op_leaf_query(query, factor)` throws. -/
  leaf_throws : Query → ℚ → Bool
  get_termfreq_est : PostList → Nat
  get_termfreq_max : PostList → Nat
  /-- Value of `get_maxweight()` once `recalc_maxweight()` has been called. -/
  get_maxweight : PostList → ℚ
  /-- The call `make_heap(v.begin(), v.end(), comp)`, as a function of `v`. -/
  make_heap : Cmp → List PostList → List PostList
  /-- The call `pop_heap(v.begin(), v.end(), comp)`. -/
  pop_heap : Cmp → List PostList → List PostList
  /-- The call `push_heap(v.begin(), v.end(), comp)`. -/
  push_heap : Cmp → List PostList → List PostList
  /-- The call `nth_element(v.begin(), v.begin() + nth, v.end(), comp)`. -/
  nth_element : Cmp → Nat → List PostList → List PostList

/-- An observable step of a builder. -/
inductive Event where
  /-- A postlist object comes to exist: `new ...(...)`, or a factory returns it. -/
  | create (pl : PostList) : Event
  /-- The statement `delete pl`. -/
  | delete (pl : PostList) : Event

/-- How a call ends. -/
inductive Outcome (α : Type) where
  | ok (a : α) : Outcome α
  | thrown : Outcome α
  | aborted : Outcome α

/-- A finished call: how it ended and what it did on the way. -/
structure Run (α : Type) where
  outcome : Outcome α
  log : List Event

/-- A call that returns `a` and does nothing else. -/
def Run.pure {α : Type} (a : α) : Run α := ⟨.ok a, []⟩

/-- Sequencing: `k` runs on the value of `m` when `m` returned normally. -/
def Run.bind {α β : Type} (m : Run α) (k : α → Run β) : Run β :=
  match m.outcome with
  | .ok a => ⟨(k a).outcome, m.log ++ (k a).log⟩
  | .thrown => ⟨.thrown, m.log⟩
  | .aborted => ⟨.aborted, m.log⟩

/-- Undefined behaviour or a failed assertion. -/
def Run.abort {α : Type} : Run α := ⟨.aborted, []⟩

/-- The expression `new C(args)`, or a factory call that returns: the object is
logged and returned. -/
def Run.create (pl : PostList) : Run PostList := ⟨.ok pl, [.create pl]⟩

/-- The macro `Assert(c)`: fails in a build with assertions when `c` is false. -/
def xassert (E : Env) (c : Bool) : Run Unit :=
  if E.assertions && !c then Run.abort else Run.pure ()

def Query.tname : Query → String
  | .null => ""
  | .node fields _ => fields.tname

/-- `QueryOptimiser::do_leaf`. -/
def do_leaf (E : Env) (query : Query) (factor : ℚ) : Run PostList :=
  let factor := if query.tname = "" then 0 else factor
  if E.leaf_throws query factor then ⟨.thrown, []⟩
  else Run.create (.LeafPostList query factor)

/-- The struct `PosFilter`. -/
structure PosFilter where
  op : Op
  begin_ : Nat
  end_ : Nat
  window : Nat

/-- Number of values of `size_t`. -/
def SIZE_T_RANGE : Nat := 2 ^ 64

/-- Subtraction `a - b` of two `size_t` values. -/
def size_t_sub (a b : Nat) : Nat := (a + SIZE_T_RANGE - b % SIZE_T_RANGE) % SIZE_T_RANGE

/-- The two by-reference arguments `and_plists`, `pos_filters` of the flattening
`do_and_like`. -/
structure AndState where
  and_plists : List PostList
  pos_filters : List PosFilter

/-- The function `is_and_like`. -/
def is_and_like (op : Op) : Bool :=
  op == .OP_AND || op == .OP_FILTER || op == .OP_NEAR || op == .OP_PHRASE

/-- Body of the flattening overload `do_and_like(query, factor, and_plists, pos_filters)`
around its `for` loop; `loop op s` is the loop over `query->subqs` run with the
effective operator `op` from state `s`. -/
def do_and_like_body (E : Env) (fields : QueryFields) (nsubqs : Nat)
    (loop : Op → AndState → Run AndState) (s : AndState) : Run AndState :=
  let op := fields.op
  (xassert E (is_and_like op)).bind fun _ =>
  let positional := (op == .OP_PHRASE || op == .OP_NEAR) && E.has_positions
  let op := if (op == .OP_PHRASE || op == .OP_NEAR) && !E.has_positions then Op.OP_AND else op
  (xassert E (decide (nsubqs ≥ 2))).bind fun _ =>
  (loop op s).bind fun s =>
  if positional then
    let end_ := s.and_plists.length
    let begin_ := size_t_sub end_ nsubqs
    let window := fields.parameter
    Run.pure ⟨s.and_plists, s.pos_filters ++ [⟨op, begin_, end_, window⟩]⟩
  else
    Run.pure s

/-- The loop of the two-argument `do_and_like` applying the recorded positional filters. -/
def apply_pos_filters (E : Env) (plists : List PostList) :
    List PosFilter → PostList → Run PostList
  | [], pl => Run.pure pl
  | filter :: rest, pl =>
    if filter.begin_ ≤ filter.end_ ∧ filter.end_ ≤ plists.length then
      let terms := (plists.drop filter.begin_).take (filter.end_ - filter.begin_)
      let window := filter.window
      if filter.op = .OP_NEAR then
        (Run.create (.NearPostList pl window terms)).bind (apply_pos_filters E plists rest)
      else if window = size_t_sub filter.end_ filter.begin_ then
        (xassert E (filter.op == .OP_PHRASE)).bind fun _ =>
        (Run.create (.ExactPhrasePostList pl terms)).bind (apply_pos_filters E plists rest)
      else
        (xassert E (filter.op == .OP_PHRASE)).bind fun _ =>
        (Run.create (.PhrasePostList pl window terms)).bind (apply_pos_filters E plists rest)
    else
      Run.abort

/-- The two-argument `do_and_like` after its call of the flattening overload. -/
def do_and_like_build (E : Env) (s : AndState) : Run PostList :=
  (xassert E (decide (s.and_plists.length ≥ 2))).bind fun _ =>
  (Run.create (.MultiAndPostList s.and_plists)).bind
    (apply_pos_filters E s.and_plists s.pos_filters)

/-- The functor `CmpMaxOrTerms`. -/
def CmpMaxOrTerms (E : Env) : Cmp := fun a b =>
  if E.get_termfreq_max a = 0 then false
  else if E.get_termfreq_max b = 0 then true
  else decide (E.get_maxweight a > E.get_maxweight b)

/-- The functor `ComparePostListTermFreqAscending`. -/
def ComparePostListTermFreqAscending (E : Env) : Cmp := fun a b =>
  decide (E.get_termfreq_est a > E.get_termfreq_est b)

/-- The `while (true)` loop of `do_or_like`.  Each round shortens the vector by one,
so `postlists.size()` rounds are enough; the first argument counts them down. -/
def or_like_loop (E : Env) (op : Op) : Nat → List PostList → Run PostList
  | 0, _ => Run.abort
  | fuel + 1, postlists =>
    match postlists with
    | [] => Run.abort
    | r :: _ =>
      let postlists := (E.pop_heap (ComparePostListTermFreqAscending E) postlists).dropLast
      match postlists with
      | [] => Run.abort
      | l :: _ =>
        (Run.create
          (if op = .OP_XOR then PostList.XorPostList l r else PostList.OrPostList l r)).bind
        fun pl =>
        if postlists.length = 1 then Run.pure pl
        else
          let postlists := E.pop_heap (ComparePostListTermFreqAscending E) postlists
          let postlists := postlists.dropLast ++ [pl]
          let postlists := E.push_heap (ComparePostListTermFreqAscending E) postlists
          or_like_loop E op fuel postlists

/-- The elite-set block of `do_or_like`: `Sum.inl` is the early `RETURN(postlists[0])`,
`Sum.inr` the vector the function goes on with. -/
def elite_set_select (E : Env) (elite_set_size : Nat) (postlists : List PostList) :
    Run (PostList ⊕ List PostList) :=
  (xassert E (decide (elite_set_size > 0))).bind fun _ =>
  if postlists.length > elite_set_size then
    if elite_set_size = 0 then Run.abort
    else
      let postlists := E.nth_element (CmpMaxOrTerms E) (elite_set_size - 1) postlists
      (⟨.ok (), (postlists.drop elite_set_size).map Event.delete⟩ : Run Unit).bind fun _ =>
      if elite_set_size = 1 then
        match postlists with
        | [] => Run.abort
        | p :: _ => Run.pure (.inl p)
      else
        Run.pure (.inr (postlists.take elite_set_size))
  else
    Run.pure (.inr postlists)

/-- `QueryOptimiser::do_or_like` around the loop that builds the children;
`children` is that loop, giving the vector `postlists`. -/
def do_or_like_body (E : Env) (fields : QueryFields) (nsubqs : Nat)
    (children : Run (List PostList)) : Run PostList :=
  let op := fields.op
  (xassert E (op == .OP_ELITE_SET || op == .OP_OR || op == .OP_XOR || op == .OP_SYNONYM)).bind
  fun _ =>
  let op := if op = .OP_SYNONYM then Op.OP_OR else op
  (xassert E (decide (nsubqs ≥ 2))).bind fun _ =>
  children.bind fun postlists =>
  (if op = .OP_ELITE_SET then elite_set_select E fields.parameter postlists
   else Run.pure (.inr postlists)).bind fun sel =>
  match sel with
  | .inl pl => Run.pure pl
  | .inr postlists =>
    let postlists := E.make_heap (ComparePostListTermFreqAscending E) postlists
    (xassert E (decide (postlists.length ≥ 2))).bind fun _ =>
    or_like_loop E op postlists.length postlists

/-- `QueryOptimiser::do_synonym`; `or_like factor` is `do_or_like(query, factor)`. -/
def do_synonym_body (E : Env) (fields : QueryFields) (or_like : ℚ → Run PostList)
    (factor : ℚ) : Run PostList :=
  if factor = 0 then or_like 0
  else
    (xassert E (fields.wqf == 0)).bind fun _ =>
    (or_like 0).bind fun pl =>
    Run.create (.SynonymPostList pl factor)

mutual
/-- `QueryOptimiser::do_subquery`. -/
def do_subquery (E : Env) : Query → ℚ → Run PostList
  | .null, _ => Run.create .EmptyPostList
  | .node fields subqs, factor =>
    match fields.op with
    | .OP_LEAF => do_leaf E (.node fields subqs) factor
    | .OP_EXTERNAL_SOURCE =>
      (xassert E fields.external_source.isSome).bind fun _ =>
      Run.create (.ExternalPostList fields.external_source factor)
    | .OP_AND | .OP_FILTER | .OP_NEAR | .OP_PHRASE =>
      (do_and_like_body E fields subqs.length
        (fun op s => do_and_like_loop E op subqs 0 factor s) ⟨[], []⟩).bind
        (do_and_like_build E)
    | .OP_OR | .OP_XOR | .OP_ELITE_SET =>
      do_or_like_body E fields subqs.length (do_or_like_children E subqs factor)
    | .OP_AND_NOT =>
      (xassert E (decide (subqs.length = 2))).bind fun _ =>
      match subqs with
      | q0 :: q1 :: _ =>
        (do_subquery E q0 factor).bind fun l =>
        (do_subquery E q1 0).bind fun r =>
        Run.create (.AndNotPostList l r)
      | _ => Run.abort
    | .OP_AND_MAYBE =>
      (xassert E (decide (subqs.length = 2))).bind fun _ =>
      match subqs with
      | q0 :: q1 :: _ =>
        (do_subquery E q0 factor).bind fun l =>
        (do_subquery E q1 factor).bind fun r =>
        Run.create (.AndMaybePostList l r)
      | _ => Run.abort
    | .OP_VALUE_RANGE =>
      Run.create (.ValueRangePostList fields.parameter fields.tname fields.str_parameter)
    | .OP_VALUE_GE =>
      Run.create (.ValueGePostList fields.parameter fields.tname)
    | .OP_VALUE_LE =>
      Run.create (.ValueRangePostList fields.parameter "" fields.tname)
    | .OP_SCALE_WEIGHT =>
      (xassert E (decide (subqs.length = 1))).bind fun _ =>
      let sub_factor := if factor ≠ 0 then factor * fields.dbl_parameter else factor
      match subqs with
      | q0 :: _ => do_subquery E q0 sub_factor
      | [] => Run.abort
    | .OP_SYNONYM =>
      do_synonym_body E fields
        (fun f => do_or_like_body E fields subqs.length (do_or_like_children E subqs f)) factor
/-- The flattening overload `do_and_like(query, factor, and_plists, pos_filters)`. -/
def do_and_like_flatten (E : Env) : Query → ℚ → AndState → Run AndState
  | .null, _, _ => Run.abort
  | .node fields subqs, factor, s =>
    do_and_like_body E fields subqs.length
      (fun op s => do_and_like_loop E op subqs 0 factor s) s
/-- The `for` loop of the flattening `do_and_like` from index `i` on, over the
rest of `queries`, with `op` the effective operator of the node. -/
def do_and_like_loop (E : Env) (op : Op) :
    List Query → Nat → ℚ → AndState → Run AndState
  | [], _, _, s => Run.pure s
  | subq :: rest, i, factor, s =>
    let factor := if i = 1 ∧ op = .OP_FILTER then 0 else factor
    match subq with
    | .null => Run.abort
    | .node sfields ssubqs =>
      if is_and_like sfields.op then
        (do_and_like_flatten E (.node sfields ssubqs) factor s).bind
          (do_and_like_loop E op rest (i + 1) factor)
      else
        (do_subquery E (.node sfields ssubqs) factor).bind fun pl =>
        do_and_like_loop E op rest (i + 1) factor ⟨s.and_plists ++ [pl], s.pos_filters⟩
/-- The loop of `do_or_like` that fills `postlists` with `do_subquery(*q, factor)`. -/
def do_or_like_children (E : Env) : List Query → ℚ → Run (List PostList)
  | [], _ => Run.pure []
  | q :: rest, factor =>
    (do_subquery E q factor).bind fun pl =>
    (do_or_like_children E rest factor).bind fun pls =>
    Run.pure (pl :: pls)
end

/-- The two-argument `QueryOptimiser::do_and_like(query, factor)`. -/
def do_and_like (E : Env) (query : Query) (factor : ℚ) : Run PostList :=
  (do_and_like_flatten E query factor ⟨[], []⟩).bind (do_and_like_build E)

/-- `QueryOptimiser::do_or_like(query, factor)`. -/
def do_or_like (E : Env) : Query → ℚ → Run PostList
  | .null, _ => Run.abort
  | .node fields subqs, factor =>
    do_or_like_body E fields subqs.length (do_or_like_children E subqs factor)

/-- `QueryOptimiser::do_synonym(query, factor)`. -/
def do_synonym (E : Env) : Query → ℚ → Run PostList
  | .null, _ => Run.abort
  | .node fields subqs, factor =>
    do_synonym_body E fields (do_or_like E (.node fields subqs)) factor

/-! ## The contract of the `<algorithm>` functions -/

/-- A comparison functor that is a strict weak ordering, as the algorithms require. -/
structure StrictWeak (comp : Cmp) : Prop where
  irrefl : ∀ a, comp a a = false
  trans : ∀ a b c, comp a b = true → comp b c = true → comp a c = true
  incomp_trans : ∀ a b c, comp a b = false → comp b a = false → comp b c = false →
    comp c b = false → comp a c = false ∧ comp c a = false

/-- The range is a heap with respect to `comp` (what `std::is_heap` tests): no
element is ordered after its parent. -/
def IsHeap (comp : Cmp) (v : List PostList) : Prop :=
  ∀ (i : Nat) (hi : i < v.length), 0 < i →
    comp (v.get ⟨(i - 1) / 2, by omega⟩) (v.get ⟨i, hi⟩) = false

/-- Postconditions of the four algorithms for comparison functors that are strict
weak orderings. -/
structure Env.Conforming (E : Env) : Prop where
  make_heap_perm : ∀ comp v, StrictWeak comp → (E.make_heap comp v).Perm v
  make_heap_heap : ∀ comp v, StrictWeak comp → IsHeap comp (E.make_heap comp v)
  /-- On a non-empty heap `pop_heap` moves the first element to the end and leaves
  a heap of the others in front of it. -/
  pop_heap_spec : ∀ comp x v, StrictWeak comp → IsHeap comp (x :: v) →
    ∃ w, E.pop_heap comp (x :: v) = w ++ [x] ∧ w.Perm v ∧ IsHeap comp w
  /-- When all but the last element form a heap `push_heap` makes the whole range a heap. -/
  push_heap_spec : ∀ comp v x, StrictWeak comp → IsHeap comp v →
    (E.push_heap comp (v ++ [x])).Perm (v ++ [x]) ∧ IsHeap comp (E.push_heap comp (v ++ [x]))
  nth_element_perm : ∀ comp nth v, StrictWeak comp → nth < v.length →
    (E.nth_element comp nth v).Perm v
  /-- No element from position `nth` on is ordered before an element up to position `nth`. -/
  nth_element_spec : ∀ comp nth v, StrictWeak comp → nth < v.length →
    ∀ (i j : Nat) (hi : i < (E.nth_element comp nth v).length)
      (hj : j < (E.nth_element comp nth v).length), i ≤ nth → nth ≤ j →
      comp ((E.nth_element comp nth v).get ⟨j, hj⟩) ((E.nth_element comp nth v).get ⟨i, hi⟩)
        = false

/-! ## A reference implementation of the algorithms and a stub database -/

/-- A range sorted so that no element is ordered after a later one is a heap:
`make_heap` by sorting. -/
def sorted_make_heap (comp : Cmp) (v : List PostList) : List PostList :=
  v.insertionSort (fun a b => comp a b = false)

/-- The matching `pop_heap`: the first element goes to the end, the others are sorted. -/
def sorted_pop_heap (comp : Cmp) : List PostList → List PostList
  | [] => []
  | x :: v => v.insertionSort (fun a b => comp a b = false) ++ [x]

/-- The matching `push_heap`: the whole range is sorted. -/
def sorted_push_heap (comp : Cmp) (v : List PostList) : List PostList :=
  v.insertionSort (fun a b => comp a b = false)

/-- Sorting the whole range, first-ordered elements first, is one way to do `nth_element`. -/
def sorted_nth_element (comp : Cmp) (_nth : Nat) (v : List PostList) : List PostList :=
  v.insertionSort (fun a b => comp b a = false)

def Query.wqf : Query → Nat
  | .null => 0
  | .node fields _ => fields.wqf

def Query.dbl_parameter : Query → ℚ
  | .null => 0
  | .node fields _ => fields.dbl_parameter

/-- Estimated term frequency in the stub database: a leaf has the `wqf` of its
term, a binary node the sum of its children. -/
def stub_termfreq : PostList → Nat
  | .LeafPostList query _ => query.wqf
  | .OrPostList l r => stub_termfreq l + stub_termfreq r
  | .XorPostList l r => stub_termfreq l + stub_termfreq r
  | _ => 0

/-- Maximum weight in the stub database: a leaf has the `dbl_parameter` of its term. -/
def stub_maxweight : PostList → ℚ
  | .LeafPostList query _ => query.dbl_parameter
  | _ => 0

/-- A stub environment: no factory failure, the reference algorithms, the stub database. -/
def stubEnv (has_positions assertions : Bool) : Env :=
  ⟨has_positions, assertions, fun _ _ => false, stub_termfreq, stub_termfreq, stub_maxweight,
    sorted_make_heap, sorted_pop_heap, sorted_push_heap, sorted_nth_element⟩

/-- A term query `LEAF(tname)` with the given `wqf`. -/
def leafq (tname : String) (wqf : Nat) : Query :=
  .node ⟨.OP_LEAF, tname, 0, "", 0, wqf, none⟩ []

/-- A term query with the given `wqf` whose leaf has the maximum weight `maxweight`
in the stub database. -/
def leafw (tname : String) (wqf : Nat) (maxweight : ℚ) : Query :=
  .node ⟨.OP_LEAF, tname, 0, "", maxweight, wqf, none⟩ []

/-- An operator query over `subqs` with the given `parameter`. -/
def opq (op : Op) (parameter : Nat) (subqs : List Query) : Query :=
  .node ⟨op, "", parameter, "", 0, 0, none⟩ subqs

/-- The factor the loop of the flattening `do_and_like` has after the test at the top
of round `i`, for the effective operator `op` and the factor `factor` before it. -/
def loop_factor (op : Op) (i : Nat) (factor : ℚ) : ℚ :=
  if i = 1 ∧ op = .OP_FILTER then 0 else factor

/-- One round of that loop for the child `subq` built with `factor`: an AND-like
child is flattened into the state, any other child is built by `do_subquery` and
appended to `and_plists`. -/
def and_like_child (E : Env) (subq : Query) (factor : ℚ) (s : AndState) : Run AndState :=
  match subq with
  | .null => Run.abort
  | .node sfields ssubqs =>
    if is_and_like sfields.op then
      do_and_like_flatten E (.node sfields ssubqs) factor s
    else
      (do_subquery E (.node sfields ssubqs) factor).bind fun pl =>
      Run.pure ⟨s.and_plists ++ [pl], s.pos_filters⟩

/-! ## Positional demotion: the query with `PHRASE` and `NEAR` turned into `AND` -/

/-- The operator of the demoted node. -/
def demote_op (op : Op) : Op :=
  if op = .OP_PHRASE ∨ op = .OP_NEAR then .OP_AND else op

mutual
/-- The query `q'` of the demotion claim, following its words: every `PHRASE` and
every `NEAR` node becomes an `AND` node over the same (demoted) children.  A `LEAF`
node is kept whole (it has no children; the node itself is what the leaf factory
receives). -/
def demote : Query → Query
  | .null => .null
  | .node fields subqs =>
    if fields.op = .OP_LEAF then .node fields subqs
    else .node ⟨demote_op fields.op, fields.tname, fields.parameter, fields.str_parameter,
      fields.dbl_parameter, fields.wqf, fields.external_source⟩ (demote_list subqs)
/-- Demotion of each query of a list. -/
def demote_list : List Query → List Query
  | [] => []
  | q :: qs => demote q :: demote_list qs
end

/-- Whether the object is one of the three positional wrappers. -/
def PostList.is_positional : PostList → Bool
  | .NearPostList _ _ _ => true
  | .ExactPhrasePostList _ _ => true
  | .PhrasePostList _ _ _ => true
  | _ => false

/-- Whether the step creates a positional wrapper. -/
def Event.creates_positional : Event → Bool
  | .create pl => pl.is_positional
  | .delete _ => false

/-- Every step of the run satisfies `p`. -/
def Run.LogAll {α : Type} (p : Event → Prop) (m : Run α) : Prop :=
  ∀ e ∈ m.log, p e

/-! ## Vocabulary of the claims about the flattening -/

/-- Whether the query is a node with an AND-like operator. -/
def Query.and_like : Query → Bool
  | .null => false
  | .node fields _ => is_and_like fields.op

mutual
/-- The leaves of the flattened subtree, following the words of the flattening
claim: the maximal descendants that are not AND-like nodes, reached through
AND-like nodes only, from left to right. -/
def flat_leaves : Query → List Query
  | .null => [.null]
  | .node fields subqs =>
    if is_and_like fields.op then flat_leaves_list subqs else [.node fields subqs]
/-- The leaves of the flattened subtrees of a list of queries, in order. -/
def flat_leaves_list : List Query → List Query
  | [] => []
  | q :: qs => flat_leaves q ++ flat_leaves_list qs
end

mutual
/-- The hypothesis of the flattening claim: every AND-like node reached through
AND-like nodes has at least two children, and none of its children is null. -/
def and_wf : Query → Bool
  | .null => false
  | .node fields subqs =>
    !is_and_like fields.op || (decide (2 ≤ subqs.length) && and_wf_list subqs)
/-- Every query of the list satisfies `and_wf`. -/
def and_wf_list : List Query → Bool
  | [] => true
  | q :: qs => and_wf q && and_wf_list qs
end

/-- The postlist under the positional wrappers put around it. -/
def and_root : PostList → PostList
  | .NearPostList source _ _ => and_root source
  | .ExactPhrasePostList source _ => and_root source
  | .PhrasePostList source _ _ => and_root source
  | pl => pl

/-- The children of an AND-like node built one after the other, each with the
factor paired with it, by the round `and_like_child` of the flattening loop. -/
def build_children_with (E : Env) : List (Query × ℚ) → AndState → Run AndState
  | [], s => Run.pure s
  | (c, g) :: rest, s => (and_like_child E c g s).bind (build_children_with E rest)

/-- The children from index `i` on, each paired with the factor `factor_at` gives
its index. -/
def with_factors (factor_at : Nat → ℚ) : Nat → List Query → List (Query × ℚ)
  | _, [] => []
  | i, c :: rest => (c, factor_at i) :: with_factors factor_at (i + 1) rest

/-- The factor the code gives the child of index `i` of a `FILTER` node built with
factor `f`. -/
def filter_factor (f : ℚ) (i : Nat) : ℚ := if i = 0 then f else 0

/-- The factor the FILTER scoring claim states for the child of index `i`: zero for
the second child and only for it. -/
def filter_factor_claimed (f : ℚ) (i : Nat) : ℚ := if i = 1 then 0 else f

/-- What a successful flattening run from state `s` with factor `f` looks like: it
appends to `and_plists` one postlist for each of `leaves`, in order, each built by
`do_subquery` with factor `f` or 0, at least `minlen` of them, and appends to
`pos_filters` filters whose ranges lie within the appended postlists. -/
def FlatOK (E : Env) (f : ℚ) (s : AndState) (leaves : List Query) (minlen : Nat)
    (run : Run AndState) : Prop :=
  ∃ pls fs, run.outcome = .ok ⟨s.and_plists ++ pls, s.pos_filters ++ fs⟩ ∧
    List.Forall₂ (fun d pl => ∃ g, (g = f ∨ g = 0) ∧ (do_subquery E d g).outcome = .ok pl)
      leaves pls ∧
    (∀ φ ∈ fs, s.and_plists.length ≤ φ.begin_ ∧ φ.begin_ ≤ φ.end_ ∧
      φ.end_ ≤ s.and_plists.length + pls.length ∧ (φ.op = .OP_NEAR ∨ φ.op = .OP_PHRASE)) ∧
    minlen ≤ pls.length

/-! ## Vocabulary of the factor propagation claim -/

/-- The call of the leaf factory a step stands for: the creation of the leaf
postlist of `query` with `factor` is the return of
`postlist_from_op_leaf_query(query, factor)`. -/
def Event.leaf_call : Event → Option (Query × ℚ)
  | .create (.LeafPostList query factor) => some (query, factor)
  | _ => none

/-- The calls of the leaf factory in a log, in order. -/
def leaf_calls (log : List Event) : List (Query × ℚ) := log.filterMap Event.leaf_call

/-- The weight factor given to the object a step creates, when it takes one: a leaf
postlist, an external postlist, a synonym postlist. -/
def Event.factor : Event → Option ℚ
  | .create (.LeafPostList _ factor) => some factor
  | .create (.ExternalPostList _ factor) => some factor
  | .create (.SynonymPostList _ factor) => some factor
  | _ => none

mutual
/-- The leaves of a query in the order `do_subquery` visits them, each with a mark
saying whether, in the words of the factor propagation claim, it lies below the
right child of an `AND_NOT` node, below the second child of a `FILTER` node or
below a `SYNONYM` node; `shielded` says whether the query itself lies so. -/
def marked_leaves : Query → Bool → List (Query × Bool)
  | .null, _ => []
  | .node fields subqs, shielded =>
    match fields.op with
    | .OP_LEAF => [(.node fields subqs, shielded)]
    | .OP_EXTERNAL_SOURCE => []
    | .OP_VALUE_RANGE => []
    | .OP_VALUE_GE => []
    | .OP_VALUE_LE => []
    | .OP_AND => marked_children false subqs 0 shielded
    | .OP_NEAR => marked_children false subqs 0 shielded
    | .OP_PHRASE => marked_children false subqs 0 shielded
    | .OP_FILTER => marked_children true subqs 0 shielded
    | .OP_OR => marked_children false subqs 0 shielded
    | .OP_XOR => marked_children false subqs 0 shielded
    | .OP_ELITE_SET => marked_children false subqs 0 shielded
    | .OP_SYNONYM => marked_children false subqs 0 true
    | .OP_AND_NOT =>
      match subqs with
      | l :: r :: _ => marked_leaves l shielded ++ marked_leaves r true
      | _ => []
    | .OP_AND_MAYBE =>
      match subqs with
      | l :: r :: _ => marked_leaves l shielded ++ marked_leaves r shielded
      | _ => []
    | .OP_SCALE_WEIGHT =>
      match subqs with
      | c :: _ => marked_leaves c shielded
      | [] => []
/-- The marked leaves of the children of a node from index `i` on; the child of
index 1 of a `FILTER` node is shielded. -/
def marked_children (is_filter : Bool) : List Query → Nat → Bool → List (Query × Bool)
  | [], _, _ => []
  | c :: rest, i, shielded =>
    marked_leaves c (shielded || (is_filter && decide (i = 1)))
      ++ marked_children is_filter rest (i + 1) shielded
end

/-- A call of the leaf factory agrees with a marked leaf: it hands over that leaf,
and with factor 0 when the leaf is shielded or has an empty `tname`. -/
def call_agrees (m : Query × Bool) (c : Query × ℚ) : Prop :=
  c.1 = m.1 ∧ ((m.2 = true ∨ m.1.tname = "") → c.2 = 0)

/-- When the run returns, its calls of the leaf factory agree, one for one and in
order, with the marked leaves `marks`. -/
def Run.Marked {α : Type} (marks : List (Query × Bool)) (m : Run α) : Prop :=
  (∃ a, m.outcome = .ok a) → List.Forall₂ call_agrees marks (leaf_calls m.log)

/-! ## Vocabulary of the claims about the OR-like build -/

/-- The binary node the build loop of `do_or_like` constructs for the operator `op`. -/
def or_node (op : Op) (l r : PostList) : PostList :=
  if op = .OP_XOR then .XorPostList l r else .OrPostList l r

/-- `OrTree op t leaves`: `t` is a tree of binary nodes of `op` over the postlists
`leaves`, read from left to right (a single postlist is a tree over itself). -/
inductive OrTree (op : Op) : PostList → List PostList → Prop where
  | leaf (p : PostList) : OrTree op p [p]
  | node {l r : PostList} {ls rs : List PostList} :
      OrTree op l ls → OrTree op r rs → OrTree op (or_node op l r) (ls ++ rs)

/-- The entries of the vector `v` are trees over disjoint parts of `leaves` that
together make up `leaves`. -/
def Covers (op : Op) (v : List PostList) (leaves : List PostList) : Prop :=
  ∃ lss : List (List PostList), List.Forall₂ (OrTree op) v lss ∧ lss.flatten.Perm leaves

/-- The Huffman invariant at a step: a binary OR or XOR node is created with a left
child whose estimated term frequency is at least that of the right child. -/
def Event.huffman_ok (E : Env) : Event → Prop
  | .create (.OrPostList l r) => E.get_termfreq_est r ≤ E.get_termfreq_est l
  | .create (.XorPostList l r) => E.get_termfreq_est r ≤ E.get_termfreq_est l
  | _ => True

/-- Whether the object is a binary `OrPostList` or `XorPostList`. -/
def PostList.is_or_node : PostList → Bool
  | .OrPostList _ _ => true
  | .XorPostList _ _ => true
  | _ => false

/-- The four terms of scenario S5, with maximum weights 0.2, 0.8, 0.5 and 0.9. -/
def s5_terms : List Query :=
  [leafw "A" 1 (2 / 10), leafw "B" 2 (8 / 10), leafw "C" 3 (5 / 10), leafw "D" 4 (9 / 10)]

/-- The leaf postlists of the terms of scenario S5 built with factor 1. -/
def s5_postlists : List PostList :=
  [.LeafPostList (leafw "A" 1 (2 / 10)) 1, .LeafPostList (leafw "B" 2 (8 / 10)) 1,
    .LeafPostList (leafw "C" 3 (5 / 10)) 1, .LeafPostList (leafw "D" 4 (9 / 10)) 1]

/-! ## `common/weightinternal.h`: the statistics of a collection -/

/-- The class `Xapian::Weight::Internal` (the member `db` is left out; the two maps
are association lists). -/
structure Weight.Internal where
  total_length : Nat
  collection_size : Nat
  rset_size : Nat
  termfreq : List (String × Nat)
  reltermfreq : List (String × Nat)

/-- The default constructor `Internal()`. -/
def Weight.Internal.Internal : Weight.Internal := ⟨0, 0, 0, [], []⟩

/-- Rounding of a rational to the nearest integer, a tie going to the even one. -/
def round_half_even (y : ℚ) : ℤ :=
  if y - ⌊y⌋ < 1 / 2 then ⌊y⌋
  else if 1 / 2 < y - ⌊y⌋ then ⌊y⌋ + 1
  else if ⌊y⌋ % 2 = 0 then ⌊y⌋ else ⌊y⌋ + 1

/-- The `double` nearest to the real number `x` (IEEE 754 binary64, rounding to
nearest, ties to even): `x` is scaled by a power of two to a significand in
`[2^52, 2^53)`, and the significand is rounded to an integer.  The exponent range is
not modelled (no overflow, no subnormals): the quotients of two non-zero unsigned
integers of at most 64 bits lie within it. -/
def round_double (x : ℚ) : ℚ :=
  if x = 0 then 0
  else (round_half_even (x / 2 ^ (Int.log 2 |x| - 52)) : ℚ) * 2 ^ (Int.log 2 |x| - 52)

/-- The conversion of an unsigned integer to `double`, as in
`Xapian::doclength(total_length)` and in the promotion of `collection_size`. -/
def double_of_nat (n : Nat) : ℚ := round_double n

/-- The division `a / b` of two `double` values, rounded to a `double`, with no
value when the divisor is zero. -/
def double_div (a b : ℚ) : Option ℚ := if b = 0 then none else some (round_double (a / b))

/-- `Weight::Internal::get_average_length`; the result is `none` if the division
were made with a zero divisor. -/
def Weight.Internal.get_average_length (stats : Weight.Internal) : Option ℚ :=
  if stats.collection_size = 0 then some 0
  else double_div (double_of_nat stats.total_length) (double_of_nat stats.collection_size)

/-- The non-negative number `x` is a `double`: an integer below `2^53` times a power
of two. -/
def is_double (x : ℚ) : Prop := ∃ (M : ℕ) (E : ℤ), M < 2 ^ 53 ∧ x = (M : ℚ) * 2 ^ E

/-! ## Vocabulary of the claims about `CmpMaxOrTerms` -/

/-- The term weight of the doc comment of `CmpMaxOrTerms::operator()`: 0 when the
term frequency is 0, the maximum weight otherwise. -/
def term_weight (E : Env) (a : PostList) : ℚ :=
  if E.get_termfreq_max a = 0 then 0 else E.get_maxweight a

/-! ## Vocabulary of the claims about the order of the merges -/

/-- The first binary OR or XOR node created in a run, if there is one. -/
def first_or_node : List Event → Option PostList
  | [] => none
  | .create pl :: rest => if pl.is_or_node then some pl else first_or_node rest
  | .delete _ :: rest => first_or_node rest

/-- The postlists in the order the build loop takes them out of the heap: for each
binary node created, first its `r`, then its `l`. -/
def removal_order : List Event → List PostList
  | [] => []
  | .create (.OrPostList l r) :: rest => r :: l :: removal_order rest
  | .create (.XorPostList l r) :: rest => r :: l :: removal_order rest
  | _ :: rest => removal_order rest

/-- The four terms of scenario S4; the estimated term frequency of a term in the
stub database is its `wqf`. -/
def s4_terms : List Query :=
  [leafq "A" 100, leafq "B" 10, leafq "C" 1000, leafq "D" 1]

/-- Another `make_heap`: the range is read from the back and sorted. -/
def reversed_make_heap (comp : Cmp) (v : List PostList) : List PostList :=
  sorted_make_heap comp v.reverse

/-- The stub environment with `reversed_make_heap` in place of `sorted_make_heap`. -/
def revEnv (has_positions assertions : Bool) : Env :=
  ⟨has_positions, assertions, fun _ _ => false, stub_termfreq, stub_termfreq, stub_maxweight,
    reversed_make_heap, sorted_pop_heap, sorted_push_heap, sorted_nth_element⟩

/-- In the removal order `order` the postlist `x` comes before the postlist `y`. -/
def removed_before (order : List PostList) (x y : PostList) : Prop :=
  ∃ pre post, order = pre ++ x :: post ∧ y ∈ post

/-! ## Vocabulary of the claim about failures -/

/-- A `PHRASE` or `NEAR` node as the claims speak of it: its operator, its window
and the number of its direct children. -/
structure PositionalNode where
  op : Op
  window : Nat
  arity : Nat

mutual
/-- The `PHRASE` and `NEAR` nodes met during the flattening of a query, a node
after the nodes below it and after the nodes of its earlier siblings; none when the
database has no positions. -/
def positional_nodes (has_positions : Bool) : Query → List PositionalNode
  | .null => []
  | .node fields subqs =>
    if is_and_like fields.op then
      positional_nodes_list has_positions subqs ++
        (if (fields.op == .OP_PHRASE || fields.op == .OP_NEAR) && has_positions
          then [⟨fields.op, fields.parameter, subqs.length⟩] else [])
    else []
/-- The `PHRASE` and `NEAR` nodes met during the flattening of a list of queries. -/
def positional_nodes_list (has_positions : Bool) : List Query → List PositionalNode
  | [] => []
  | q :: qs => positional_nodes has_positions q ++ positional_nodes_list has_positions qs
end

/-- The filter `φ` is the one recorded for the node `node`: it has the node's
operator and window, and its range `[begin, end)` spans as many entries as the node
has direct children and lies between the positions `lo` and `hi` of the flat list. -/
def filter_records (lo hi : Nat) (node : PositionalNode) (φ : PosFilter) : Prop :=
  φ.op = node.op ∧ φ.window = node.window ∧ lo ≤ φ.begin_ ∧
    φ.begin_ + node.arity = φ.end_ ∧ φ.end_ ≤ hi

/-- The wrapper the wrapper-choice claim states for a recorded filter, put around
`root`, over the flat list `plists`: the terms are the entries `[begin, end)`. -/
def wrap_claimed (plists : List PostList) (root : PostList) (φ : PosFilter) : PostList :=
  if φ.op = .OP_NEAR then
    .NearPostList root φ.window ((plists.drop φ.begin_).take (φ.end_ - φ.begin_))
  else if φ.window = φ.end_ - φ.begin_ then
    .ExactPhrasePostList root ((plists.drop φ.begin_).take (φ.end_ - φ.begin_))
  else
    .PhrasePostList root φ.window ((plists.drop φ.begin_).take (φ.end_ - φ.begin_))

/-- What a successful flattening run from state `s` with factor `f` looks like, with
the filters it records: as `FlatOK`, and the filters appended to `pos_filters` are
those of `nodes`, one for one and in order, each within the appended postlists. -/
def FlatRec (E : Env) (f : ℚ) (s : AndState) (leaves : List Query)
    (nodes : List PositionalNode) (minlen : Nat) (run : Run AndState) : Prop :=
  ∃ pls fs, run.outcome = .ok ⟨s.and_plists ++ pls, s.pos_filters ++ fs⟩ ∧
    List.Forall₂ (fun d pl => ∃ g, (g = f ∨ g = 0) ∧ (do_subquery E d g).outcome = .ok pl)
      leaves pls ∧
    List.Forall₂ (filter_records s.and_plists.length (s.and_plists.length + pls.length))
      nodes fs ∧
    (∀ φ ∈ fs, φ.op = .OP_NEAR ∨ φ.op = .OP_PHRASE) ∧
    minlen ≤ pls.length

/-- The value of `queries.size()` for the node: the number of its direct children. -/
def Query.arity : Query → Nat
  | .null => 0
  | .node _ subqs => subqs.length

/-! # Theorems -/

/-! ## Basic facts about `Run` -/

@[simp] theorem Run.pure_bind {α β : Type} (a : α) (k : α → Run β) :
    (Run.pure a).bind k = k a := by
  simp [Run.pure, Run.bind]

@[simp] theorem Run.abort_bind {α β : Type} (k : α → Run β) :
    (Run.abort : Run α).bind k = Run.abort := by
  simp [Run.abort, Run.bind]

@[simp] theorem Run.bind_pure {α : Type} (m : Run α) : m.bind Run.pure = m := by
  obtain ⟨o, l⟩ := m
  cases o <;> simp [Run.pure, Run.bind]

theorem Run.bind_assoc {α β γ : Type} (m : Run α) (k : α → Run β) (k2 : β → Run γ) :
    (m.bind k).bind k2 = m.bind (fun a => (k a).bind k2) := by
  obtain ⟨o, l⟩ := m
  cases o with
  | ok a =>
    simp only [Run.bind]
    cases (k a).outcome <;> simp
  | thrown => simp [Run.bind]
  | aborted => simp [Run.bind]

theorem Run.ok_bind {α β : Type} (a : α) (l : List Event) (k : α → Run β) :
    (⟨.ok a, l⟩ : Run α).bind k = ⟨(k a).outcome, l ++ (k a).log⟩ := rfl

theorem Run.bind_eq_ok {α β : Type} {m : Run α} {k : α → Run β} {b : β} {l : List Event} :
    m.bind k = ⟨.ok b, l⟩ ↔
      ∃ a l1 l2, m = ⟨.ok a, l1⟩ ∧ k a = ⟨.ok b, l2⟩ ∧ l = l1 ++ l2 := by
  obtain ⟨o, lm⟩ := m
  constructor
  · intro h
    cases o with
    | ok a =>
      simp only [Run.bind, Run.mk.injEq] at h
      refine ⟨a, lm, (k a).log, rfl, ?_, h.2.symm⟩
      rw [← h.1]
    | thrown => simp [Run.bind] at h
    | aborted => simp [Run.bind] at h
  · rintro ⟨a, l1, l2, h1, h2, h3⟩
    simp only [Run.mk.injEq] at h1
    obtain ⟨rfl, rfl⟩ := h1
    simp [Run.bind, h2, h3]

theorem xassert_true (E : Env) : xassert E true = Run.pure () := by
  simp [xassert]

theorem xassert_of_eq_true (E : Env) {c : Bool} (h : c = true) : xassert E c = Run.pure () := by
  subst h
  simp [xassert]

theorem xassert_cases (E : Env) (c : Bool) :
    xassert E c = Run.pure () ∨ (xassert E c = Run.abort ∧ E.assertions = true ∧ c = false) := by
  unfold xassert
  cases E.assertions <;> cases c <;> simp

theorem Run.bind_outcome_ok {α β : Type} {m : Run α} {k : α → Run β} {b : β} :
    (m.bind k).outcome = .ok b ↔ ∃ a, m.outcome = .ok a ∧ (k a).outcome = .ok b := by
  obtain ⟨o, lm⟩ := m
  cases o <;> simp [Run.bind]

theorem Run.mem_log_bind {α β : Type} {m : Run α} {k : α → Run β} {e : Event}
    (h : e ∈ (m.bind k).log) : e ∈ m.log ∨ ∃ a, m.outcome = .ok a ∧ e ∈ (k a).log := by
  obtain ⟨o, lm⟩ := m
  cases o with
  | ok a =>
    simp only [Run.bind, List.mem_append] at h
    rcases h with h | h
    · exact Or.inl h
    · exact Or.inr ⟨a, rfl, h⟩
  | thrown => exact Or.inl (by simpa [Run.bind] using h)
  | aborted => exact Or.inl (by simpa [Run.bind] using h)

theorem Run.logAll_bind {α β : Type} {p : Event → Prop} {m : Run α} {k : α → Run β}
    (hm : m.LogAll p) (hk : ∀ a, m.outcome = .ok a → (k a).LogAll p) : (m.bind k).LogAll p := by
  intro e he
  rcases Run.mem_log_bind he with h | ⟨a, ha, h⟩
  · exact hm e h
  · exact hk a ha e h

theorem Run.logAll_pure {α : Type} (p : Event → Prop) (a : α) : (Run.pure a).LogAll p := by
  intro e he
  simp [Run.pure] at he

theorem Run.logAll_abort {α : Type} (p : Event → Prop) : (Run.abort : Run α).LogAll p := by
  intro e he
  simp [Run.abort] at he

theorem Run.logAll_create {p : Event → Prop} {pl : PostList} (h : p (.create pl)) :
    (Run.create pl).LogAll p := by
  intro e he
  simp only [Run.create, List.mem_singleton] at he
  exact he ▸ h

theorem Run.logAll_xassert (p : Event → Prop) (E : Env) (c : Bool) : (xassert E c).LogAll p := by
  rcases xassert_cases E c with h | ⟨h, _⟩ <;> rw [h]
  · exact Run.logAll_pure p ()
  · exact Run.logAll_abort p

theorem Run.create_outcome (pl : PostList) : (Run.create pl).outcome = .ok pl := rfl

theorem Run.pure_outcome {α : Type} (a : α) : (Run.pure a).outcome = .ok a := rfl

theorem do_leaf_logAll {p : Event → Prop} (E : Env) (q : Query) (f : ℚ)
    (h : ∀ g, p (.create (.LeafPostList q g))) : (do_leaf E q f).LogAll p := by
  unfold do_leaf
  simp only
  split_ifs
  all_goals first
    | exact Run.logAll_create (h _)
    | exact fun e he => absurd he (List.not_mem_nil e)

/-- The build loop of `do_or_like` creates binary OR and XOR nodes only. -/
theorem or_like_loop_logAll {p : Event → Prop} (E : Env) (op : Op)
    (h : ∀ l r, p (.create (.OrPostList l r)) ∧ p (.create (.XorPostList l r))) :
    ∀ (fuel : Nat) (v : List PostList), (or_like_loop E op fuel v).LogAll p := by
  intro fuel
  induction fuel with
  | zero => intro v; exact Run.logAll_abort p
  | succ n ih =>
    intro v
    unfold or_like_loop
    cases v with
    | nil => exact Run.logAll_abort p
    | cons r v' =>
      simp only
      split
      · exact Run.logAll_abort p
      · refine Run.logAll_bind (Run.logAll_create ?_) ?_
        · split
          · exact (h _ _).2
          · exact (h _ _).1
        · intro a _
          split
          · exact Run.logAll_pure p a
          · exact ih _

/-- The elite-set block logs deletions only. -/
theorem elite_set_select_logAll {p : Event → Prop} (E : Env) (k : Nat) (v : List PostList)
    (h : ∀ pl, p (.delete pl)) : (elite_set_select E k v).LogAll p := by
  unfold elite_set_select
  refine Run.logAll_bind (Run.logAll_xassert p E _) ?_
  intro _ _
  split
  · split
    · exact Run.logAll_abort p
    · refine Run.logAll_bind ?_ ?_
      · intro e he
        simp only [List.mem_map] at he
        obtain ⟨pl, _, rfl⟩ := he
        exact h pl
      · intro _ _
        split
        · split
          · exact Run.logAll_abort p
          · exact Run.logAll_pure p _
        · exact Run.logAll_pure p _
  · exact Run.logAll_pure p _

theorem do_or_like_body_logAll {p : Event → Prop} (E : Env) (fields : QueryFields) (n : Nat)
    (children : Run (List PostList)) (hc : children.LogAll p)
    (h : ∀ l r, p (.create (.OrPostList l r)) ∧ p (.create (.XorPostList l r)))
    (hd : ∀ pl, p (.delete pl)) : (do_or_like_body E fields n children).LogAll p := by
  unfold do_or_like_body
  refine Run.logAll_bind (Run.logAll_xassert p E _) ?_
  intro _ _
  refine Run.logAll_bind (Run.logAll_xassert p E _) ?_
  intro _ _
  refine Run.logAll_bind hc ?_
  intro v _
  refine Run.logAll_bind ?_ ?_
  · split_ifs
    all_goals first
      | exact elite_set_select_logAll E _ _ hd
      | exact Run.logAll_pure p _
  · intro sel _
    cases sel with
    | inl pl => exact Run.logAll_pure p _
    | inr w =>
      refine Run.logAll_bind (Run.logAll_xassert p E _) ?_
      intro _ _
      exact or_like_loop_logAll E _ h _ _

theorem do_synonym_body_logAll {p : Event → Prop} (E : Env) (fields : QueryFields)
    (or_like : ℚ → Run PostList) (f : ℚ) (ho : ∀ g, (or_like g).LogAll p)
    (h : ∀ pl g, p (.create (.SynonymPostList pl g))) :
    (do_synonym_body E fields or_like f).LogAll p := by
  unfold do_synonym_body
  split
  · exact ho 0
  · refine Run.logAll_bind (Run.logAll_xassert p E _) ?_
    intro _ _
    refine Run.logAll_bind (ho 0) ?_
    intro pl _
    exact Run.logAll_create (h _ _)

/-! ## The flattening loop, one child at a time -/

theorem do_and_like_loop_nil (E : Env) (op : Op) (i : Nat) (f : ℚ) (s : AndState) :
    do_and_like_loop E op [] i f s = Run.pure s := by
  simp [do_and_like_loop]

theorem do_and_like_loop_cons (E : Env) (op : Op) (subq : Query) (rest : List Query)
    (i : Nat) (f : ℚ) (s : AndState) :
    do_and_like_loop E op (subq :: rest) i f s
      = (and_like_child E subq (loop_factor op i f) s).bind
          (do_and_like_loop E op rest (i + 1) (loop_factor op i f)) := by
  cases subq with
  | null => simp [do_and_like_loop, and_like_child]
  | node sfields ssubqs =>
    simp only [do_and_like_loop, and_like_child, loop_factor]
    split
    · rfl
    · rw [Run.bind_assoc]
      simp

theorem demote_list_length : ∀ qs : List Query, (demote_list qs).length = qs.length
  | [] => by simp [demote_list]
  | _ :: qs => by simp [demote_list, demote_list_length qs]

theorem is_and_like_demote_op (op : Op) : is_and_like (demote_op op) = is_and_like op := by
  cases op <;> rfl

/-- Without positions the body of the flattening does not look at whether the
operator is positional. -/
theorem do_and_like_body_demote (E : Env) (hpos : E.has_positions = false)
    (fields : QueryFields) (n : Nat) (loop : Op → AndState → Run AndState) (s : AndState) :
    do_and_like_body E ⟨demote_op fields.op, fields.tname, fields.parameter,
        fields.str_parameter, fields.dbl_parameter, fields.wqf, fields.external_source⟩ n loop s
      = do_and_like_body E fields n loop s := by
  unfold do_and_like_body demote_op
  cases h : fields.op <;> simp [hpos, is_and_like]

/-- Simultaneous induction over a query and over lists of queries. -/
theorem Query.induct {P : Query → Prop} {PL : List Query → Prop}
    (hnull : P .null)
    (hnode : ∀ fields subqs, PL subqs → (∀ q ∈ subqs, P q) → P (.node fields subqs))
    (hnil : PL [])
    (hcons : ∀ q qs, P q → PL qs → PL (q :: qs)) :
    (∀ q, P q) ∧ (∀ qs, PL qs) := by
  have key : ∀ q, P q := by
    intro q
    refine Query.rec (motive_1 := P) (motive_2 := fun qs => PL qs ∧ ∀ q ∈ qs, P q)
      hnull ?_ ?_ ?_ q
    · intro fields subqs ih
      exact hnode fields subqs ih.1 ih.2
    · exact ⟨hnil, by simp⟩
    · intro q qs ihq ihqs
      refine ⟨hcons q qs ihq ihqs.1, ?_⟩
      intro q' hq'
      rcases List.mem_cons.mp hq' with h | h
      · exact h ▸ ihq
      · exact ihqs.2 q' h
  refine ⟨key, ?_⟩
  intro qs
  induction qs with
  | nil => exact hnil
  | cons q qs ih => exact hcons q qs (key q) ih

/-- Without positions, building the demoted query is the same run, for each of the
four recursive functions. -/
theorem demote_runs (E : Env) (hpos : E.has_positions = false) :
    (∀ q, (∀ f, do_subquery E (demote q) f = do_subquery E q f) ∧
      (∀ f s, do_and_like_flatten E (demote q) f s = do_and_like_flatten E q f s)) ∧
    (∀ qs, (∀ op i f s, do_and_like_loop E op (demote_list qs) i f s
        = do_and_like_loop E op qs i f s) ∧
      (∀ f, do_or_like_children E (demote_list qs) f = do_or_like_children E qs f)) := by
  apply Query.induct
  · exact ⟨fun f => by simp [demote], fun f s => by simp [demote]⟩
  · rintro ⟨op, tn, pa, sp, k, wq, es⟩ subqs ⟨hl, hc⟩ hsub
    have hlen := demote_list_length subqs
    have hb := do_and_like_body_demote E hpos ⟨op, tn, pa, sp, k, wq, es⟩
    constructor
    · intro f
      cases op with
      | OP_LEAF => simp [demote]
      | OP_EXTERNAL_SOURCE => simp [demote, demote_op, do_subquery]
      | OP_VALUE_RANGE => simp [demote, demote_op, do_subquery]
      | OP_VALUE_GE => simp [demote, demote_op, do_subquery]
      | OP_VALUE_LE => simp [demote, demote_op, do_subquery]
      | OP_AND => simp [demote, demote_op, do_subquery, hlen, hl]
      | OP_FILTER => simp [demote, demote_op, do_subquery, hlen, hl]
      | OP_NEAR =>
        simp only [demote_op] at hb
        simp at hb
        simp [demote, demote_op, do_subquery, hlen, hl, hb]
      | OP_PHRASE =>
        simp only [demote_op] at hb
        simp at hb
        simp [demote, demote_op, do_subquery, hlen, hl, hb]
      | OP_OR => simp [demote, demote_op, do_subquery, hlen, hc]
      | OP_XOR => simp [demote, demote_op, do_subquery, hlen, hc]
      | OP_ELITE_SET => simp [demote, demote_op, do_subquery, hlen, hc]
      | OP_SYNONYM => simp [demote, demote_op, do_subquery, hlen, hc]
      | OP_AND_NOT =>
        match subqs, hsub with
        | [], _ => simp [demote, demote_op, do_subquery, demote_list]
        | [q0], _ => simp [demote, demote_op, do_subquery, demote_list]
        | q0 :: q1 :: rest, hsub =>
          have e0 := (hsub q0 (by simp)).1
          have e1 := (hsub q1 (by simp)).1
          have e2 := demote_list_length rest
          clear hb hl hc hlen
          simp [demote, demote_op, do_subquery, demote_list, e0, e1]
          rw [e2]
      | OP_AND_MAYBE =>
        match subqs, hsub with
        | [], _ => simp [demote, demote_op, do_subquery, demote_list]
        | [q0], _ => simp [demote, demote_op, do_subquery, demote_list]
        | q0 :: q1 :: rest, hsub =>
          have e0 := (hsub q0 (by simp)).1
          have e1 := (hsub q1 (by simp)).1
          have e2 := demote_list_length rest
          clear hb hl hc hlen
          simp [demote, demote_op, do_subquery, demote_list, e0, e1]
          rw [e2]
      | OP_SCALE_WEIGHT =>
        match subqs, hsub with
        | [], _ => simp [demote, demote_op, do_subquery, demote_list]
        | q0 :: rest, hsub =>
          have e0 := (hsub q0 (by simp)).1
          have e2 := demote_list_length rest
          clear hb hl hc hlen
          simp [demote, demote_op, do_subquery, demote_list, e0]
          rw [e2]
    · intro f s
      by_cases hleaf : op = .OP_LEAF
      · simp [demote, hleaf]
      · simp only [demote, hleaf, if_false, do_and_like_flatten, hlen, hl]
        exact hb _ _ _
  · exact ⟨fun op i f s => by simp [demote_list], fun f => by simp [demote_list]⟩
  · rintro q qs ⟨h2, h1⟩ ⟨h3', h4⟩
    have h3 : ∀ op i f, do_and_like_loop E op (demote_list qs) i f
        = do_and_like_loop E op qs i f := fun op i f => funext (h3' op i f)
    constructor
    · intro op i f s
      have hch : ∀ g, and_like_child E (demote q) g s = and_like_child E q g s := by
        intro g
        match q, h1, h2 with
        | .null, _, _ => simp [demote]
        | .node ⟨sop, tn, pa, sp, k, wq, es⟩ ssubqs, h1, h2 =>
          by_cases hleaf : sop = .OP_LEAF
          · simp [demote, hleaf]
          · simp only [demote, hleaf, if_false] at h1 h2
            simp only [demote, hleaf, if_false, and_like_child, is_and_like_demote_op, h1, h2]
      simp only [demote_list, do_and_like_loop_cons, hch, h3]
    · intro f
      simp only [demote_list, do_or_like_children, h2, h4]

/-- Without positions the flattening records no positional filter, so the filter
list it was given comes back unchanged. -/
theorem do_and_like_body_no_positions {p : Event → Prop} (E : Env)
    (hpos : E.has_positions = false) (fields : QueryFields) (n : Nat)
    (loop : Op → AndState → Run AndState) (s : AndState)
    (hloop : ∀ op s, (loop op s).LogAll p ∧
      ∀ s', (loop op s).outcome = .ok s' → s'.pos_filters = s.pos_filters) :
    (do_and_like_body E fields n loop s).LogAll p ∧
      ∀ s', (do_and_like_body E fields n loop s).outcome = .ok s' →
        s'.pos_filters = s.pos_filters := by
  unfold do_and_like_body
  simp only [hpos, Bool.and_false, Bool.false_eq_true, if_false, Bool.not_false, Bool.and_true]
  constructor
  · refine Run.logAll_bind (Run.logAll_xassert p E _) fun _ _ => ?_
    refine Run.logAll_bind (Run.logAll_xassert p E _) fun _ _ => ?_
    refine Run.logAll_bind (hloop _ _).1 fun _ _ => ?_
    exact Run.logAll_pure p _
  · intro s' h
    obtain ⟨_, _, h⟩ := Run.bind_outcome_ok.mp h
    obtain ⟨_, _, h⟩ := Run.bind_outcome_ok.mp h
    obtain ⟨s1, h1, h⟩ := Run.bind_outcome_ok.mp h
    simp only [Run.pure_outcome, Outcome.ok.injEq] at h
    subst h
    exact (hloop _ _).2 _ h1

theorem do_and_like_build_no_filters {p : Event → Prop} (E : Env) (s : AndState)
    (hs : s.pos_filters = []) (h : ∀ pls, p (.create (.MultiAndPostList pls))) :
    (do_and_like_build E s).LogAll p := by
  unfold do_and_like_build
  refine Run.logAll_bind (Run.logAll_xassert p E _) fun _ _ => ?_
  refine Run.logAll_bind (Run.logAll_create (h _)) fun _ _ => ?_
  rw [hs]
  simp only [apply_pos_filters]
  exact Run.logAll_pure p _

/-- Without positions no run creates a positional wrapper. -/
theorem no_positional_created (E : Env) (hpos : E.has_positions = false) :
    (∀ q, (∀ f, (do_subquery E q f).LogAll (fun e => e.creates_positional = false)) ∧
      (∀ f s, (do_and_like_flatten E q f s).LogAll (fun e => e.creates_positional = false) ∧
        ∀ s', (do_and_like_flatten E q f s).outcome = .ok s' →
          s'.pos_filters = s.pos_filters)) ∧
    (∀ qs, (∀ op i f s,
        (do_and_like_loop E op qs i f s).LogAll (fun e => e.creates_positional = false) ∧
        ∀ s', (do_and_like_loop E op qs i f s).outcome = .ok s' →
          s'.pos_filters = s.pos_filters) ∧
      (∀ f, (do_or_like_children E qs f).LogAll (fun e => e.creates_positional = false))) := by
  apply Query.induct
  · refine ⟨fun f => ?_, fun f s => ?_⟩
    · simp only [do_subquery]
      exact Run.logAll_create rfl
    · simp only [do_and_like_flatten]
      exact ⟨Run.logAll_abort _, fun s' h => by simp [Run.abort] at h⟩
  · rintro ⟨op, tn, pa, sp, k, wq, es⟩ subqs ⟨hl, hc⟩ hsub
    have hbody := fun f s => do_and_like_body_no_positions E hpos ⟨op, tn, pa, sp, k, wq, es⟩
      subqs.length (fun op s => do_and_like_loop E op subqs 0 f s) s (fun op s => hl op 0 f s)
    have hand : ∀ f, (Run.bind (do_and_like_body E ⟨op, tn, pa, sp, k, wq, es⟩ subqs.length
        (fun op s => do_and_like_loop E op subqs 0 f s) ⟨[], []⟩)
        (do_and_like_build E)).LogAll (fun e => e.creates_positional = false) := by
      intro f
      refine Run.logAll_bind (hbody f _).1 fun s' hs' => ?_
      exact do_and_like_build_no_filters E s' ((hbody f _).2 s' hs') (fun _ => rfl)
    have hor : ∀ f, (do_or_like_body E ⟨op, tn, pa, sp, k, wq, es⟩ subqs.length
        (do_or_like_children E subqs f)).LogAll (fun e => e.creates_positional = false) :=
      fun f => do_or_like_body_logAll E _ _ _ (hc f) (fun _ _ => ⟨rfl, rfl⟩) (fun _ => rfl)
    refine ⟨fun f => ?_, fun f s => ?_⟩
    · cases op with
      | OP_LEAF =>
        simp only [do_subquery]
        exact do_leaf_logAll E _ _ (fun _ => rfl)
      | OP_EXTERNAL_SOURCE =>
        simp only [do_subquery]
        exact Run.logAll_bind (Run.logAll_xassert _ E _) fun _ _ => Run.logAll_create rfl
      | OP_VALUE_RANGE => simp only [do_subquery]; exact Run.logAll_create rfl
      | OP_VALUE_GE => simp only [do_subquery]; exact Run.logAll_create rfl
      | OP_VALUE_LE => simp only [do_subquery]; exact Run.logAll_create rfl
      | OP_AND => simp only [do_subquery]; exact hand f
      | OP_FILTER => simp only [do_subquery]; exact hand f
      | OP_NEAR => simp only [do_subquery]; exact hand f
      | OP_PHRASE => simp only [do_subquery]; exact hand f
      | OP_OR => simp only [do_subquery]; exact hor f
      | OP_XOR => simp only [do_subquery]; exact hor f
      | OP_ELITE_SET => simp only [do_subquery]; exact hor f
      | OP_SYNONYM =>
        simp only [do_subquery]
        exact do_synonym_body_logAll E _ _ _ hor (fun _ _ => rfl)
      | OP_AND_NOT =>
        match subqs, hsub with
        | [], _ =>
          simp only [do_subquery]
          exact Run.logAll_bind (Run.logAll_xassert _ E _) fun _ _ => Run.logAll_abort _
        | [q0], _ =>
          simp only [do_subquery]
          exact Run.logAll_bind (Run.logAll_xassert _ E _) fun _ _ => Run.logAll_abort _
        | q0 :: q1 :: rest, hsub =>
          simp only [do_subquery]
          refine Run.logAll_bind (Run.logAll_xassert _ E _) fun _ _ => ?_
          refine Run.logAll_bind ((hsub q0 (by simp)).1 _) fun _ _ => ?_
          refine Run.logAll_bind ((hsub q1 (by simp)).1 _) fun _ _ => ?_
          exact Run.logAll_create rfl
      | OP_AND_MAYBE =>
        match subqs, hsub with
        | [], _ =>
          simp only [do_subquery]
          exact Run.logAll_bind (Run.logAll_xassert _ E _) fun _ _ => Run.logAll_abort _
        | [q0], _ =>
          simp only [do_subquery]
          exact Run.logAll_bind (Run.logAll_xassert _ E _) fun _ _ => Run.logAll_abort _
        | q0 :: q1 :: rest, hsub =>
          simp only [do_subquery]
          refine Run.logAll_bind (Run.logAll_xassert _ E _) fun _ _ => ?_
          refine Run.logAll_bind ((hsub q0 (by simp)).1 _) fun _ _ => ?_
          refine Run.logAll_bind ((hsub q1 (by simp)).1 _) fun _ _ => ?_
          exact Run.logAll_create rfl
      | OP_SCALE_WEIGHT =>
        match subqs, hsub with
        | [], _ =>
          simp only [do_subquery]
          exact Run.logAll_bind (Run.logAll_xassert _ E _) fun _ _ => Run.logAll_abort _
        | q0 :: rest, hsub =>
          simp only [do_subquery]
          exact Run.logAll_bind (Run.logAll_xassert _ E _) fun _ _ => (hsub q0 (by simp)).1 _
    · simp only [do_and_like_flatten]
      exact hbody f s
  · refine ⟨fun op i f s => ?_, fun f => ?_⟩
    · rw [do_and_like_loop_nil]
      exact ⟨Run.logAll_pure _ _, fun s' h => by
        simp only [Run.pure_outcome, Outcome.ok.injEq] at h
        rw [← h]⟩
    · simp only [do_or_like_children]
      exact Run.logAll_pure _ _
  · rintro q qs ⟨hq1, hq2⟩ ⟨hl, hc⟩
    have hch : ∀ g s, (and_like_child E q g s).LogAll (fun e => e.creates_positional = false) ∧
        ∀ s', (and_like_child E q g s).outcome = .ok s' → s'.pos_filters = s.pos_filters := by
      intro g s
      match q, hq1, hq2 with
      | .null, _, _ =>
        exact ⟨Run.logAll_abort _, fun s' h => by simp [and_like_child, Run.abort] at h⟩
      | .node sfields ssubqs, hq1, hq2 =>
        simp only [and_like_child]
        split
        · exact hq2 g s
        · refine ⟨Run.logAll_bind (hq1 g) fun _ _ => Run.logAll_pure _ _, fun s' h => ?_⟩
          obtain ⟨pl, _, h⟩ := Run.bind_outcome_ok.mp h
          simp only [Run.pure_outcome, Outcome.ok.injEq] at h
          rw [← h]
    refine ⟨fun op i f s => ?_, fun f => ?_⟩
    · rw [do_and_like_loop_cons]
      refine ⟨Run.logAll_bind (hch _ _).1 fun s1 _ => (hl _ _ _ _).1, fun s' h => ?_⟩
      obtain ⟨s1, h1, h⟩ := Run.bind_outcome_ok.mp h
      rw [(hl _ _ _ _).2 s' h, (hch _ _).2 s1 h1]
    · simp only [do_or_like_children]
      refine Run.logAll_bind (hq1 f) fun _ _ => ?_
      refine Run.logAll_bind (hc f) fun _ _ => ?_
      exact Run.logAll_pure _ _

/-! ## Claims -/

/-- C4 (SCALE_WEIGHT equivalence).  Building `SCALE_WEIGHT(c, k)` with incoming
factor `f` is the same run (same postlist tree, same calls) as building `c` with
factor `f * k`; with `f = 0` it is the run of building `c` with factor `0`,
whatever `k` is.  Scenario S6: `SCALE_WEIGHT(1/2, LEAF t)` with factor `1` builds
what `LEAF t` with factor `1/2` builds. -/
theorem scale_weight_equivalence (E : Env) (tname str_parameter : String)
    (parameter wqf : Nat) (external_source : Option Nat) (k f : ℚ) (c : Query) :
    do_subquery E
        (.node ⟨.OP_SCALE_WEIGHT, tname, parameter, str_parameter, k, wqf, external_source⟩ [c]) f
      = do_subquery E c (f * k)
    ∧ do_subquery E
        (.node ⟨.OP_SCALE_WEIGHT, tname, parameter, str_parameter, k, wqf, external_source⟩ [c]) 0
      = do_subquery E c 0
    ∧ do_subquery E (.node ⟨.OP_SCALE_WEIGHT, "", 0, "", 1 / 2, 0, none⟩ [leafq "t" 1]) 1
      = do_subquery E (leafq "t" 1) (1 / 2) := by
  have key : ∀ (k' g : ℚ) (tn sp : String) (pa wq : Nat) (es : Option Nat) (d : Query),
      do_subquery E (.node ⟨.OP_SCALE_WEIGHT, tn, pa, sp, k', wq, es⟩ [d]) g
        = do_subquery E d (g * k') := by
    intro k' g tn sp pa wq es d
    by_cases hg : g = 0
    · simp [do_subquery, xassert_true, hg]
    · simp [do_subquery, xassert_true, hg]
  refine ⟨key _ _ _ _ _ _ _ _, ?_, ?_⟩
  · rw [key, zero_mul]
  · rw [key, one_mul]

/-- C8 (comparator robustness).  For any two postlists, equal or not, and any
values of `get_termfreq_max` and `get_maxweight`, `CmpMaxOrTerms` never holds in
both directions. -/
theorem cmp_max_or_terms_not_both (E : Env) (a b : PostList) :
    ¬ (CmpMaxOrTerms E a b = true ∧ CmpMaxOrTerms E b a = true) := by
  unfold CmpMaxOrTerms
  by_cases ha : E.get_termfreq_max a = 0
  · simp [ha]
  · by_cases hb : E.get_termfreq_max b = 0
    · simp [hb]
    · simp only [ha, hb, if_false, decide_eq_true_eq, not_and, not_lt]
      intro h
      exact le_of_lt h

/-- C5 (positional demotion).  When `has_positions()` is false, `do_subquery` on a
query `q` is the very run (same postlist tree, same log) it is on `demote q`, the
query with every `PHRASE` and `NEAR` node replaced by an `AND` node over the same
children; no step of the run creates a `NearPostList`, `PhrasePostList` or
`ExactPhrasePostList`; and `PHRASE(window=3, X, Y, Z)` gives the `MultiAndPostList`
over the leaves of `X`, `Y`, `Z` when the leaf factory does not throw. -/
theorem positional_demotion (E : Env) (hpos : E.has_positions = false) :
    (∀ q f, do_subquery E q f = do_subquery E (demote q) f)
    ∧ (∀ q f, ∀ e ∈ (do_subquery E q f).log, e.creates_positional = false)
    ∧ ((∀ q g, E.leaf_throws q g = false) → ∀ f,
        do_subquery E (opq .OP_PHRASE 3 [leafq "x" 1, leafq "y" 1, leafq "z" 1]) f
          = ⟨.ok (.MultiAndPostList [.LeafPostList (leafq "x" 1) f,
                .LeafPostList (leafq "y" 1) f, .LeafPostList (leafq "z" 1) f]),
              [.create (.LeafPostList (leafq "x" 1) f), .create (.LeafPostList (leafq "y" 1) f),
                .create (.LeafPostList (leafq "z" 1) f),
                .create (.MultiAndPostList [.LeafPostList (leafq "x" 1) f,
                  .LeafPostList (leafq "y" 1) f, .LeafPostList (leafq "z" 1) f])]⟩) := by
  refine ⟨fun q f => (((demote_runs E hpos).1 q).1 f).symm,
    fun q f => ((no_positional_created E hpos).1 q).1 f, ?_⟩
  intro hthrow f
  simp [opq, leafq, do_subquery, do_and_like_body, do_and_like_loop, do_and_like_build,
    apply_pos_filters, do_leaf, Query.tname, hthrow, hpos, is_and_like, xassert, Run.bind,
    Run.pure, Run.create]

/-- Scenario S2 in the stub environment without positions: `PHRASE(window=3, X, Y, Z)`
is built as its demotion `AND(X, Y, Z)` is, into the `MultiAndPostList` over the
three leaves. -/
theorem positional_demotion_witness :
    (stubEnv false true).has_positions = false
    ∧ do_subquery (stubEnv false true)
        (opq .OP_PHRASE 3 [leafq "x" 1, leafq "y" 1, leafq "z" 1]) 1
      = do_subquery (stubEnv false true)
        (demote (opq .OP_PHRASE 3 [leafq "x" 1, leafq "y" 1, leafq "z" 1])) 1
    ∧ demote (opq .OP_PHRASE 3 [leafq "x" 1, leafq "y" 1, leafq "z" 1])
      = opq .OP_AND 3 [leafq "x" 1, leafq "y" 1, leafq "z" 1]
    ∧ (do_subquery (stubEnv false true)
        (opq .OP_PHRASE 3 [leafq "x" 1, leafq "y" 1, leafq "z" 1]) 1).outcome
      = .ok (.MultiAndPostList [.LeafPostList (leafq "x" 1) 1,
          .LeafPostList (leafq "y" 1) 1, .LeafPostList (leafq "z" 1) 1]) :=
  ⟨rfl, (positional_demotion (stubEnv false true) rfl).1 _ 1, rfl, rfl⟩

/-- Once the factor is zero, or from round 1 on, the loop of a `FILTER` node builds
every remaining child with factor zero. -/
theorem filter_loop_zero (E : Env) :
    ∀ (qs : List Query) (i : Nat) (f : ℚ) (s : AndState), 1 ≤ i → (i = 1 ∨ f = 0) →
      do_and_like_loop E .OP_FILTER qs i f s
        = build_children_with E (with_factors (filter_factor 0) i qs) s := by
  intro qs
  induction qs with
  | nil =>
    intro i f s _ _
    rw [do_and_like_loop_nil]
    rfl
  | cons c rest ih =>
    intro i f s hi hz
    have hf : loop_factor .OP_FILTER i f = 0 := by
      unfold loop_factor
      rcases hz with h | h
      · simp [h]
      · simp [h]
    have hff : filter_factor 0 i = 0 := by simp [filter_factor]
    rw [do_and_like_loop_cons, hf]
    simp only [with_factors, build_children_with, hff]
    congr 1
    funext s1
    exact ih (i + 1) 0 s1 (by omega) (Or.inr rfl)

theorem with_factors_filter_succ (f : ℚ) :
    ∀ (qs : List Query) (i : Nat), 1 ≤ i →
      with_factors (filter_factor f) i qs = with_factors (filter_factor 0) i qs := by
  intro qs
  induction qs with
  | nil => intro i _; rfl
  | cons c rest ih =>
    intro i hi
    have h1 : filter_factor f i = 0 := by
      unfold filter_factor
      rw [if_neg (by omega)]
    have h2 : filter_factor 0 i = 0 := by simp [filter_factor]
    simp only [with_factors, h1, h2, ih (i + 1) (by omega)]

/-- C9, as the code has it (FILTER scoring).  The flattening of a `FILTER` node with
incoming factor `f` is: the size assertion, then the children built in order, the
first child (index 0) with factor `f` and every later child (index 1, and index 2
and later when there are more than two) with factor 0. -/
theorem filter_scoring (E : Env) (tname str_parameter : String) (parameter wqf : Nat)
    (dbl_parameter : ℚ) (external_source : Option Nat) (subqs : List Query) (f : ℚ)
    (s : AndState) :
    do_and_like_flatten E
        (.node ⟨.OP_FILTER, tname, parameter, str_parameter, dbl_parameter, wqf,
          external_source⟩ subqs) f s
      = (xassert E (decide (subqs.length ≥ 2))).bind fun _ =>
          build_children_with E (with_factors (filter_factor f) 0 subqs) s := by
  have hloop : do_and_like_loop E .OP_FILTER subqs 0 f s
      = build_children_with E (with_factors (filter_factor f) 0 subqs) s := by
    cases subqs with
    | nil =>
      rw [do_and_like_loop_nil]
      rfl
    | cons c rest =>
      have hf : loop_factor .OP_FILTER 0 f = f := by simp [loop_factor]
      have hff : filter_factor f 0 = f := by simp [filter_factor]
      rw [do_and_like_loop_cons, hf]
      simp only [with_factors, build_children_with, hff]
      congr 1
      funext s1
      rw [with_factors_filter_succ f rest (0 + 1) (by omega)]
      exact filter_loop_zero E rest (0 + 1) f s1 (by omega) (Or.inl rfl)
  simp only [do_and_like_flatten, do_and_like_body]
  simp only [is_and_like, xassert_true, Run.pure_bind]
  simp [xassert_true]
  rw [hloop]

/-- C9, as stated, fails.  For `FILTER(a, b, c)` built with factor 1 the code builds
the third child with factor 0, whereas the claim has it built with factor 1. -/
theorem filter_scoring_claim_fails :
    (do_and_like_flatten (stubEnv false true)
        (opq .OP_FILTER 0 [leafq "a" 1, leafq "b" 1, leafq "c" 1]) 1 ⟨[], []⟩).outcome
      = .ok ⟨[.LeafPostList (leafq "a" 1) 1, .LeafPostList (leafq "b" 1) 0,
          .LeafPostList (leafq "c" 1) 0], []⟩
    ∧ (build_children_with (stubEnv false true)
        (with_factors (filter_factor_claimed 1) 0 [leafq "a" 1, leafq "b" 1, leafq "c" 1])
        ⟨[], []⟩).outcome
      = .ok ⟨[.LeafPostList (leafq "a" 1) 1, .LeafPostList (leafq "b" 1) 0,
          .LeafPostList (leafq "c" 1) 1], []⟩
    ∧ do_and_like_flatten (stubEnv false true)
        (opq .OP_FILTER 0 [leafq "a" 1, leafq "b" 1, leafq "c" 1]) 1 ⟨[], []⟩
      ≠ build_children_with (stubEnv false true)
        (with_factors (filter_factor_claimed 1) 0 [leafq "a" 1, leafq "b" 1, leafq "c" 1])
        ⟨[], []⟩ := by
  refine ⟨rfl, rfl, ?_⟩
  intro h
  have h2 := congrArg Run.outcome h
  have e1 : (do_and_like_flatten (stubEnv false true)
        (opq .OP_FILTER 0 [leafq "a" 1, leafq "b" 1, leafq "c" 1]) 1 ⟨[], []⟩).outcome
      = .ok ⟨[.LeafPostList (leafq "a" 1) 1, .LeafPostList (leafq "b" 1) 0,
          .LeafPostList (leafq "c" 1) 0], []⟩ := rfl
  have e2 : (build_children_with (stubEnv false true)
        (with_factors (filter_factor_claimed 1) 0 [leafq "a" 1, leafq "b" 1, leafq "c" 1])
        ⟨[], []⟩).outcome
      = .ok ⟨[.LeafPostList (leafq "a" 1) 1, .LeafPostList (leafq "b" 1) 0,
          .LeafPostList (leafq "c" 1) 1], []⟩ := rfl
  rw [e1, e2] at h2
  simp at h2

/-! ## The flattening: what it appends -/

theorem Run.bind_log_of_ok {α β : Type} {m : Run α} {k : α → Run β} {a : α}
    (h : m.outcome = .ok a) : (m.bind k).log = m.log ++ (k a).log := by
  obtain ⟨o, l⟩ := m
  simp only at h
  subst h
  rfl

theorem Run.bind_outcome_of_ok {α β : Type} {m : Run α} {k : α → Run β} {a : α}
    (h : m.outcome = .ok a) : (m.bind k).outcome = (k a).outcome := by
  obtain ⟨o, l⟩ := m
  simp only at h
  subst h
  rfl

theorem size_t_sub_eq {a b : Nat} (hb : b ≤ a) (ha : a < SIZE_T_RANGE) :
    size_t_sub a b = a - b := by
  unfold size_t_sub
  have hb' : b % SIZE_T_RANGE = b := Nat.mod_eq_of_lt (by omega)
  rw [hb']
  have : a + SIZE_T_RANGE - b = (a - b) + SIZE_T_RANGE := by omega
  rw [this, Nat.add_mod_right]
  exact Nat.mod_eq_of_lt (by omega)

theorem FlatOK.mono {E : Env} {f : ℚ} {s : AndState} {leaves : List Query} {m n : Nat}
    {run : Run AndState} (h : FlatOK E f s leaves m run) (hn : n ≤ m) :
    FlatOK E f s leaves n run := by
  obtain ⟨pls, fs, h1, h2, h3, h4⟩ := h
  exact ⟨pls, fs, h1, h2, h3, by omega⟩

/-- A run that is fine for the factor the loop goes on with is fine for the factor
the node came with. -/
theorem FlatOK.of_loop_factor {E : Env} {op : Op} {i : Nat} {f : ℚ} {s : AndState}
    {leaves : List Query} {m : Nat} {run : Run AndState}
    (h : FlatOK E (loop_factor op i f) s leaves m run) : FlatOK E f s leaves m run := by
  obtain ⟨pls, fs, h1, h2, h3, h4⟩ := h
  refine ⟨pls, fs, h1, ?_, h3, h4⟩
  refine h2.imp ?_
  rintro d pl ⟨g, hg, hd⟩
  refine ⟨g, ?_, hd⟩
  unfold loop_factor at hg
  split at hg
  · rcases hg with h | h <;> exact Or.inr h
  · exact hg

/-- Two flattening runs one after the other. -/
theorem FlatOK.seq {E : Env} {f : ℚ} {s : AndState} {l1 l2 : List Query} {m1 m2 : Nat}
    {run : Run AndState} {k : AndState → Run AndState}
    (h1 : FlatOK E f s l1 m1 run)
    (h2 : ∀ s1, run.outcome = .ok s1 → FlatOK E f s1 l2 m2 (k s1)) :
    FlatOK E f s (l1 ++ l2) (m1 + m2) (run.bind k) := by
  obtain ⟨pls1, fs1, ho1, hf1, hb1, hm1⟩ := h1
  obtain ⟨pls2, fs2, ho2, hf2, hb2, hm2⟩ := h2 _ ho1
  refine ⟨pls1 ++ pls2, fs1 ++ fs2, ?_, List.rel_append hf1 hf2, ?_, ?_⟩
  · rw [Run.bind_outcome_of_ok ho1, ho2]
    simp
  · intro φ hφ
    simp only [List.length_append] at hb2 ⊢
    rcases List.mem_append.mp hφ with h | h
    · obtain ⟨a, b, c, d⟩ := hb1 φ h
      exact ⟨a, b, by omega, d⟩
    · obtain ⟨a, b, c, d⟩ := hb2 φ h
      exact ⟨by omega, b, by omega, d⟩
  · simp only [List.length_append]
    omega

/-- The body of the flattening around a loop that is fine: the filter it records
for a positional node lies within what the loop appended. -/
theorem do_and_like_body_ok (E : Env) (fields : QueryFields) (n : Nat)
    (loop : Op → AndState → Run AndState) (f : ℚ) (s : AndState) (leaves : List Query)
    (hop : is_and_like fields.op = true) (hn : 2 ≤ n)
    (hsize : s.and_plists.length + leaves.length < SIZE_T_RANGE)
    (hloop : ∀ op, FlatOK E f s leaves n (loop op s)) :
    FlatOK E f s leaves 2 (do_and_like_body E fields n loop s) := by
  unfold do_and_like_body
  simp only [hop, xassert_true, Run.pure_bind]
  rw [xassert_of_eq_true E (by simpa using hn), Run.pure_bind]
  obtain ⟨pls, fs, ho, hf, hb, hm⟩ := hloop
    (if (fields.op == Op.OP_PHRASE || fields.op == Op.OP_NEAR) && !E.has_positions
      then Op.OP_AND else fields.op)
  have hlen : leaves.length = pls.length := hf.length_eq
  unfold FlatOK
  rw [Run.bind_outcome_of_ok ho]
  by_cases hp : ((fields.op == Op.OP_PHRASE || fields.op == Op.OP_NEAR) && E.has_positions) = true
  · have hpos : E.has_positions = true := by
      simp only [Bool.and_eq_true] at hp
      exact hp.2
    refine ⟨pls, fs ++ [⟨fields.op, size_t_sub (s.and_plists ++ pls).length n,
      (s.and_plists ++ pls).length, fields.parameter⟩], ?_, hf, ?_, by omega⟩
    · have hp1 : fields.op = Op.OP_PHRASE ∨ fields.op = Op.OP_NEAR := by
        simpa [hpos] using hp
      simp [hpos, hp1, Run.pure]
    · intro φ hφ
      rcases List.mem_append.mp hφ with h | h
      · exact hb φ h
      · simp only [List.mem_singleton] at h
        subst h
        simp only [List.length_append]
        rw [size_t_sub_eq (by omega) (by omega)]
        refine ⟨by omega, by omega, le_refl _, ?_⟩
        simp only [Bool.and_eq_true, Bool.or_eq_true, beq_iff_eq] at hp
        rcases hp.1 with h | h
        · exact Or.inr h
        · exact Or.inl h
  · refine ⟨pls, fs, ?_, hf, hb, by omega⟩
    simp [hp, Run.pure]

theorem FlatOK.length_of_outcome {E : Env} {f : ℚ} {s s1 : AndState} {leaves : List Query}
    {m : Nat} {run : Run AndState} (h : FlatOK E f s leaves m run)
    (h1 : run.outcome = .ok s1) :
    s1.and_plists.length = s.and_plists.length + leaves.length := by
  obtain ⟨pls, fs, ho, hf, _, _⟩ := h
  rw [ho] at h1
  simp only [Outcome.ok.injEq] at h1
  rw [← h1, hf.length_eq]
  simp

/-- The flattening of a query that satisfies `and_wf`, whose flattened leaves can
all be built and are fewer than `size_t` can count, succeeds, and appends exactly
the postlists of those leaves. -/
theorem flatten_ok (E : Env) :
    (∀ q, and_wf q = true → ∀ f s,
      (∀ d ∈ flat_leaves q, ∀ g, g = f ∨ g = 0 →
        ∃ pl, (do_subquery E d g).outcome = .ok pl) →
      s.and_plists.length + (flat_leaves q).length < SIZE_T_RANGE →
      FlatOK E f s (flat_leaves q) 1 (and_like_child E q f s) ∧
      (q.and_like = true → FlatOK E f s (flat_leaves q) 2 (do_and_like_flatten E q f s))) ∧
    (∀ qs, and_wf_list qs = true → ∀ op i f s,
      (∀ d ∈ flat_leaves_list qs, ∀ g, g = f ∨ g = 0 →
        ∃ pl, (do_subquery E d g).outcome = .ok pl) →
      s.and_plists.length + (flat_leaves_list qs).length < SIZE_T_RANGE →
      FlatOK E f s (flat_leaves_list qs) qs.length (do_and_like_loop E op qs i f s)) := by
  apply Query.induct
  · intro hwf
    simp [and_wf] at hwf
  · intro fields subqs ihL _ hwf f s hb hsize
    by_cases hal : is_and_like fields.op = true
    · have hfl : flat_leaves (.node fields subqs) = flat_leaves_list subqs := by
        simp [flat_leaves, hal]
      rw [hfl] at hb hsize ⊢
      have hwf' : 2 ≤ subqs.length ∧ and_wf_list subqs = true := by
        simpa [and_wf, hal] using hwf
      have key : FlatOK E f s (flat_leaves_list subqs) 2
          (do_and_like_flatten E (.node fields subqs) f s) := by
        simp only [do_and_like_flatten]
        exact do_and_like_body_ok E fields subqs.length _ f s _ hal hwf'.1 hsize
          (fun op => ihL hwf'.2 op 0 f s hb hsize)
      refine ⟨?_, fun _ => key⟩
      have : and_like_child E (.node fields subqs) f s
          = do_and_like_flatten E (.node fields subqs) f s := by
        simp [and_like_child, hal]
      rw [this]
      exact key.mono (by omega)
    · have hfl : flat_leaves (.node fields subqs) = [.node fields subqs] := by
        simp [flat_leaves, hal]
      rw [hfl] at hb hsize ⊢
      refine ⟨?_, fun h => absurd h (by simpa [Query.and_like] using hal)⟩
      obtain ⟨pl, hpl⟩ := hb (.node fields subqs) (by simp) f (Or.inl rfl)
      refine ⟨[pl], [], ?_, ?_, by simp, by simp⟩
      · simp only [and_like_child, hal]
        rw [if_neg (by simp), Run.bind_outcome_of_ok hpl]
        simp [Run.pure]
      · exact List.Forall₂.cons ⟨f, Or.inl rfl, hpl⟩ List.Forall₂.nil
  · intro _ op i f s _ _
    rw [do_and_like_loop_nil]
    exact ⟨[], [], by simp [Run.pure], by simp [flat_leaves_list], by simp, by simp⟩
  · intro q qs ihq ihqs hwf op i f s hb hsize
    have hwf' : and_wf q = true ∧ and_wf_list qs = true := by
      simpa [and_wf_list] using hwf
    simp only [flat_leaves_list, List.length_append] at hb hsize ⊢
    rw [do_and_like_loop_cons]
    have hlf : ∀ g, g = loop_factor op i f ∨ g = 0 → g = f ∨ g = 0 := by
      intro g hg
      unfold loop_factor at hg
      split at hg
      · rcases hg with h | h <;> exact Or.inr h
      · exact hg
    have h1 := (ihq hwf'.1 (loop_factor op i f) s
      (fun d hd g hg => hb d (List.mem_append_left _ hd) g (hlf g hg)) (by omega)).1
    have h2 : ∀ s1, (and_like_child E q (loop_factor op i f) s).outcome = .ok s1 →
        FlatOK E (loop_factor op i f) s1 (flat_leaves_list qs) qs.length
          (do_and_like_loop E op qs (i + 1) (loop_factor op i f) s1) := by
      intro s1 hs1
      have hl := h1.length_of_outcome hs1
      exact ihqs hwf'.2 op (i + 1) (loop_factor op i f) s1
        (fun d hd g hg => hb d (List.mem_append_right _ hd) g (hlf g hg)) (by omega)
    exact ((h1.seq h2).mono (by simp; omega)).of_loop_factor

/-- Filters whose ranges lie within the flat list are all applied, each putting one
wrapper around the postlist. -/
theorem apply_pos_filters_ok (E : Env) (plists : List PostList) :
    ∀ (fs : List PosFilter) (pl : PostList),
      (∀ φ ∈ fs, φ.begin_ ≤ φ.end_ ∧ φ.end_ ≤ plists.length ∧
        (φ.op = .OP_NEAR ∨ φ.op = .OP_PHRASE)) →
      ∃ pl', (apply_pos_filters E plists fs pl).outcome = .ok pl' ∧
        and_root pl' = and_root pl := by
  intro fs
  induction fs with
  | nil =>
    intro pl _
    exact ⟨pl, rfl, rfl⟩
  | cons φ rest ih =>
    intro pl h
    obtain ⟨h1, h2, h3⟩ := h φ (List.mem_cons_self _ _)
    have hrest := fun pl0 => ih pl0 (fun ψ hψ => h ψ (List.mem_cons_of_mem _ hψ))
    simp only [apply_pos_filters]
    rw [if_pos ⟨h1, h2⟩]
    by_cases hnear : φ.op = .OP_NEAR
    · rw [if_pos hnear, Run.bind_outcome_of_ok (Run.create_outcome _)]
      obtain ⟨pl', e1, e2⟩ := hrest (.NearPostList pl φ.window
        ((plists.drop φ.begin_).take (φ.end_ - φ.begin_)))
      exact ⟨pl', e1, by rw [e2, and_root]⟩
    · have hphrase : φ.op = .OP_PHRASE := h3.resolve_left hnear
      rw [if_neg hnear]
      have ha : xassert E (φ.op == .OP_PHRASE) = Run.pure () :=
        xassert_of_eq_true E (by simp [hphrase])
      split
      · rw [ha, Run.pure_bind, Run.bind_outcome_of_ok (Run.create_outcome _)]
        obtain ⟨pl', e1, e2⟩ := hrest (.ExactPhrasePostList pl
          ((plists.drop φ.begin_).take (φ.end_ - φ.begin_)))
        exact ⟨pl', e1, by rw [e2, and_root]⟩
      · rw [ha, Run.pure_bind, Run.bind_outcome_of_ok (Run.create_outcome _)]
        obtain ⟨pl', e1, e2⟩ := hrest (.PhrasePostList pl φ.window
          ((plists.drop φ.begin_).take (φ.end_ - φ.begin_)))
        exact ⟨pl', e1, by rw [e2, and_root]⟩

/-- For an AND-like node `do_subquery` is the two-argument `do_and_like`. -/
theorem do_subquery_and_like (E : Env) (q : Query) (f : ℚ) (h : q.and_like = true) :
    do_subquery E q f = do_and_like E q f := by
  cases q with
  | null => simp [Query.and_like] at h
  | node fields subqs =>
    obtain ⟨op, tn, pa, sp, k, wq, es⟩ := fields
    cases op
    case OP_AND => simp [do_subquery, do_and_like, do_and_like_flatten]
    case OP_FILTER => simp [do_subquery, do_and_like, do_and_like_flatten]
    case OP_NEAR => simp [do_subquery, do_and_like, do_and_like_flatten]
    case OP_PHRASE => simp [do_subquery, do_and_like, do_and_like_flatten]
    all_goals simp [Query.and_like, is_and_like] at h

/-- A term of the stub queries is built whenever the leaf factory does not throw. -/
theorem do_subquery_leafq (E : Env) (hthrow : ∀ q g, E.leaf_throws q g = false)
    (t : String) (w : Nat) (g : ℚ) :
    ∃ pl, (do_subquery E (leafq t w) g).outcome = .ok pl := by
  simp only [leafq, do_subquery, do_leaf, hthrow]
  exact ⟨_, rfl⟩

/-- C1 (flattening).  Let the root of `q` be AND-like (`AND`, `FILTER`, `NEAR` or
`PHRASE`), let every AND-like node reached through AND-like nodes have at least two
children, none null, let each flattened leaf of `q` be a query `do_subquery` can
build, and let their number fit `size_t`.  Then `do_subquery` returns a postlist
that is, under its positional wrappers, one `MultiAndPostList` whose children are
the postlists `do_subquery` builds for the flattened leaves of `q` (the maximal
descendants that are not AND-like, reached through AND-like nodes), in
left-to-right order, each built with the incoming factor or with 0; so it has as
many children as the flattened subtree has leaves. -/
theorem flattening (E : Env) (q : Query) (f : ℚ) (hroot : q.and_like = true)
    (hwf : and_wf q = true)
    (hbuild : ∀ d ∈ flat_leaves q, ∀ g, g = f ∨ g = 0 →
      ∃ pl, (do_subquery E d g).outcome = .ok pl)
    (hsize : (flat_leaves q).length < SIZE_T_RANGE) :
    ∃ pl pls, (do_subquery E q f).outcome = .ok pl ∧
      and_root pl = .MultiAndPostList pls ∧
      Event.create (.MultiAndPostList pls) ∈ (do_subquery E q f).log ∧
      List.Forall₂
        (fun d c => ∃ g, (g = f ∨ g = 0) ∧ (do_subquery E d g).outcome = .ok c)
        (flat_leaves q) pls ∧
      pls.length = (flat_leaves q).length := by
  obtain ⟨pls, fs, ho, hf, hb, hm⟩ :=
    ((flatten_ok E).1 q hwf f ⟨[], []⟩ hbuild (by simpa using hsize)).2 hroot
  simp only [List.nil_append, List.length_nil, Nat.zero_add] at ho hb
  obtain ⟨pl', e1, e2⟩ := apply_pos_filters_ok E pls fs (.MultiAndPostList pls)
    (fun φ hφ => ⟨(hb φ hφ).2.1, (hb φ hφ).2.2.1, (hb φ hφ).2.2.2⟩)
  refine ⟨pl', pls, ?_, e2.trans rfl, ?_, hf, hf.length_eq.symm⟩
  · rw [do_subquery_and_like E q f hroot, do_and_like, Run.bind_outcome_of_ok ho,
      do_and_like_build, xassert_of_eq_true E (by simpa using hm), Run.pure_bind,
      Run.bind_outcome_of_ok (Run.create_outcome _)]
    exact e1
  · rw [do_subquery_and_like E q f hroot, do_and_like, Run.bind_log_of_ok ho,
      do_and_like_build, xassert_of_eq_true E (by simpa using hm), Run.pure_bind,
      Run.bind_log_of_ok (Run.create_outcome _)]
    simp [Run.create]

/-- Scenario S1: `AND(A, AND(B, C))` gives one `MultiAndPostList` over `A`, `B`, `C`
in that order. -/
theorem flattening_witness :
    (∃ pl pls, (do_subquery (stubEnv true true)
          (opq .OP_AND 0 [leafq "A" 10, opq .OP_AND 0 [leafq "B" 5, leafq "C" 7]]) 1).outcome
        = .ok pl ∧
      and_root pl = .MultiAndPostList pls ∧
      Event.create (.MultiAndPostList pls) ∈ (do_subquery (stubEnv true true)
          (opq .OP_AND 0 [leafq "A" 10, opq .OP_AND 0 [leafq "B" 5, leafq "C" 7]]) 1).log ∧
      List.Forall₂
        (fun d c => ∃ g, (g = 1 ∨ g = 0) ∧ (do_subquery (stubEnv true true) d g).outcome = .ok c)
        (flat_leaves (opq .OP_AND 0 [leafq "A" 10, opq .OP_AND 0 [leafq "B" 5, leafq "C" 7]]))
        pls ∧
      pls.length
        = (flat_leaves
            (opq .OP_AND 0 [leafq "A" 10, opq .OP_AND 0 [leafq "B" 5, leafq "C" 7]])).length)
    ∧ (do_subquery (stubEnv true true)
          (opq .OP_AND 0 [leafq "A" 10, opq .OP_AND 0 [leafq "B" 5, leafq "C" 7]]) 1).outcome
        = .ok (.MultiAndPostList [.LeafPostList (leafq "A" 10) 1,
            .LeafPostList (leafq "B" 5) 1, .LeafPostList (leafq "C" 7) 1]) :=
  ⟨flattening (stubEnv true true)
      (opq .OP_AND 0 [leafq "A" 10, opq .OP_AND 0 [leafq "B" 5, leafq "C" 7]]) 1 rfl rfl
      (by
        intro d hd g _
        have hl : flat_leaves
            (opq .OP_AND 0 [leafq "A" 10, opq .OP_AND 0 [leafq "B" 5, leafq "C" 7]])
            = [leafq "A" 10, leafq "B" 5, leafq "C" 7] := rfl
        rw [hl] at hd
        simp only [List.mem_cons, List.mem_singleton, List.not_mem_nil, or_false] at hd
        rcases hd with h | h | h <;> subst h <;>
          exact do_subquery_leafq _ (fun _ _ => rfl) _ _ _)
      (by decide),
    rfl⟩

/-! ## The range of a positional filter -/

theorem leaf_calls_append (l1 l2 : List Event) :
    leaf_calls (l1 ++ l2) = leaf_calls l1 ++ leaf_calls l2 := by
  simp [leaf_calls, List.filterMap_append]

theorem Run.marked_bind {α β : Type} {m : Run α} {k : α → Run β}
    {a b c : List (Query × Bool)} (h1 : m.Marked a)
    (h2 : ∀ x, m.outcome = .ok x → (k x).Marked b) (hab : a ++ b = c) :
    (m.bind k).Marked c := by
  rintro ⟨y, hy⟩
  obtain ⟨x, hx, hkx⟩ := Run.bind_outcome_ok.mp hy
  rw [Run.bind_log_of_ok hx, leaf_calls_append, ← hab]
  exact List.rel_append (h1 ⟨x, hx⟩) (h2 x hx ⟨y, hkx⟩)

theorem Run.marked_of_logAll {α : Type} {m : Run α}
    (h : m.LogAll (fun e => e.leaf_call = none)) : m.Marked [] := by
  intro _
  have : leaf_calls m.log = [] := by
    unfold leaf_calls
    rw [List.filterMap_eq_nil_iff]
    exact h
  rw [this]
  exact List.Forall₂.nil

theorem Run.marked_create {pl : PostList} (h : (Event.create pl).leaf_call = none) :
    (Run.create pl).Marked [] :=
  Run.marked_of_logAll (Run.logAll_create h)

theorem Run.marked_xassert (E : Env) (c : Bool) : (xassert E c).Marked [] :=
  Run.marked_of_logAll (Run.logAll_xassert _ E c)

theorem Run.marked_abort {α : Type} (marks : List (Query × Bool)) :
    (Run.abort : Run α).Marked marks := by
  rintro ⟨a, ha⟩
  simp [Run.abort] at ha

theorem Run.marked_pure {α : Type} (a : α) : (Run.pure a).Marked [] :=
  Run.marked_of_logAll (Run.logAll_pure _ a)

theorem apply_pos_filters_logAll {p : Event → Prop} (E : Env) (plists : List PostList)
    (h : ∀ pl, pl.is_positional = true → p (.create pl)) :
    ∀ (fs : List PosFilter) (pl : PostList), (apply_pos_filters E plists fs pl).LogAll p := by
  intro fs
  induction fs with
  | nil => intro pl; exact Run.logAll_pure p pl
  | cons φ rest ih =>
    intro pl
    simp only [apply_pos_filters]
    split
    · split
      · exact Run.logAll_bind (Run.logAll_create (h _ rfl)) fun _ _ => ih _
      · split
        · refine Run.logAll_bind (Run.logAll_xassert p E _) fun _ _ => ?_
          exact Run.logAll_bind (Run.logAll_create (h _ rfl)) fun _ _ => ih _
        · refine Run.logAll_bind (Run.logAll_xassert p E _) fun _ _ => ?_
          exact Run.logAll_bind (Run.logAll_create (h _ rfl)) fun _ _ => ih _
    · exact Run.logAll_abort p

theorem do_and_like_build_logAll {p : Event → Prop} (E : Env) (s : AndState)
    (h : ∀ pl, pl.is_positional = true → p (.create pl))
    (hm : ∀ pls, p (.create (.MultiAndPostList pls))) : (do_and_like_build E s).LogAll p := by
  unfold do_and_like_build
  refine Run.logAll_bind (Run.logAll_xassert p E _) fun _ _ => ?_
  exact Run.logAll_bind (Run.logAll_create (hm _)) fun _ _ =>
    apply_pos_filters_logAll E _ h _ _

theorem leaf_call_none_of_positional (pl : PostList) (h : pl.is_positional = true) :
    (Event.create pl).leaf_call = none := by
  cases pl <;> first | rfl | simp [PostList.is_positional] at h

theorem do_and_like_body_marked (E : Env) (fields : QueryFields) (n : Nat)
    (loop : Op → AndState → Run AndState) (s : AndState) (marks : List (Query × Bool))
    (hloop : ∀ op, (loop op s).Marked marks) :
    (do_and_like_body E fields n loop s).Marked marks := by
  unfold do_and_like_body
  refine Run.marked_bind (Run.marked_xassert E _) (fun _ _ => ?_) (List.nil_append _)
  refine Run.marked_bind (Run.marked_xassert E _) (fun _ _ => ?_) (List.nil_append _)
  refine Run.marked_bind (hloop _) (fun _ _ => ?_) (List.append_nil _)
  split
  · exact Run.marked_pure _
  · exact Run.marked_pure _

theorem do_or_like_body_marked (E : Env) (fields : QueryFields) (n : Nat)
    (children : Run (List PostList)) (marks : List (Query × Bool))
    (hc : children.Marked marks) : (do_or_like_body E fields n children).Marked marks := by
  unfold do_or_like_body
  refine Run.marked_bind (Run.marked_xassert E _) (fun _ _ => ?_) (List.nil_append _)
  refine Run.marked_bind (Run.marked_xassert E _) (fun _ _ => ?_) (List.nil_append _)
  refine Run.marked_bind hc (fun v _ => ?_) (List.append_nil _)
  refine Run.marked_bind (a := []) (b := []) ?_ (fun sel _ => ?_) rfl
  · split_ifs
    all_goals first
      | exact Run.marked_of_logAll
          (elite_set_select_logAll (p := fun e => e.leaf_call = none) E _ _ (fun _ => rfl))
      | exact Run.marked_pure _
  · cases sel with
    | inl pl => exact Run.marked_pure _
    | inr w =>
      refine Run.marked_bind (Run.marked_xassert E _) (fun _ _ => ?_) (List.nil_append _)
      exact Run.marked_of_logAll
        (or_like_loop_logAll (p := fun e => e.leaf_call = none) E _ (fun _ _ => ⟨rfl, rfl⟩) _ _)

theorem do_leaf_marked (E : Env) (q : Query) (sh : Bool) (f : ℚ) (h : sh = true → f = 0) :
    (do_leaf E q f).Marked [(q, sh)] := by
  rintro ⟨a, ha⟩
  unfold do_leaf at ha ⊢
  simp only at ha ⊢
  by_cases ht : E.leaf_throws q (if q.tname = "" then 0 else f) = true
  · simp [ht] at ha
  · simp only [ht, Bool.false_eq_true, if_false, Run.create, leaf_calls, List.filterMap_cons,
      Event.leaf_call, List.filterMap_nil]
    refine List.Forall₂.cons ⟨rfl, ?_⟩ List.Forall₂.nil
    rintro (h1 | h1)
    · simp [h h1]
    · simp only at h1
      simp [h1]

theorem loop_factor_zero (op : Op) (i : Nat) : loop_factor op i 0 = 0 := by
  simp [loop_factor]

/-- Every run that returns has called the leaf factory once for each leaf the
functions visit, in order, with factor 0 for the shielded leaves and for the leaves
with an empty `tname`. -/
theorem marked_runs (E : Env) :
    (∀ q, (∀ sh f, (sh = true → f = 0) → (do_subquery E q f).Marked (marked_leaves q sh)) ∧
      (∀ sh f s, (sh = true → f = 0) → q.and_like = true →
        (do_and_like_flatten E q f s).Marked (marked_leaves q sh))) ∧
    (∀ qs, (∀ op sh i f s, (sh = true → f = 0) →
        (do_and_like_loop E op qs i f s).Marked (marked_children (op == .OP_FILTER) qs i sh)) ∧
      (∀ sh i f, (sh = true → f = 0) →
        (do_or_like_children E qs f).Marked (marked_children false qs i sh))) := by
  apply Query.induct
  · refine ⟨fun sh f _ => ?_, fun sh f s _ h => ?_⟩
    · simp only [do_subquery, marked_leaves]
      exact Run.marked_create rfl
    · simp [Query.and_like] at h
  · rintro ⟨op, tn, pa, sp, k, wq, es⟩ subqs ⟨hl, hc⟩ hsub
    have hbuild : ∀ s, (do_and_like_build E s).Marked [] := fun s =>
      Run.marked_of_logAll (do_and_like_build_logAll E s
        (fun pl h => leaf_call_none_of_positional pl h) (fun _ => rfl))
    have hor : ∀ sh f, (sh = true → f = 0) →
        (do_or_like_body E ⟨op, tn, pa, sp, k, wq, es⟩ subqs.length
          (do_or_like_children E subqs f)).Marked (marked_children false subqs 0 sh) :=
      fun sh f h => do_or_like_body_marked E _ _ _ _ (hc sh 0 f h)
    have hbody : ∀ (b : Bool) sh f s, (sh = true → f = 0) →
        ((op == Op.OP_FILTER) = b) →
        (do_and_like_body E ⟨op, tn, pa, sp, k, wq, es⟩ subqs.length
          (fun op s => do_and_like_loop E op subqs 0 f s) s).Marked
          (marked_children b subqs 0 sh) := by
      intro b sh f s h hb
      unfold do_and_like_body
      refine Run.marked_bind (Run.marked_xassert E _) (fun _ _ => ?_) (List.nil_append _)
      refine Run.marked_bind (Run.marked_xassert E _) (fun _ _ => ?_) (List.nil_append _)
      refine Run.marked_bind ?_ (fun _ _ => ?_) (List.append_nil _)
      · have := hl (if (op == Op.OP_PHRASE || op == Op.OP_NEAR) && !E.has_positions
          then Op.OP_AND else op) sh 0 f s h
        have e : ((if (op == Op.OP_PHRASE || op == Op.OP_NEAR) && !E.has_positions
            then Op.OP_AND else op) == Op.OP_FILTER) = b := by
          rw [← hb]
          cases op <;> cases E.has_positions <;> rfl
        rw [e] at this
        exact this
      · split
        · exact Run.marked_pure _
        · exact Run.marked_pure _
    refine ⟨fun sh f h => ?_, fun sh f s h hal => ?_⟩
    · cases op with
      | OP_LEAF =>
        simp only [do_subquery, marked_leaves]
        exact do_leaf_marked E _ sh f h
      | OP_EXTERNAL_SOURCE =>
        simp only [do_subquery, marked_leaves]
        exact Run.marked_bind (Run.marked_xassert E _)
          (fun _ _ => Run.marked_create rfl) rfl
      | OP_VALUE_RANGE => simp only [do_subquery, marked_leaves]; exact Run.marked_create rfl
      | OP_VALUE_GE => simp only [do_subquery, marked_leaves]; exact Run.marked_create rfl
      | OP_VALUE_LE => simp only [do_subquery, marked_leaves]; exact Run.marked_create rfl
      | OP_AND =>
        simp only [do_subquery, marked_leaves]
        exact Run.marked_bind (hbody false sh f _ h rfl)
          (fun _ _ => hbuild _) (List.append_nil _)
      | OP_FILTER =>
        simp only [do_subquery, marked_leaves]
        exact Run.marked_bind (hbody true sh f _ h rfl)
          (fun _ _ => hbuild _) (List.append_nil _)
      | OP_NEAR =>
        simp only [do_subquery, marked_leaves]
        exact Run.marked_bind (hbody false sh f _ h rfl)
          (fun _ _ => hbuild _) (List.append_nil _)
      | OP_PHRASE =>
        simp only [do_subquery, marked_leaves]
        exact Run.marked_bind (hbody false sh f _ h rfl)
          (fun _ _ => hbuild _) (List.append_nil _)
      | OP_OR => simp only [do_subquery, marked_leaves]; exact hor sh f h
      | OP_XOR => simp only [do_subquery, marked_leaves]; exact hor sh f h
      | OP_ELITE_SET => simp only [do_subquery, marked_leaves]; exact hor sh f h
      | OP_SYNONYM =>
        simp only [do_subquery, marked_leaves, do_synonym_body]
        split
        · exact hor true 0 (fun _ => rfl)
        · refine Run.marked_bind (Run.marked_xassert E _) (fun _ _ => ?_) (List.nil_append _)
          exact Run.marked_bind (hor true 0 (fun _ => rfl))
            (fun _ _ => Run.marked_create rfl) (List.append_nil _)
      | OP_AND_NOT =>
        match subqs, hsub with
        | [], _ =>
          simp only [do_subquery, marked_leaves]
          exact Run.marked_bind (Run.marked_xassert E _) (fun _ _ => Run.marked_abort _) rfl
        | [q0], _ =>
          simp only [do_subquery, marked_leaves]
          exact Run.marked_bind (Run.marked_xassert E _) (fun _ _ => Run.marked_abort _) rfl
        | q0 :: q1 :: rest, hsub =>
          simp only [do_subquery, marked_leaves]
          refine Run.marked_bind (Run.marked_xassert E _) (fun _ _ => ?_) (List.nil_append _)
          refine Run.marked_bind ((hsub q0 (by simp)).1 sh f h) (fun _ _ => ?_) rfl
          exact Run.marked_bind ((hsub q1 (by simp)).1 true 0 (fun _ => rfl))
            (fun _ _ => Run.marked_create rfl) (List.append_nil _)
      | OP_AND_MAYBE =>
        match subqs, hsub with
        | [], _ =>
          simp only [do_subquery, marked_leaves]
          exact Run.marked_bind (Run.marked_xassert E _) (fun _ _ => Run.marked_abort _) rfl
        | [q0], _ =>
          simp only [do_subquery, marked_leaves]
          exact Run.marked_bind (Run.marked_xassert E _) (fun _ _ => Run.marked_abort _) rfl
        | q0 :: q1 :: rest, hsub =>
          simp only [do_subquery, marked_leaves]
          refine Run.marked_bind (Run.marked_xassert E _) (fun _ _ => ?_) (List.nil_append _)
          refine Run.marked_bind ((hsub q0 (by simp)).1 sh f h) (fun _ _ => ?_) rfl
          exact Run.marked_bind ((hsub q1 (by simp)).1 sh f h)
            (fun _ _ => Run.marked_create rfl) (List.append_nil _)
      | OP_SCALE_WEIGHT =>
        match subqs, hsub with
        | [], _ =>
          simp only [do_subquery, marked_leaves]
          exact Run.marked_bind (Run.marked_xassert E _) (fun _ _ => Run.marked_abort _) rfl
        | q0 :: rest, hsub =>
          simp only [do_subquery, marked_leaves]
          refine Run.marked_bind (Run.marked_xassert E _) (fun _ _ => ?_) (List.nil_append _)
          refine (hsub q0 (by simp)).1 sh _ ?_
          intro hs
          simp [h hs]
    · simp only [do_and_like_flatten]
      cases op
      case OP_AND =>
        simp only [marked_leaves]
        exact hbody false sh f s h rfl
      case OP_FILTER =>
        simp only [marked_leaves]
        exact hbody true sh f s h rfl
      case OP_NEAR =>
        simp only [marked_leaves]
        exact hbody false sh f s h rfl
      case OP_PHRASE =>
        simp only [marked_leaves]
        exact hbody false sh f s h rfl
      all_goals simp [Query.and_like, is_and_like] at hal
  · refine ⟨fun op sh i f s _ => ?_, fun sh i f _ => ?_⟩
    · rw [do_and_like_loop_nil]
      simp only [marked_children]
      exact Run.marked_pure _
    · simp only [do_or_like_children, marked_children]
      exact Run.marked_pure _
  · rintro q qs ⟨hq1, hq2⟩ ⟨hl, hc⟩
    refine ⟨fun op sh i f s h => ?_, fun sh i f h => ?_⟩
    · rw [do_and_like_loop_cons]
      simp only [marked_children]
      have hf : (sh || ((op == Op.OP_FILTER) && decide (i = 1))) = true →
          loop_factor op i f = 0 := by
        intro hs
        simp only [Bool.or_eq_true, Bool.and_eq_true, beq_iff_eq, decide_eq_true_eq] at hs
        rcases hs with hs | ⟨h1, h2⟩
        · rw [h hs, loop_factor_zero]
        · simp [loop_factor, h1, h2]
      have hf2 : sh = true → loop_factor op i f = 0 := fun hs => by
        rw [h hs, loop_factor_zero]
      refine Run.marked_bind ?_ (fun s1 _ => hl op sh (i + 1) _ s1 hf2) rfl
      cases q with
      | null => exact Run.marked_abort _
      | node sfields ssubqs =>
        simp only [and_like_child]
        split
        · exact hq2 _ _ s hf (by simpa [Query.and_like])
        · exact Run.marked_bind (hq1 _ _ hf) (fun _ _ => Run.marked_pure _)
            (List.append_nil _)
    · simp only [do_or_like_children, marked_children, Bool.false_and, Bool.or_false]
      refine Run.marked_bind (hq1 sh f h) (fun _ _ => ?_) rfl
      exact Run.marked_bind (hc sh (i + 1) f h) (fun _ _ => Run.marked_pure _)
        (List.append_nil _)

theorem do_and_like_body_logAll {p : Event → Prop} (E : Env) (fields : QueryFields) (n : Nat)
    (loop : Op → AndState → Run AndState) (s : AndState)
    (hloop : ∀ op s, (loop op s).LogAll p) :
    (do_and_like_body E fields n loop s).LogAll p := by
  unfold do_and_like_body
  refine Run.logAll_bind (Run.logAll_xassert p E _) fun _ _ => ?_
  refine Run.logAll_bind (Run.logAll_xassert p E _) fun _ _ => ?_
  refine Run.logAll_bind (hloop _ _) fun _ _ => ?_
  split
  · exact Run.logAll_pure p _
  · exact Run.logAll_pure p _

theorem factor_none_of_positional (pl : PostList) (h : pl.is_positional = true) (g : ℚ) :
    (Event.create pl).factor = some g → g = 0 := by
  cases pl
  case NearPostList => intro h'; simp [Event.factor] at h'
  case ExactPhrasePostList => intro h'; simp [Event.factor] at h'
  case PhrasePostList => intro h'; simp [Event.factor] at h'
  all_goals simp [PostList.is_positional] at h

/-- Factor 0 is absorbing: a run with factor 0 gives factor 0 to every object it
creates that takes a factor. -/
theorem zero_factor_runs (E : Env) :
    (∀ q, (do_subquery E q 0).LogAll (fun e => ∀ g, e.factor = some g → g = 0) ∧
      (∀ s, (do_and_like_flatten E q 0 s).LogAll (fun e => ∀ g, e.factor = some g → g = 0))) ∧
    (∀ qs, (∀ op i s,
        (do_and_like_loop E op qs i 0 s).LogAll (fun e => ∀ g, e.factor = some g → g = 0)) ∧
      (do_or_like_children E qs 0).LogAll (fun e => ∀ g, e.factor = some g → g = 0)) := by
  apply Query.induct
  · refine ⟨?_, fun s => ?_⟩
    · simp only [do_subquery]
      exact Run.logAll_create (fun g h => by simp [Event.factor] at h)
    · simp only [do_and_like_flatten]
      exact Run.logAll_abort _
  · rintro ⟨op, tn, pa, sp, k, wq, es⟩ subqs ⟨hl, hc⟩ hsub
    have hbody := fun s => do_and_like_body_logAll E ⟨op, tn, pa, sp, k, wq, es⟩
      subqs.length (fun op s => do_and_like_loop E op subqs 0 0 s) s (fun op s => hl op 0 s)
    have hand : (Run.bind (do_and_like_body E ⟨op, tn, pa, sp, k, wq, es⟩ subqs.length
        (fun op s => do_and_like_loop E op subqs 0 0 s) ⟨[], []⟩)
        (do_and_like_build E)).LogAll (fun e => ∀ g, e.factor = some g → g = 0) :=
      Run.logAll_bind (hbody _) fun s' _ =>
        do_and_like_build_logAll E s' (fun pl h g => factor_none_of_positional pl h g)
          (fun _ g h => by simp [Event.factor] at h)
    have hor : (do_or_like_body E ⟨op, tn, pa, sp, k, wq, es⟩ subqs.length
        (do_or_like_children E subqs 0)).LogAll (fun e => ∀ g, e.factor = some g → g = 0) :=
      do_or_like_body_logAll E _ _ _ hc
        (fun _ _ => ⟨fun g h => by simp [Event.factor] at h,
          fun g h => by simp [Event.factor] at h⟩)
        (fun _ g h => by simp [Event.factor] at h)
    refine ⟨?_, fun s => ?_⟩
    · cases op with
      | OP_LEAF =>
        simp only [do_subquery, do_leaf, ite_self]
        split
        · exact fun e he => absurd he (List.not_mem_nil e)
        · exact Run.logAll_create (fun g h => by
            simp only [Event.factor, Option.some.injEq] at h
            exact h.symm)
      | OP_EXTERNAL_SOURCE =>
        simp only [do_subquery]
        exact Run.logAll_bind (Run.logAll_xassert _ E _) fun _ _ =>
          Run.logAll_create (fun g h => by
            simp only [Event.factor, Option.some.injEq] at h
            exact h.symm)
      | OP_VALUE_RANGE =>
        simp only [do_subquery]
        exact Run.logAll_create (fun g h => by simp [Event.factor] at h)
      | OP_VALUE_GE =>
        simp only [do_subquery]
        exact Run.logAll_create (fun g h => by simp [Event.factor] at h)
      | OP_VALUE_LE =>
        simp only [do_subquery]
        exact Run.logAll_create (fun g h => by simp [Event.factor] at h)
      | OP_AND => simp only [do_subquery]; exact hand
      | OP_FILTER => simp only [do_subquery]; exact hand
      | OP_NEAR => simp only [do_subquery]; exact hand
      | OP_PHRASE => simp only [do_subquery]; exact hand
      | OP_OR => simp only [do_subquery]; exact hor
      | OP_XOR => simp only [do_subquery]; exact hor
      | OP_ELITE_SET => simp only [do_subquery]; exact hor
      | OP_SYNONYM =>
        simp only [do_subquery, do_synonym_body, if_true]
        exact hor
      | OP_AND_NOT =>
        match subqs, hsub with
        | [], _ =>
          simp only [do_subquery]
          exact Run.logAll_bind (Run.logAll_xassert _ E _) fun _ _ => Run.logAll_abort _
        | [q0], _ =>
          simp only [do_subquery]
          exact Run.logAll_bind (Run.logAll_xassert _ E _) fun _ _ => Run.logAll_abort _
        | q0 :: q1 :: rest, hsub =>
          simp only [do_subquery]
          refine Run.logAll_bind (Run.logAll_xassert _ E _) fun _ _ => ?_
          refine Run.logAll_bind (hsub q0 (by simp)).1 fun _ _ => ?_
          refine Run.logAll_bind (hsub q1 (by simp)).1 fun _ _ => ?_
          exact Run.logAll_create (fun g h => by simp [Event.factor] at h)
      | OP_AND_MAYBE =>
        match subqs, hsub with
        | [], _ =>
          simp only [do_subquery]
          exact Run.logAll_bind (Run.logAll_xassert _ E _) fun _ _ => Run.logAll_abort _
        | [q0], _ =>
          simp only [do_subquery]
          exact Run.logAll_bind (Run.logAll_xassert _ E _) fun _ _ => Run.logAll_abort _
        | q0 :: q1 :: rest, hsub =>
          simp only [do_subquery]
          refine Run.logAll_bind (Run.logAll_xassert _ E _) fun _ _ => ?_
          refine Run.logAll_bind (hsub q0 (by simp)).1 fun _ _ => ?_
          refine Run.logAll_bind (hsub q1 (by simp)).1 fun _ _ => ?_
          exact Run.logAll_create (fun g h => by simp [Event.factor] at h)
      | OP_SCALE_WEIGHT =>
        match subqs, hsub with
        | [], _ =>
          simp only [do_subquery]
          exact Run.logAll_bind (Run.logAll_xassert _ E _) fun _ _ => Run.logAll_abort _
        | q0 :: rest, hsub =>
          simp only [do_subquery, ne_eq, not_true_eq_false, if_false]
          exact Run.logAll_bind (Run.logAll_xassert _ E _) fun _ _ => (hsub q0 (by simp)).1
    · simp only [do_and_like_flatten]
      exact hbody s
  · refine ⟨fun op i s => ?_, ?_⟩
    · rw [do_and_like_loop_nil]
      exact Run.logAll_pure _ _
    · simp only [do_or_like_children]
      exact Run.logAll_pure _ _
  · rintro q qs ⟨hq1, hq2⟩ ⟨hl, hc⟩
    refine ⟨fun op i s => ?_, ?_⟩
    · rw [do_and_like_loop_cons, loop_factor_zero]
      refine Run.logAll_bind ?_ fun s1 _ => hl op (i + 1) s1
      cases q with
      | null => exact Run.logAll_abort _
      | node sfields ssubqs =>
        simp only [and_like_child]
        split
        · exact hq2 s
        · exact Run.logAll_bind hq1 fun _ _ => Run.logAll_pure _ _
    · simp only [do_or_like_children]
      refine Run.logAll_bind hq1 fun _ _ => ?_
      exact Run.logAll_bind hc fun _ _ => Run.logAll_pure _ _

/-- C3 (factor propagation).  When `do_subquery` returns, the leaf factory has been
called once for each leaf it visits, in order, and with factor 0 for every leaf
that lies below the right child of an `AND_NOT` node, below the second child of a
`FILTER` node or below a `SYNONYM` node, and for every leaf with an empty `tname`,
whatever the incoming factor.  And factor 0 is absorbing: a run of `do_subquery`
with factor 0 gives factor 0 to every leaf, external source and synonym wrapper it
creates. -/
theorem factor_propagation (E : Env) (q : Query) (f : ℚ) (pl : PostList) (log : List Event)
    (h : do_subquery E q f = ⟨.ok pl, log⟩) :
    List.Forall₂ call_agrees (marked_leaves q false) (leaf_calls log)
    ∧ (∀ q0, ∀ e ∈ (do_subquery E q0 0).log, ∀ g, e.factor = some g → g = 0) := by
  refine ⟨?_, fun q0 => ((zero_factor_runs E).1 q0).1⟩
  have hm := ((marked_runs E).1 q).1 false f (fun h => by simp at h)
  have := hm ⟨pl, by rw [h]⟩
  rw [h] at this
  exact this

theorem factor_propagation_witness :
    do_subquery (stubEnv true true)
        (opq .OP_AND_NOT 0 [leafq "a" 1, opq .OP_OR 0 [leafq "b" 1, leafq "" 2]]) 1
      = ⟨.ok (.AndNotPostList (.LeafPostList (leafq "a" 1) 1)
            (.OrPostList (.LeafPostList (leafq "" 2) 0) (.LeafPostList (leafq "b" 1) 0))),
          [.create (.LeafPostList (leafq "a" 1) 1), .create (.LeafPostList (leafq "b" 1) 0),
            .create (.LeafPostList (leafq "" 2) 0),
            .create (.OrPostList (.LeafPostList (leafq "" 2) 0) (.LeafPostList (leafq "b" 1) 0)),
            .create (.AndNotPostList (.LeafPostList (leafq "a" 1) 1)
              (.OrPostList (.LeafPostList (leafq "" 2) 0) (.LeafPostList (leafq "b" 1) 0)))]⟩
    ∧ List.Forall₂ call_agrees
        (marked_leaves
          (opq .OP_AND_NOT 0 [leafq "a" 1, opq .OP_OR 0 [leafq "b" 1, leafq "" 2]]) false)
        (leaf_calls
          [.create (.LeafPostList (leafq "a" 1) 1), .create (.LeafPostList (leafq "b" 1) 0),
            .create (.LeafPostList (leafq "" 2) 0),
            .create (.OrPostList (.LeafPostList (leafq "" 2) 0) (.LeafPostList (leafq "b" 1) 0)),
            .create (.AndNotPostList (.LeafPostList (leafq "a" 1) 1)
              (.OrPostList (.LeafPostList (leafq "" 2) 0) (.LeafPostList (leafq "b" 1) 0)))]) :=
  ⟨rfl, (factor_propagation (stubEnv true true)
    (opq .OP_AND_NOT 0 [leafq "a" 1, opq .OP_OR 0 [leafq "b" 1, leafq "" 2]]) 1
    (.AndNotPostList (.LeafPostList (leafq "a" 1) 1)
      (.OrPostList (.LeafPostList (leafq "" 2) 0) (.LeafPostList (leafq "b" 1) 0)))
    [.create (.LeafPostList (leafq "a" 1) 1), .create (.LeafPostList (leafq "b" 1) 0),
      .create (.LeafPostList (leafq "" 2) 0),
      .create (.OrPostList (.LeafPostList (leafq "" 2) 0) (.LeafPostList (leafq "b" 1) 0)),
      .create (.AndNotPostList (.LeafPostList (leafq "a" 1) 1)
        (.OrPostList (.LeafPostList (leafq "" 2) 0) (.LeafPostList (leafq "b" 1) 0)))]
    rfl).1⟩

/-! ## The comparison functors and the heap -/

theorem StrictWeak.neg_trans {comp : Cmp} (h : StrictWeak comp) {a b c : PostList}
    (hab : comp a b = false) (hbc : comp b c = false) : comp a c = false := by
  by_contra hac
  have hac : comp a c = true := by simpa using hac
  have hba : comp b a = false := by
    by_contra hba
    have hba : comp b a = true := by simpa using hba
    rw [h.trans b a c hba hac] at hbc
    exact Bool.noConfusion hbc
  have hcb : comp c b = false := by
    by_contra hcb
    have hcb : comp c b = true := by simpa using hcb
    rw [h.trans a c b hac hcb] at hab
    exact Bool.noConfusion hab
  rw [(h.incomp_trans a b c hab hba hbc hcb).1] at hac
  exact Bool.noConfusion hac

/-- A comparison that is "greater key first" for a key in a linear order is a strict
weak ordering. -/
theorem strictWeak_of_key {β : Type} [LinearOrder β] (key : PostList → β) (comp : Cmp)
    (h : ∀ a b, comp a b = true ↔ key b < key a) : StrictWeak comp := by
  have hf : ∀ a b, comp a b = false ↔ key a ≤ key b := by
    intro a b
    rw [← not_lt, ← h a b]
    simp
  refine ⟨fun a => (hf a a).mpr (le_refl _), fun a b c hab hbc => ?_,
    fun a b c hab hba hbc hcb => ⟨?_, ?_⟩⟩
  · exact (h a c).mpr (lt_trans ((h b c).mp hbc) ((h a b).mp hab))
  · exact (hf a c).mpr (le_trans ((hf a b).mp hab) ((hf b c).mp hbc))
  · exact (hf c a).mpr (le_trans ((hf c b).mp hcb) ((hf b a).mp hba))

theorem strictWeak_termfreq (E : Env) : StrictWeak (ComparePostListTermFreqAscending E) :=
  strictWeak_of_key E.get_termfreq_est _ (fun a b => by
    simp [ComparePostListTermFreqAscending])

theorem strictWeak_maxorterms (E : Env) : StrictWeak (CmpMaxOrTerms E) :=
  strictWeak_of_key
    (fun a => if E.get_termfreq_max a = 0 then (⊥ : WithBot ℚ) else ((E.get_maxweight a : ℚ) : WithBot ℚ))
    _ (fun a b => by
      unfold CmpMaxOrTerms
      by_cases ha : E.get_termfreq_max a = 0
      · simp [ha]
      · by_cases hb : E.get_termfreq_max b = 0
        · simp [ha, hb, WithBot.bot_lt_coe]
        · simp [ha, hb])

/-- In a heap nothing is ordered after the first element. -/
theorem IsHeap.front_max {comp : Cmp} (hc : StrictWeak comp) {v : List PostList}
    (h : IsHeap comp v) (h0 : 0 < v.length) :
    ∀ (i : Nat) (hi : i < v.length), comp (v.get ⟨0, h0⟩) (v.get ⟨i, hi⟩) = false := by
  intro i
  induction i using Nat.strong_induction_on with
  | _ i ih =>
    intro hi
    by_cases hz : i = 0
    · subst hz
      exact hc.irrefl _
    · have hp : (i - 1) / 2 < i := by omega
      exact hc.neg_trans (ih ((i - 1) / 2) hp (by omega)) (h i hi (by omega))

theorem IsHeap.head_max {comp : Cmp} (hc : StrictWeak comp) {x : PostList}
    {v : List PostList} (h : IsHeap comp (x :: v)) :
    ∀ y ∈ x :: v, comp x y = false := by
  intro y hy
  obtain ⟨n, hn⟩ := List.mem_iff_get.mp hy
  have := h.front_max hc (by simp) n.1 n.2
  simp only [List.get_eq_getElem, List.getElem_cons_zero] at this hn
  rw [← hn]
  exact this

theorem isHeap_nil (comp : Cmp) : IsHeap comp [] := by
  intro i hi
  simp at hi

/-- A range in which no element is ordered after a later one is a heap. -/
theorem isHeap_of_pairwise {comp : Cmp} {v : List PostList}
    (h : v.Pairwise (fun a b => comp a b = false)) : IsHeap comp v := by
  intro i hi h0
  rw [List.pairwise_iff_get] at h
  exact h ⟨(i - 1) / 2, by omega⟩ ⟨i, hi⟩ (by simp only [Fin.mk_lt_mk]; omega)

theorem sorted_desc (comp : Cmp) (hc : StrictWeak comp) (v : List PostList) :
    (v.insertionSort (fun a b => comp a b = false)).Pairwise (fun a b => comp a b = false) := by
  haveI : IsTotal PostList (fun a b => comp a b = false) := ⟨fun a b => by
    by_cases h : comp a b = false
    · exact Or.inl h
    · right
      have h : comp a b = true := by simpa using h
      by_contra h2
      have h2 : comp b a = true := by simpa using h2
      have := hc.trans a b a h h2
      rw [hc.irrefl a] at this
      exact Bool.noConfusion this⟩
  haveI : IsTrans PostList (fun a b => comp a b = false) :=
    ⟨fun a b c hab hbc => hc.neg_trans hab hbc⟩
  exact List.sorted_insertionSort (fun a b => comp a b = false) v

theorem sorted_asc (comp : Cmp) (hc : StrictWeak comp) (v : List PostList) :
    (v.insertionSort (fun a b => comp b a = false)).Pairwise (fun a b => comp b a = false) := by
  haveI : IsTotal PostList (fun a b => comp b a = false) := ⟨fun a b => by
    by_cases h : comp b a = false
    · exact Or.inl h
    · right
      have h : comp b a = true := by simpa using h
      by_contra h2
      have h2 : comp a b = true := by simpa using h2
      have := hc.trans a b a h2 h
      rw [hc.irrefl a] at this
      exact Bool.noConfusion this⟩
  haveI : IsTrans PostList (fun a b => comp b a = false) :=
    ⟨fun a b c hab hbc => hc.neg_trans hbc hab⟩
  exact List.sorted_insertionSort (fun a b => comp b a = false) v

/-- The reference algorithms satisfy the contract. -/
theorem stubEnv_conforming (has_positions assertions : Bool) :
    (stubEnv has_positions assertions).Conforming := by
  refine ⟨?_, ?_, ?_, ?_, ?_, ?_⟩
  · intro comp v _
    exact List.perm_insertionSort _ v
  · intro comp v hc
    exact isHeap_of_pairwise (sorted_desc comp hc v)
  · intro comp x v hc _
    exact ⟨v.insertionSort (fun a b => comp a b = false), rfl, List.perm_insertionSort _ v,
      isHeap_of_pairwise (sorted_desc comp hc v)⟩
  · intro comp v x hc _
    exact ⟨List.perm_insertionSort _ _, isHeap_of_pairwise (sorted_desc comp hc _)⟩
  · intro comp nth v _ _
    exact List.perm_insertionSort _ v
  · intro comp nth v hc _ i j hi hj hin hnj
    have hs := sorted_asc comp hc v
    rw [List.pairwise_iff_get] at hs
    rcases Nat.lt_or_ge i j with hlt | hge
    · exact hs ⟨i, hi⟩ ⟨j, hj⟩ hlt
    · have hij : i = j := by omega
      subst hij
      exact hc.irrefl _

/-! ## The build loop of `do_or_like` -/

theorem huffman_ok_or_node (E : Env) (op : Op) (l r : PostList)
    (h : E.get_termfreq_est r ≤ E.get_termfreq_est l) :
    (Event.create (if op = .OP_XOR then .XorPostList l r else .OrPostList l r)).huffman_ok E := by
  split <;> exact h

/-- With conforming heap algorithms every binary node the loop creates from a heap
has the child of greater estimate on the left. -/
theorem or_like_loop_huffman (E : Env) (hE : E.Conforming) (op : Op) :
    ∀ (fuel : Nat) (v : List PostList), IsHeap (ComparePostListTermFreqAscending E) v →
      (or_like_loop E op fuel v).LogAll (Event.huffman_ok E) := by
  have hc := strictWeak_termfreq E
  intro fuel
  induction fuel with
  | zero => intro v _; exact Run.logAll_abort _
  | succ n ih =>
    intro v hv
    cases v with
    | nil => exact Run.logAll_abort _
    | cons r v' =>
      obtain ⟨w, hpop, hperm, hw⟩ := hE.pop_heap_spec _ r v' hc hv
      simp only [or_like_loop, hpop, List.dropLast_concat]
      cases w with
      | nil => exact Run.logAll_abort _
      | cons l w' =>
        have hl : l ∈ r :: v' := List.mem_cons_of_mem _ (hperm.subset (List.mem_cons_self _ _))
        have hle : E.get_termfreq_est r ≤ E.get_termfreq_est l := by
          have := hv.head_max hc l hl
          simpa [ComparePostListTermFreqAscending] using this
        refine Run.logAll_bind (Run.logAll_create (huffman_ok_or_node E op l r hle)) ?_
        intro pl _
        split
        · exact Run.logAll_pure _ _
        · obtain ⟨w2, hpop2, _, hw2⟩ := hE.pop_heap_spec _ l w' hc hw
          rw [hpop2, List.dropLast_concat]
          exact ih _ (hE.push_heap_spec _ w2 pl hc hw2).2

theorem Covers.perm {op : Op} {v v' leaves : List PostList} (h : Covers op v leaves)
    (hp : v'.Perm v) : Covers op v' leaves := by
  obtain ⟨lss, hf, hl⟩ := h
  obtain ⟨lss', hf', hp'⟩ := List.perm_comp_forall₂ hp hf
  exact ⟨lss', hf', hp'.flatten.trans hl⟩

theorem Covers.init (op : Op) (v : List PostList) : Covers op v v := by
  refine ⟨v.map (fun x => [x]), ?_, ?_⟩
  · induction v with
    | nil => exact List.Forall₂.nil
    | cons x v ih => exact List.Forall₂.cons (OrTree.leaf x) ih
  · have : (v.map (fun x => [x])).flatten = v := by
      induction v with
      | nil => rfl
      | cons x v ih => simp [ih]
    rw [this]

theorem Covers.merge {op : Op} {l r : PostList} {rest leaves : List PostList}
    (h : Covers op (r :: l :: rest) leaves) : Covers op (or_node op l r :: rest) leaves := by
  obtain ⟨lss, hf, hl⟩ := h
  match lss, hf, hl with
  | lr :: ll :: lss2, .cons hr (.cons hl' hrest), hl =>
    refine ⟨(ll ++ lr) :: lss2, List.Forall₂.cons (OrTree.node hl' hr) hrest, ?_⟩
    refine List.Perm.trans ?_ hl
    simp only [List.flatten_cons, ← List.append_assoc]
    exact List.Perm.append_right _ List.perm_append_comm

theorem Covers.single {op : Op} {t : PostList} {leaves : List PostList}
    (h : Covers op [t] leaves) : ∃ ls, OrTree op t ls ∧ ls.Perm leaves := by
  obtain ⟨lss, hf, hl⟩ := h
  cases hf with
  | cons ht hnil =>
    cases hnil
    exact ⟨_, ht, by simpa using hl⟩

/-- With conforming heap algorithms the loop, started on a heap of at least two
postlists with as many rounds as it has entries, returns a tree of binary nodes
over exactly those postlists, creating one node less than there are postlists. -/
theorem or_like_loop_ok (E : Env) (hE : E.Conforming) (op : Op) :
    ∀ (fuel : Nat) (v leaves : List PostList),
      IsHeap (ComparePostListTermFreqAscending E) v → 2 ≤ v.length → v.length ≤ fuel + 1 →
      Covers op v leaves →
      ∃ t log ls, or_like_loop E op fuel v = ⟨.ok t, log⟩ ∧ OrTree op t ls ∧ ls.Perm leaves ∧
        log.length + 1 = v.length ∧ ∀ e ∈ log, ∃ l r, e = .create (or_node op l r) := by
  have hc := strictWeak_termfreq E
  intro fuel
  induction fuel with
  | zero => intro v leaves _ h2 h1 _; omega
  | succ n ih =>
    intro v leaves hv h2 h1 hcov
    cases v with
    | nil => simp at h2
    | cons r v' =>
      obtain ⟨w, hpop, hperm, hw⟩ := hE.pop_heap_spec _ r v' hc hv
      have hwl : w.length = v'.length := hperm.length_eq
      simp only [or_like_loop, hpop, List.dropLast_concat]
      cases w with
      | nil => simp at hwl h2; omega
      | cons l w' =>
        have hcov1 : Covers op (r :: l :: w') leaves := hcov.perm (List.Perm.cons r hperm)
        have hcov2 : Covers op (or_node op l r :: w') leaves := hcov1.merge
        by_cases h1w : (l :: w').length = 1
        · have hw' : w' = [] := by
            cases w' with
            | nil => rfl
            | cons _ _ => simp at h1w
          subst hw'
          obtain ⟨ls, hls, hlp⟩ := hcov2.single
          refine ⟨or_node op l r, [.create (or_node op l r)], ls, ?_, hls, hlp, ?_, ?_⟩
          · simp [Run.create, Run.bind, Run.pure, or_node]
          · simp only [List.length_cons, List.length_nil] at hwl ⊢
            omega
          · intro e he
            simp only [List.mem_singleton] at he
            exact ⟨l, r, he⟩
        · obtain ⟨w2, hpop2, hperm2, hw2⟩ := hE.pop_heap_spec _ l w' hc hw
          have hpush := hE.push_heap_spec _ w2 (or_node op l r) hc hw2
          have hlen2 : (E.push_heap (ComparePostListTermFreqAscending E)
              (w2 ++ [or_node op l r])).length = w'.length + 1 := by
            rw [hpush.1.length_eq, List.length_append, hperm2.length_eq]
            rfl
          have hcov3 : Covers op (E.push_heap (ComparePostListTermFreqAscending E)
              (w2 ++ [or_node op l r])) leaves := by
            refine hcov2.perm (hpush.1.trans ?_)
            exact (List.perm_append_comm).trans (List.Perm.cons _ hperm2)
          simp only [List.length_cons] at h1w hwl h2 h1
          obtain ⟨t, log, ls, hrun, hls, hlp, hll, hlog⟩ :=
            ih _ leaves hpush.2 (by omega) (by omega) hcov3
          refine ⟨t, .create (or_node op l r) :: log, ls, ?_, hls, hlp, ?_, ?_⟩
          · simp only [Run.create, Run.ok_bind, List.length_cons, h1w, if_false, hpop2,
              List.dropLast_concat]
            rw [show (if op = Op.OP_XOR then l.XorPostList r else l.OrPostList r)
              = or_node op l r from rfl, hrun]
            rfl
          · simp only [List.length_cons]
            omega
          · intro e he
            rcases List.mem_cons.mp he with h | h
            · exact ⟨l, r, h⟩
            · exact hlog e h

/-- A property of steps that holds for every deletion, for every creation of an
object other than a binary OR or XOR node, and that `do_or_like` maintains, holds
for every step of every run. -/
theorem logAll_runs (E : Env) (p : Event → Prop)
    (hcreate : ∀ pl, pl.is_or_node = false → p (.create pl))
    (hor : ∀ fields n (children : Run (List PostList)), children.LogAll p →
      (do_or_like_body E fields n children).LogAll p) :
    (∀ q, (∀ f, (do_subquery E q f).LogAll p) ∧
      (∀ f s, (do_and_like_flatten E q f s).LogAll p)) ∧
    (∀ qs, (∀ op i f s, (do_and_like_loop E op qs i f s).LogAll p) ∧
      (∀ f, (do_or_like_children E qs f).LogAll p)) := by
  apply Query.induct
  · refine ⟨fun f => ?_, fun f s => ?_⟩
    · simp only [do_subquery]
      exact Run.logAll_create (hcreate _ rfl)
    · simp only [do_and_like_flatten]
      exact Run.logAll_abort _
  · rintro ⟨op, tn, pa, sp, k, wq, es⟩ subqs ⟨hl, hc⟩ hsub
    have hbody := fun f s => do_and_like_body_logAll E ⟨op, tn, pa, sp, k, wq, es⟩
      subqs.length (fun op s => do_and_like_loop E op subqs 0 f s) s (fun op s => hl op 0 f s)
    have hand : ∀ f, (Run.bind (do_and_like_body E ⟨op, tn, pa, sp, k, wq, es⟩ subqs.length
        (fun op s => do_and_like_loop E op subqs 0 f s) ⟨[], []⟩)
        (do_and_like_build E)).LogAll p := fun f =>
      Run.logAll_bind (hbody f _) fun s' _ =>
        do_and_like_build_logAll E s'
          (fun pl h => hcreate pl (by cases pl <;> first | rfl | simp [PostList.is_positional] at h))
          (fun _ => hcreate _ rfl)
    have hor' : ∀ f, (do_or_like_body E ⟨op, tn, pa, sp, k, wq, es⟩ subqs.length
        (do_or_like_children E subqs f)).LogAll p := fun f => hor _ _ _ (hc f)
    refine ⟨fun f => ?_, fun f s => ?_⟩
    · cases op with
      | OP_LEAF =>
        simp only [do_subquery]
        exact do_leaf_logAll E _ _ (fun _ => hcreate _ rfl)
      | OP_EXTERNAL_SOURCE =>
        simp only [do_subquery]
        exact Run.logAll_bind (Run.logAll_xassert _ E _) fun _ _ =>
          Run.logAll_create (hcreate _ rfl)
      | OP_VALUE_RANGE => simp only [do_subquery]; exact Run.logAll_create (hcreate _ rfl)
      | OP_VALUE_GE => simp only [do_subquery]; exact Run.logAll_create (hcreate _ rfl)
      | OP_VALUE_LE => simp only [do_subquery]; exact Run.logAll_create (hcreate _ rfl)
      | OP_AND => simp only [do_subquery]; exact hand f
      | OP_FILTER => simp only [do_subquery]; exact hand f
      | OP_NEAR => simp only [do_subquery]; exact hand f
      | OP_PHRASE => simp only [do_subquery]; exact hand f
      | OP_OR => simp only [do_subquery]; exact hor' f
      | OP_XOR => simp only [do_subquery]; exact hor' f
      | OP_ELITE_SET => simp only [do_subquery]; exact hor' f
      | OP_SYNONYM =>
        simp only [do_subquery]
        exact do_synonym_body_logAll E _ _ _ hor' (fun _ _ => hcreate _ rfl)
      | OP_AND_NOT =>
        match subqs, hsub with
        | [], _ =>
          simp only [do_subquery]
          exact Run.logAll_bind (Run.logAll_xassert _ E _) fun _ _ => Run.logAll_abort _
        | [q0], _ =>
          simp only [do_subquery]
          exact Run.logAll_bind (Run.logAll_xassert _ E _) fun _ _ => Run.logAll_abort _
        | q0 :: q1 :: rest, hsub =>
          simp only [do_subquery]
          refine Run.logAll_bind (Run.logAll_xassert _ E _) fun _ _ => ?_
          refine Run.logAll_bind ((hsub q0 (by simp)).1 _) fun _ _ => ?_
          refine Run.logAll_bind ((hsub q1 (by simp)).1 _) fun _ _ => ?_
          exact Run.logAll_create (hcreate _ rfl)
      | OP_AND_MAYBE =>
        match subqs, hsub with
        | [], _ =>
          simp only [do_subquery]
          exact Run.logAll_bind (Run.logAll_xassert _ E _) fun _ _ => Run.logAll_abort _
        | [q0], _ =>
          simp only [do_subquery]
          exact Run.logAll_bind (Run.logAll_xassert _ E _) fun _ _ => Run.logAll_abort _
        | q0 :: q1 :: rest, hsub =>
          simp only [do_subquery]
          refine Run.logAll_bind (Run.logAll_xassert _ E _) fun _ _ => ?_
          refine Run.logAll_bind ((hsub q0 (by simp)).1 _) fun _ _ => ?_
          refine Run.logAll_bind ((hsub q1 (by simp)).1 _) fun _ _ => ?_
          exact Run.logAll_create (hcreate _ rfl)
      | OP_SCALE_WEIGHT =>
        match subqs, hsub with
        | [], _ =>
          simp only [do_subquery]
          exact Run.logAll_bind (Run.logAll_xassert _ E _) fun _ _ => Run.logAll_abort _
        | q0 :: rest, hsub =>
          simp only [do_subquery]
          exact Run.logAll_bind (Run.logAll_xassert _ E _) fun _ _ => (hsub q0 (by simp)).1 _
    · simp only [do_and_like_flatten]
      exact hbody f s
  · refine ⟨fun op i f s => ?_, fun f => ?_⟩
    · rw [do_and_like_loop_nil]
      exact Run.logAll_pure _ _
    · simp only [do_or_like_children]
      exact Run.logAll_pure _ _
  · rintro q qs ⟨hq1, hq2⟩ ⟨hl, hc⟩
    refine ⟨fun op i f s => ?_, fun f => ?_⟩
    · rw [do_and_like_loop_cons]
      refine Run.logAll_bind ?_ fun s1 _ => hl op (i + 1) _ s1
      cases q with
      | null => exact Run.logAll_abort _
      | node sfields ssubqs =>
        simp only [and_like_child]
        split
        · exact hq2 _ s
        · exact Run.logAll_bind (hq1 _) fun _ _ => Run.logAll_pure _ _
    · simp only [do_or_like_children]
      refine Run.logAll_bind (hq1 f) fun _ _ => ?_
      exact Run.logAll_bind (hc f) fun _ _ => Run.logAll_pure _ _

theorem huffman_ok_of_not_or_node (E : Env) (pl : PostList) (h : pl.is_or_node = false) :
    (Event.create pl).huffman_ok E := by
  cases pl <;> trivial

/-- With conforming algorithms `do_or_like` keeps the Huffman invariant. -/
theorem do_or_like_body_huffman (E : Env) (hE : E.Conforming) (fields : QueryFields) (n : Nat)
    (children : Run (List PostList)) (hc : children.LogAll (Event.huffman_ok E)) :
    (do_or_like_body E fields n children).LogAll (Event.huffman_ok E) := by
  unfold do_or_like_body
  refine Run.logAll_bind (Run.logAll_xassert _ E _) fun _ _ => ?_
  refine Run.logAll_bind (Run.logAll_xassert _ E _) fun _ _ => ?_
  refine Run.logAll_bind hc fun v _ => ?_
  refine Run.logAll_bind ?_ fun sel _ => ?_
  · split_ifs
    all_goals first
      | exact elite_set_select_logAll E _ _ (fun _ => trivial)
      | exact Run.logAll_pure _ _
  · cases sel with
    | inl pl => exact Run.logAll_pure _ _
    | inr w =>
      refine Run.logAll_bind (Run.logAll_xassert _ E _) fun _ _ => ?_
      exact or_like_loop_huffman E hE _ _ _ (hE.make_heap_heap _ w (strictWeak_termfreq E))

/-- C2 (Huffman invariant).  With heap algorithms that meet their contract, and
whatever values `get_termfreq_est` has on the child postlists and on the combined
nodes, every binary `OrPostList(l, r)` or `XorPostList(l, r)` created in a run of
`do_subquery` (all of them are created by the build loop of `do_or_like`, for an
`OR`, `XOR`, `ELITE_SET` or `SYNONYM` node) has
`l.get_termfreq_est() >= r.get_termfreq_est()` when it is created. -/
theorem huffman_invariant (E : Env) (hE : E.Conforming) (q : Query) (f : ℚ) :
    (∀ l r, Event.create (.OrPostList l r) ∈ (do_subquery E q f).log →
      E.get_termfreq_est l ≥ E.get_termfreq_est r)
    ∧ (∀ l r, Event.create (.XorPostList l r) ∈ (do_subquery E q f).log →
      E.get_termfreq_est l ≥ E.get_termfreq_est r) := by
  have h := ((logAll_runs E (Event.huffman_ok E) (huffman_ok_of_not_or_node E)
    (do_or_like_body_huffman E hE)).1 q).1 f
  exact ⟨fun l r hm => h _ hm, fun l r hm => h _ hm⟩

theorem huffman_invariant_witness :
    (stubEnv true true).Conforming
    ∧ (do_subquery (stubEnv true true)
        (opq .OP_OR 0 [leafq "a" 100, leafq "b" 10, leafq "c" 1000, leafq "d" 1]) 1).outcome
      = .ok (.OrPostList (.LeafPostList (leafq "c" 1000) 1)
          (.OrPostList (.LeafPostList (leafq "a" 100) 1)
            (.OrPostList (.LeafPostList (leafq "b" 10) 1) (.LeafPostList (leafq "d" 1) 1))))
    ∧ ∀ l r, Event.create (.OrPostList l r) ∈ (do_subquery (stubEnv true true)
        (opq .OP_OR 0 [leafq "a" 100, leafq "b" 10, leafq "c" 1000, leafq "d" 1]) 1).log →
      (stubEnv true true).get_termfreq_est l ≥ (stubEnv true true).get_termfreq_est r :=
  ⟨stubEnv_conforming true true, rfl,
    (huffman_invariant (stubEnv true true) (stubEnv_conforming true true)
      (opq .OP_OR 0 [leafq "a" 100, leafq "b" 10, leafq "c" 1000, leafq "d" 1]) 1).1⟩

/-! ## The elite set -/

theorem Run.bind_eq_of_ok {α β : Type} {m : Run α} {k : α → Run β} {a : α} {b : β}
    {l1 l2 : List Event} (hm : m = ⟨.ok a, l1⟩) (hk : k a = ⟨.ok b, l2⟩) :
    m.bind k = ⟨.ok b, l1 ++ l2⟩ :=
  Run.bind_eq_ok.mpr ⟨a, l1, l2, hm, hk, rfl⟩

theorem OrTree.of_not_xor {op : Op} (hop : op ≠ .OP_XOR) {t : PostList}
    {ls : List PostList} (h : OrTree op t ls) : OrTree .OP_OR t ls := by
  induction h with
  | leaf p => exact OrTree.leaf p
  | node _ _ ihl ihr =>
    have : ∀ l r, or_node op l r = or_node .OP_OR l r := by
      intro l r
      simp [or_node, hop]
    rw [this]
    exact OrTree.node ihl ihr

/-- The end of `do_or_like` (the heap and the build loop) on a vector of at least
two postlists: it returns a tree of binary nodes over exactly these postlists and
creates one node less than there are postlists. -/
theorem or_like_build_ok (E : Env) (hE : E.Conforming) (op : Op) (v : List PostList)
    (h2 : 2 ≤ v.length) :
    ∃ t log ls,
      ((xassert E (decide
          ((E.make_heap (ComparePostListTermFreqAscending E) v).length ≥ 2))).bind fun _ =>
        or_like_loop E op (E.make_heap (ComparePostListTermFreqAscending E) v).length
          (E.make_heap (ComparePostListTermFreqAscending E) v)) = ⟨.ok t, log⟩ ∧
      OrTree op t ls ∧ ls.Perm v ∧ log.length + 1 = v.length ∧
      ∀ e ∈ log, ∃ l r, e = .create (or_node op l r) := by
  have hc := strictWeak_termfreq E
  have hperm := hE.make_heap_perm _ v hc
  have hlen := hperm.length_eq
  obtain ⟨t, log, ls, hrun, hls, hlp, hll, hlog⟩ :=
    or_like_loop_ok E hE op (E.make_heap (ComparePostListTermFreqAscending E) v).length
      (E.make_heap (ComparePostListTermFreqAscending E) v) v
      (hE.make_heap_heap _ v hc) (by omega) (by omega) ((Covers.init op v).perm hperm)
  refine ⟨t, log, ls, ?_, hls, hlp, by omega, hlog⟩
  rw [xassert_of_eq_true E (by simp only [decide_eq_true_eq]; omega), Run.pure_bind, hrun]

/-- What the elite-set block does when there are more postlists than the elite set
size: it keeps the first `k` entries `nth_element` leaves and deletes the others. -/
theorem elite_set_select_spec (E : Env) (hE : E.Conforming) (k : Nat) (hk : 1 ≤ k)
    (postlists : List PostList) (hn : k < postlists.length) :
    ∃ kept released,
      (elite_set_select E k postlists).log = released.map Event.delete ∧
      (k = 1 → ∃ p, kept = [p] ∧ (elite_set_select E k postlists).outcome = .ok (.inl p)) ∧
      (k ≠ 1 → (elite_set_select E k postlists).outcome = .ok (.inr kept)) ∧
      kept.length = k ∧ released.length = postlists.length - k ∧
      (kept ++ released).Perm postlists ∧
      (∀ a ∈ kept, ∀ b ∈ released, CmpMaxOrTerms E b a = false) ∧
      ((∀ p ∈ postlists, E.get_termfreq_max p ≠ 0) →
        ∀ a ∈ kept, ∀ b ∈ released, E.get_maxweight a ≥ E.get_maxweight b) := by
  have hc := strictWeak_maxorterms E
  have hnth : k - 1 < postlists.length := by omega
  have hperm := hE.nth_element_perm (CmpMaxOrTerms E) (k - 1) postlists hc hnth
  have hspec := hE.nth_element_spec (CmpMaxOrTerms E) (k - 1) postlists hc hnth
  have hlen := hperm.length_eq
  have hsel : elite_set_select E k postlists
      = (⟨.ok (), ((E.nth_element (CmpMaxOrTerms E) (k - 1) postlists).drop k).map
            Event.delete⟩ : Run Unit).bind fun _ =>
          if k = 1 then
            match E.nth_element (CmpMaxOrTerms E) (k - 1) postlists with
            | [] => Run.abort
            | p :: _ => Run.pure (.inl p)
          else
            Run.pure (.inr ((E.nth_element (CmpMaxOrTerms E) (k - 1) postlists).take k)) := by
    unfold elite_set_select
    rw [xassert_of_eq_true E (by simp only [decide_eq_true_eq]; omega), Run.pure_bind,
      if_pos hn, if_neg (by omega)]
  rw [hsel]
  clear hsel
  generalize E.nth_element (CmpMaxOrTerms E) (k - 1) postlists = w at hperm hspec hlen ⊢
  have hcmp : ∀ a ∈ w.take k, ∀ b ∈ w.drop k, CmpMaxOrTerms E b a = false := by
    intro a ha b hb
    obtain ⟨i, hi, rfl⟩ := List.mem_iff_getElem.mp ha
    obtain ⟨j, hj, rfl⟩ := List.mem_iff_getElem.mp hb
    simp only [List.length_take, List.length_drop] at hi hj
    have := hspec i (k + j) (by omega) (by omega) (by omega) (by omega)
    simpa [List.getElem_take, List.getElem_drop] using this
  refine ⟨w.take k, w.drop k, ?_, ?_, ?_, ?_, ?_, ?_, hcmp, ?_⟩
  · rw [Run.ok_bind]
    simp only
    split_ifs
    · cases w <;> simp [Run.abort, Run.pure]
    · simp [Run.pure]
  · intro hk1
    subst hk1
    cases w with
    | nil => simp at hlen; omega
    | cons p w' => exact ⟨p, by simp, by simp [Run.ok_bind, Run.pure]⟩
  · intro hk1
    simp [Run.ok_bind, hk1, Run.pure]
  · simp only [List.length_take]; omega
  · simp only [List.length_drop]; omega
  · rw [List.take_append_drop]; exact hperm
  · intro hz a ha b hb
    have h := hcmp a ha b hb
    have hza : E.get_termfreq_max a ≠ 0 :=
      hz a (hperm.subset (List.mem_of_mem_take ha))
    have hzb : E.get_termfreq_max b ≠ 0 :=
      hz b (hperm.subset (List.mem_of_mem_drop hb))
    simpa [CmpMaxOrTerms, hza, hzb] using h

theorem do_or_like_children_length (E : Env) (f : ℚ) :
    ∀ (qs : List Query) (pls : List PostList) (log : List Event),
      do_or_like_children E qs f = ⟨.ok pls, log⟩ → pls.length = qs.length := by
  intro qs
  induction qs with
  | nil =>
    intro pls log h
    simp only [do_or_like_children, Run.pure, Run.mk.injEq, Outcome.ok.injEq] at h
    rw [← h.1]
    rfl
  | cons q qs ih =>
    intro pls log h
    simp only [do_or_like_children] at h
    obtain ⟨pl, l1, l2, _, h2, _⟩ := Run.bind_eq_ok.mp h
    obtain ⟨pls', l3, l4, h3, h4, _⟩ := Run.bind_eq_ok.mp h2
    simp only [Run.pure, Run.mk.injEq, Outcome.ok.injEq] at h4
    rw [← h4.1, List.length_cons, ih pls' l3 h3]
    rfl

/-- C6 (elite-set bound).  With algorithms that meet their contract, for an
`ELITE_SET` node with parameter `k >= 1` and `n >= 2` children that are all built,
`do_subquery` returns a tree `t` of binary `OrPostList` nodes whose leaves are
`min(n, k)` of the built child postlists (the kept ones; the others are deleted),
hence at most `k`; it creates one `OrPostList` less than it keeps postlists; and
when `k = 1` (so `n > 1`) the result is one of the child postlists itself and no
`OrPostList` is created. -/
theorem elite_set_bound (E : Env) (hE : E.Conforming) (tname str_parameter : String)
    (dbl_parameter : ℚ) (wqf : Nat) (external_source : Option Nat) (k : Nat) (hk : 1 ≤ k)
    (subqs : List Query) (hn : 2 ≤ subqs.length) (f : ℚ) (postlists : List PostList)
    (clog : List Event) (hc : do_or_like_children E subqs f = ⟨.ok postlists, clog⟩) :
    ∃ t kept released log leaves,
      do_subquery E
          (.node ⟨.OP_ELITE_SET, tname, k, str_parameter, dbl_parameter, wqf, external_source⟩
            subqs) f
        = ⟨.ok t, clog ++ (released.map Event.delete ++ log)⟩ ∧
      OrTree .OP_OR t leaves ∧ leaves.Perm kept ∧
      (kept ++ released).Perm postlists ∧
      kept.length = min subqs.length k ∧ kept.length ≤ k ∧
      log.length + 1 = kept.length ∧
      (∀ e ∈ log, ∃ l r, e = .create (.OrPostList l r)) ∧
      (k = 1 → t ∈ postlists ∧ kept = [t] ∧ log = []) := by
  have hlen := do_or_like_children_length E f subqs postlists clog hc
  have hnode : ∀ l r, or_node .OP_ELITE_SET l r = .OrPostList l r := fun l r => rfl
  have hstart : do_subquery E
      (.node ⟨.OP_ELITE_SET, tname, k, str_parameter, dbl_parameter, wqf, external_source⟩
        subqs) f
      = (do_or_like_children E subqs f).bind fun postlists =>
          (elite_set_select E k postlists).bind fun sel =>
            match sel with
            | .inl pl => Run.pure pl
            | .inr postlists =>
              (xassert E (decide
                ((E.make_heap (ComparePostListTermFreqAscending E) postlists).length ≥ 2))).bind
              fun _ => or_like_loop E .OP_ELITE_SET
                (E.make_heap (ComparePostListTermFreqAscending E) postlists).length
                (E.make_heap (ComparePostListTermFreqAscending E) postlists) := by
    simp only [do_subquery, do_or_like_body]
    rw [xassert_of_eq_true E (by rfl), Run.pure_bind,
      xassert_of_eq_true E (by simpa using hn), Run.pure_bind]
    rfl
  rw [hstart]
  by_cases hnk : k < postlists.length
  · obtain ⟨kept, released, hlog, h1, hne1, hkl, hrl, hperm, _, _⟩ :=
      elite_set_select_spec E hE k hk postlists hnk
    by_cases hk1 : k = 1
    · obtain ⟨p, hp, hout⟩ := h1 hk1
      have hsel : elite_set_select E k postlists = ⟨.ok (.inl p), released.map Event.delete⟩ := by
        rw [← hlog, ← hout]
      refine ⟨p, kept, released, [], [p], ?_, OrTree.leaf p, by rw [hp], hperm, ?_, by omega,
        by rw [hp]; rfl, by simp, fun _ => ⟨?_, hp, rfl⟩⟩
      · refine Run.bind_eq_of_ok hc ?_
        rw [List.append_nil, ← List.append_nil (released.map Event.delete)]
        exact Run.bind_eq_of_ok hsel rfl
      · rw [hkl]; omega
      · exact hperm.subset (by rw [hp]; simp)
    · have hout := hne1 hk1
      have hsel : elite_set_select E k postlists = ⟨.ok (.inr kept), released.map Event.delete⟩ := by
        rw [← hlog, ← hout]
      obtain ⟨t, log, ls, hrun, hls, hlp, hll, hlg⟩ :=
        or_like_build_ok E hE .OP_ELITE_SET kept (by omega)
      refine ⟨t, kept, released, log, ls, ?_, hls.of_not_xor (by decide), hlp, hperm, ?_,
        by omega, hll, ?_, fun h => absurd h hk1⟩
      · refine Run.bind_eq_of_ok hc ?_
        exact Run.bind_eq_of_ok hsel hrun
      · rw [hkl]; omega
      · intro e he
        obtain ⟨l, r, h⟩ := hlg e he
        exact ⟨l, r, by rw [h, hnode]⟩
  · have hsel : elite_set_select E k postlists = ⟨.ok (.inr postlists), []⟩ := by
      unfold elite_set_select
      rw [xassert_of_eq_true E (by simp only [decide_eq_true_eq]; omega), Run.pure_bind,
        if_neg (by omega)]
      rfl
    obtain ⟨t, log, ls, hrun, hls, hlp, hll, hlg⟩ :=
      or_like_build_ok E hE .OP_ELITE_SET postlists (by omega)
    refine ⟨t, postlists, [], log, ls, ?_, hls.of_not_xor (by decide), hlp, by simp, ?_,
      by omega, hll, ?_, fun h => by omega⟩
    · refine Run.bind_eq_of_ok hc ?_
      have := Run.bind_eq_of_ok (k := fun sel =>
          match sel with
          | .inl pl => Run.pure pl
          | .inr postlists =>
            (xassert E (decide
              ((E.make_heap (ComparePostListTermFreqAscending E) postlists).length ≥ 2))).bind
            fun _ => or_like_loop E .OP_ELITE_SET
              (E.make_heap (ComparePostListTermFreqAscending E) postlists).length
              (E.make_heap (ComparePostListTermFreqAscending E) postlists)) hsel hrun
      simpa using this
    · omega
    · intro e he
      obtain ⟨l, r, h⟩ := hlg e he
      exact ⟨l, r, by rw [h, hnode]⟩

/-- Scenario S5 in the stub environment: `ELITE_SET(k=2, A, B, C, D)` keeps `D` and
`B`, deletes `C` and `A`, and returns the OR of the two kept postlists. -/
theorem elite_set_bound_witness :
    (∃ t kept released log leaves,
      do_subquery (stubEnv true true) (.node ⟨.OP_ELITE_SET, "", 2, "", 0, 0, none⟩ s5_terms) 1
        = ⟨.ok t, s5_postlists.map Event.create ++ (released.map Event.delete ++ log)⟩ ∧
      OrTree .OP_OR t leaves ∧ leaves.Perm kept ∧
      (kept ++ released).Perm s5_postlists ∧
      kept.length = min s5_terms.length 2 ∧ kept.length ≤ 2 ∧
      log.length + 1 = kept.length ∧
      (∀ e ∈ log, ∃ l r, e = .create (.OrPostList l r)) ∧
      (2 = 1 → t ∈ s5_postlists ∧ kept = [t] ∧ log = []))
    ∧ (do_subquery (stubEnv true true)
        (.node ⟨.OP_ELITE_SET, "", 2, "", 0, 0, none⟩ s5_terms) 1).outcome
      = .ok (.OrPostList (.LeafPostList (leafw "D" 4 (9 / 10)) 1)
          (.LeafPostList (leafw "B" 2 (8 / 10)) 1)) :=
  ⟨elite_set_bound (stubEnv true true) (stubEnv_conforming true true) "" "" 0 0 none 2
      (by decide) s5_terms (by decide) 1 s5_postlists (s5_postlists.map Event.create) rfl,
    by with_unfolding_all rfl⟩

/-- Scenario S5 for every `nth_element` that meets its contract: with maxweights
0.2, 0.8, 0.5, 0.9 for `A`, `B`, `C`, `D`, all with a non-zero `termfreq_max`, and
`k = 2`, the kept postlists are `B` and `D` and the deleted ones `A` and `C`. -/
theorem elite_set_select_s5 (E : Env) (hE : E.Conforming) (A B C D : PostList)
    (hA : E.get_maxweight A = 2 / 10) (hB : E.get_maxweight B = 8 / 10)
    (hC : E.get_maxweight C = 5 / 10) (hD : E.get_maxweight D = 9 / 10)
    (hz : ∀ p ∈ [A, B, C, D], E.get_termfreq_max p ≠ 0) :
    ∃ kept released : List PostList,
      elite_set_select E 2 [A, B, C, D] = ⟨.ok (.inr kept), released.map Event.delete⟩ ∧
      kept.Perm [B, D] ∧ released.Perm [A, C] := by
  obtain ⟨kept, released, hlog, _, hne1, hkl, _, hperm, _, hmw⟩ :=
    elite_set_select_spec E hE 2 (by decide) [A, B, C, D] (by simp)
  have hmw := hmw hz
  have hout := hne1 (by decide)
  have hAB : A ≠ B := fun h => by rw [h, hB] at hA; norm_num at hA
  have hAC : A ≠ C := fun h => by rw [h, hC] at hA; norm_num at hA
  have hAD : A ≠ D := fun h => by rw [h, hD] at hA; norm_num at hA
  have hBC : B ≠ C := fun h => by rw [h, hC] at hB; norm_num at hB
  have hBD : B ≠ D := fun h => by rw [h, hD] at hB; norm_num at hB
  have hCD : C ≠ D := fun h => by rw [h, hD] at hC; norm_num at hC
  have hnd : [A, B, C, D].Nodup := by
    simp [hAB, hAC, hAD, hBC, hBD, hCD]
  have hnd2 : (kept ++ released).Nodup := hperm.nodup_iff.mpr hnd
  have hdisj := (List.nodup_append.mp hnd2).2.2
  have hndk := (List.nodup_append.mp hnd2).1
  have hmem : ∀ x ∈ kept, x = A ∨ x = B ∨ x = C ∨ x = D := fun x hx => by
    have := hperm.subset (List.mem_append_left _ hx)
    simpa using this
  match kept, hkl, hmem, hndk, hmw, hdisj, hperm, hout with
  | [x, y], _, hmem, hndk, hmw, hdisj, hperm, hout =>
    have hxy : x ≠ y := by
      intro h
      simp [h] at hndk
    have hDk : D ∈ [x, y] := by
      rcases List.mem_append.mp (hperm.symm.subset (by simp : D ∈ [A, B, C, D])) with h | h
      · exact h
      · exfalso
        have h1 := hmw x (by simp) D h
        rw [hD] at h1
        rcases hmem x (by simp) with e | e | e | e
        · rw [e, hA] at h1; norm_num at h1
        · rw [e, hB] at h1; norm_num at h1
        · rw [e, hC] at h1; norm_num at h1
        · exact hdisj (by simp : x ∈ [x, y]) (by rw [e]; exact h)
    have hBk : B ∈ [x, y] := by
      rcases List.mem_append.mp (hperm.symm.subset (by simp : B ∈ [A, B, C, D])) with h | h
      · exact h
      · exfalso
        have key : ∀ z ∈ [x, y], z = D := by
          intro z hz'
          have h1 := hmw z hz' B h
          rw [hB] at h1
          rcases hmem z hz' with e | e | e | e
          · rw [e, hA] at h1; norm_num at h1
          · exact absurd (by rw [e]; exact h) (hdisj hz')
          · rw [e, hC] at h1; norm_num at h1
          · exact e
        exact hxy ((key x (by simp)).trans (key y (by simp)).symm)
    have hk : [x, y].Perm [B, D] := by
      simp only [List.mem_cons, List.mem_singleton, List.not_mem_nil, or_false] at hDk hBk
      rcases hBk with e1 | e1 <;> rcases hDk with e2 | e2
      · exact absurd (e1.trans e2.symm) hBD
      · rw [← e1, ← e2]
      · rw [← e1, ← e2]
        exact List.Perm.swap _ _ _
      · exact absurd (e1.trans e2.symm) hBD
    refine ⟨[x, y], released, by rw [← hlog, ← hout], hk, ?_⟩
    have h1 : ([B, D] ++ released).Perm ([B, D] ++ [A, C]) := by
      refine ((List.Perm.append_right released hk).symm.trans hperm).trans ?_
      have : [A, B, C, D].Perm [B, A, C, D] := List.Perm.swap _ _ _
      refine this.trans (List.Perm.cons B ?_)
      have : [A, C, D].Perm [A, D, C] := List.Perm.cons A (List.Perm.swap _ _ _)
      exact this.trans (List.Perm.swap _ _ _)
    exact (List.perm_append_left_iff _).mp h1

/-- C7 (elite-set selection).  With an `nth_element` that meets its contract, for
an elite set size `k >= 1` and `n > k` built child postlists, the block keeps `k`
postlists and deletes `n - k` (the log of the block is exactly these deletions);
kept and released together are the built postlists, each as often as it was built;
no released postlist is ordered before a kept one by `CmpMaxOrTerms`; so when every
child has a non-zero `termfreq_max`, the maxweight of every kept child is at least
that of every released child.  With `k = 1` the one kept postlist is returned at
once, otherwise the kept ones go on to the build loop.  And with maxweights 0.2,
0.8, 0.5, 0.9 for four postlists `A`, `B`, `C`, `D` of non-zero `termfreq_max` and
`k = 2`, the kept set is exactly `B`, `D` and the released ones are `A`, `C`. -/
theorem elite_set_selection (E : Env) (hE : E.Conforming) (k : Nat) (hk : 1 ≤ k)
    (postlists : List PostList) (hn : k < postlists.length) :
    (∃ kept released,
      (elite_set_select E k postlists).log = released.map Event.delete ∧
      (k = 1 → ∃ p, kept = [p] ∧ (elite_set_select E k postlists).outcome = .ok (.inl p)) ∧
      (k ≠ 1 → (elite_set_select E k postlists).outcome = .ok (.inr kept)) ∧
      kept.length = k ∧ released.length = postlists.length - k ∧
      (kept ++ released).Perm postlists ∧
      (∀ a ∈ kept, ∀ b ∈ released, CmpMaxOrTerms E b a = false) ∧
      ((∀ p ∈ postlists, E.get_termfreq_max p ≠ 0) →
        ∀ a ∈ kept, ∀ b ∈ released, E.get_maxweight a ≥ E.get_maxweight b))
    ∧ (∀ A B C D : PostList, E.get_maxweight A = 2 / 10 → E.get_maxweight B = 8 / 10 →
        E.get_maxweight C = 5 / 10 → E.get_maxweight D = 9 / 10 →
        (∀ p ∈ [A, B, C, D], E.get_termfreq_max p ≠ 0) →
        ∃ kept released : List PostList,
          elite_set_select E 2 [A, B, C, D] = ⟨.ok (.inr kept), released.map Event.delete⟩ ∧
          kept.Perm [B, D] ∧ released.Perm [A, C]) :=
  ⟨elite_set_select_spec E hE k hk postlists hn,
    fun A B C D hA hB hC hD hz => elite_set_select_s5 E hE A B C D hA hB hC hD hz⟩

/-- Scenario S5 in the stub environment: the elite-set block keeps `D` and `B` and
deletes `C` and `A`. -/
theorem elite_set_selection_witness :
    (stubEnv true true).Conforming ∧ 1 ≤ 2 ∧ 2 < s5_postlists.length
    ∧ (∃ kept released,
      (elite_set_select (stubEnv true true) 2 s5_postlists).log = released.map Event.delete ∧
      (2 = 1 → ∃ p, kept = [p] ∧
        (elite_set_select (stubEnv true true) 2 s5_postlists).outcome = .ok (.inl p)) ∧
      (2 ≠ 1 → (elite_set_select (stubEnv true true) 2 s5_postlists).outcome = .ok (.inr kept)) ∧
      kept.length = 2 ∧ released.length = s5_postlists.length - 2 ∧
      (kept ++ released).Perm s5_postlists ∧
      (∀ a ∈ kept, ∀ b ∈ released, CmpMaxOrTerms (stubEnv true true) b a = false) ∧
      ((∀ p ∈ s5_postlists, (stubEnv true true).get_termfreq_max p ≠ 0) →
        ∀ a ∈ kept, ∀ b ∈ released,
          (stubEnv true true).get_maxweight a ≥ (stubEnv true true).get_maxweight b))
    ∧ elite_set_select (stubEnv true true) 2 s5_postlists
      = ⟨.ok (.inr [.LeafPostList (leafw "D" 4 (9 / 10)) 1,
            .LeafPostList (leafw "B" 2 (8 / 10)) 1]),
          [.delete (.LeafPostList (leafw "C" 3 (5 / 10)) 1),
            .delete (.LeafPostList (leafw "A" 1 (2 / 10)) 1)]⟩ :=
  ⟨stubEnv_conforming true true, by decide, by decide,
    (elite_set_selection (stubEnv true true) (stubEnv_conforming true true) 2 (by decide)
      s5_postlists (by decide)).1,
    by with_unfolding_all rfl⟩

/-! ## The statistics of a collection -/

/-! ### Rounding to `double` -/

theorem round_half_even_intCast (z : ℤ) : round_half_even (z : ℚ) = z := by
  simp [round_half_even]

theorem round_half_even_floor_le (y : ℚ) : ⌊y⌋ ≤ round_half_even y := by
  unfold round_half_even
  split_ifs <;> omega

theorem round_half_even_err (y : ℚ) : |(round_half_even y : ℚ) - y| ≤ 1 / 2 := by
  have h1 := Int.floor_le y
  have h2 := Int.lt_floor_add_one y
  unfold round_half_even
  rw [abs_le]
  split_ifs with ha hb hc
  · constructor <;> linarith
  · push_cast
    constructor <;> linarith
  · constructor <;> linarith
  · push_cast
    constructor <;> linarith

theorem zpow_log_bounds (x : ℚ) (hx : 0 < x) :
    (2 : ℚ) ^ (52 : ℤ) ≤ x / 2 ^ (Int.log 2 x - 52) ∧ x / 2 ^ (Int.log 2 x - 52) < 2 ^ (53 : ℤ) := by
  have h1 : ((2 : ℕ) : ℚ) ^ Int.log 2 x ≤ x := Int.zpow_log_le_self (by norm_num) hx
  have h2 : x < ((2 : ℕ) : ℚ) ^ (Int.log 2 x + 1) := Int.lt_zpow_succ_log_self (by norm_num) x
  push_cast at h1 h2
  have hp : (0 : ℚ) < 2 ^ (Int.log 2 x - 52) := zpow_pos (by norm_num) _
  constructor
  · rw [le_div_iff₀ hp, ← zpow_add₀ (by norm_num : (2 : ℚ) ≠ 0)]
    have : (52 : ℤ) + (Int.log 2 x - 52) = Int.log 2 x := by ring
    rw [this]
    exact h1
  · rw [div_lt_iff₀ hp, ← zpow_add₀ (by norm_num : (2 : ℚ) ≠ 0)]
    have : (53 : ℤ) + (Int.log 2 x - 52) = Int.log 2 x + 1 := by ring
    rw [this]
    exact h2

theorem round_double_pos (x : ℚ) (hx : 0 < x) : 0 < round_double x := by
  unfold round_double
  rw [if_neg (ne_of_gt hx), abs_of_pos hx]
  have hb := (zpow_log_bounds x hx).1
  have hf : (2 : ℤ) ^ 52 ≤ ⌊x / 2 ^ (Int.log 2 x - 52)⌋ := by
    rw [Int.le_floor]
    push_cast
    exact_mod_cast hb
  have hm := round_half_even_floor_le (x / 2 ^ (Int.log 2 x - 52))
  have : (0 : ℚ) < (round_half_even (x / 2 ^ (Int.log 2 x - 52)) : ℚ) := by
    have : (0 : ℤ) < round_half_even (x / 2 ^ (Int.log 2 x - 52)) := by
      have : (0 : ℤ) < 2 ^ 52 := by norm_num
      omega
    exact_mod_cast this
  exact mul_pos this (zpow_pos (by norm_num) _)

theorem round_double_err (x : ℚ) (hx : 0 < x) : |round_double x - x| ≤ x / 2 ^ 53 := by
  unfold round_double
  rw [if_neg (ne_of_gt hx), abs_of_pos hx]
  have hb := (zpow_log_bounds x hx).1
  have hp : (0 : ℚ) < 2 ^ (Int.log 2 x - 52) := zpow_pos (by norm_num) _
  have herr := round_half_even_err (x / 2 ^ (Int.log 2 x - 52))
  have hx' : x = x / 2 ^ (Int.log 2 x - 52) * 2 ^ (Int.log 2 x - 52) := by
    field_simp
  have : (round_half_even (x / 2 ^ (Int.log 2 x - 52)) : ℚ) * 2 ^ (Int.log 2 x - 52) - x
      = ((round_half_even (x / 2 ^ (Int.log 2 x - 52)) : ℚ) - x / 2 ^ (Int.log 2 x - 52))
        * 2 ^ (Int.log 2 x - 52) := by
    rw [sub_mul, ← hx']
  rw [this, abs_mul, abs_of_pos hp]
  have h52 : (2 : ℚ) ^ (Int.log 2 x - 52) * 2 ^ (52 : ℤ) ≤ x := by
    rw [le_div_iff₀ hp] at hb
    linarith
  have h52' : (2 : ℚ) ^ (52 : ℤ) = 2 ^ 52 := by norm_cast
  rw [h52'] at h52
  calc |(round_half_even (x / 2 ^ (Int.log 2 x - 52)) : ℚ) - x / 2 ^ (Int.log 2 x - 52)|
        * 2 ^ (Int.log 2 x - 52)
      ≤ 1 / 2 * 2 ^ (Int.log 2 x - 52) := mul_le_mul_of_nonneg_right herr (le_of_lt hp)
    _ ≤ x / 2 ^ 53 := by
      rw [le_div_iff₀ (by norm_num)]
      have : (1 : ℚ) / 2 * 2 ^ (Int.log 2 x - 52) * 2 ^ 53 = 2 ^ (Int.log 2 x - 52) * 2 ^ 52 := by
        ring
      rw [this]
      exact h52

theorem round_double_of_double (x : ℚ) (hx : is_double x) : round_double x = x := by
  obtain ⟨M, E, hM, rfl⟩ := hx
  by_cases h0 : M = 0
  · subst h0
    simp [round_double]
  have hMpos : (0 : ℚ) < M := by exact_mod_cast Nat.pos_of_ne_zero h0
  have hx : (0 : ℚ) < (M : ℚ) * 2 ^ E := mul_pos hMpos (zpow_pos (by norm_num) _)
  obtain ⟨hb1, hb2⟩ := zpow_log_bounds _ hx
  unfold round_double
  rw [if_neg (ne_of_gt hx), abs_of_pos hx]
  generalize Int.log 2 ((M : ℚ) * 2 ^ E) - 52 = e at hb1 hb2 ⊢
  have hp : (0 : ℚ) < 2 ^ e := zpow_pos (by norm_num) _
  have hy : (M : ℚ) * 2 ^ E / 2 ^ e = (M : ℚ) * 2 ^ (E - e) := by
    rw [zpow_sub₀ (by norm_num : (2 : ℚ) ≠ 0), mul_div_assoc]
  rw [hy] at hb1 ⊢
  have hEe : 0 ≤ E - e := by
    by_contra hneg
    push_neg at hneg
    have h1 : (2 : ℚ) ^ (E - e) ≤ 2 ^ (-1 : ℤ) :=
      zpow_le_zpow_right₀ (by norm_num) (by omega)
    have h2 : (M : ℚ) < 2 ^ 53 := by exact_mod_cast hM
    have h3 : (M : ℚ) * 2 ^ (E - e) ≤ M * 2 ^ (-1 : ℤ) :=
      mul_le_mul_of_nonneg_left h1 (le_of_lt hMpos)
    have h4 : (2 : ℚ) ^ (52 : ℤ) = 2 ^ 52 := by norm_cast
    have h5 : (2 : ℚ) ^ (-1 : ℤ) = 1 / 2 := by norm_num
    rw [h4] at hb1
    rw [h5] at h3
    linarith
  obtain ⟨n, hn⟩ := Int.eq_ofNat_of_zero_le hEe
  have hint : (M : ℚ) * 2 ^ (E - e) = (((M : ℤ) * 2 ^ n : ℤ) : ℚ) := by
    rw [hn, zpow_natCast]
    push_cast
    rfl
  rw [hint, round_half_even_intCast, ← hint, mul_assoc, ← zpow_add₀ (by norm_num : (2 : ℚ) ≠ 0)]
  congr 2
  ring

theorem int_log_eq (x : ℚ) (k : ℤ) (hx : 0 < x) (h1 : (2 : ℚ) ^ k ≤ x) (h2 : x < 2 ^ (k + 1)) :
    Int.log 2 x = k := by
  have a : k ≤ Int.log 2 x := (Int.zpow_le_iff_le_log (by norm_num) hx).mp (by exact_mod_cast h1)
  have b : Int.log 2 x < k + 1 := (Int.lt_zpow_iff_log_lt (by norm_num) hx).mp (by exact_mod_cast h2)
  omega


theorem double_of_nat_small (n : Nat) (h : n < 2 ^ 53) : double_of_nat n = n :=
  round_double_of_double _ ⟨n, 0, h, by simp⟩

theorem round_double_zero : round_double 0 = 0 := by simp [round_double]

/-- Relative error of a quotient of two rounded operands, rounded. -/
theorem rounded_quotient_err (t c a b v : ℚ) (ht : 0 < t) (hc : 0 < c)
    (ha : |a - t| ≤ t / 2 ^ 53) (hb : |b - c| ≤ c / 2 ^ 53)
    (hv : |v - a / b| ≤ a / b / 2 ^ 53) :
    |v - t / c| ≤ t / c / 2 ^ 51 := by
  rw [abs_le] at ha hb hv ⊢
  have hq : 0 < t / c := div_pos ht hc
  have ha1 : a ≤ t * ((2 ^ 53 + 1) / 2 ^ 53) := by
    have : t * ((2 ^ 53 + 1) / 2 ^ 53) = t + t / 2 ^ 53 := by ring
    linarith
  have ha2 : t * ((2 ^ 53 - 1) / 2 ^ 53) ≤ a := by
    have : t * ((2 ^ 53 - 1) / 2 ^ 53) = t - t / 2 ^ 53 := by ring
    linarith
  have hb1 : b ≤ c * ((2 ^ 53 + 1) / 2 ^ 53) := by
    have : c * ((2 ^ 53 + 1) / 2 ^ 53) = c + c / 2 ^ 53 := by ring
    linarith
  have hb2 : c * ((2 ^ 53 - 1) / 2 ^ 53) ≤ b := by
    have : c * ((2 ^ 53 - 1) / 2 ^ 53) = c - c / 2 ^ 53 := by ring
    linarith
  have hlo : (0 : ℚ) < c * ((2 ^ 53 - 1) / 2 ^ 53) := mul_pos hc (by norm_num)
  have hbpos : 0 < b := lt_of_lt_of_le hlo hb2
  have hapos : 0 < a := lt_of_lt_of_le (mul_pos ht (by norm_num)) ha2
  have hr1 : a / b ≤ t / c * ((2 ^ 53 + 1) / (2 ^ 53 - 1)) := by
    calc a / b ≤ t * ((2 ^ 53 + 1) / 2 ^ 53) / (c * ((2 ^ 53 - 1) / 2 ^ 53)) :=
          div_le_div₀ (le_of_lt (mul_pos ht (by norm_num))) ha1 hlo hb2
      _ = t / c * ((2 ^ 53 + 1) / (2 ^ 53 - 1)) := by
          field_simp
  have hr2 : t / c * ((2 ^ 53 - 1) / (2 ^ 53 + 1)) ≤ a / b := by
    calc t / c * ((2 ^ 53 - 1) / (2 ^ 53 + 1))
        = t * ((2 ^ 53 - 1) / 2 ^ 53) / (c * ((2 ^ 53 + 1) / 2 ^ 53)) := by
          field_simp
      _ ≤ a / b := div_le_div₀ (le_of_lt hapos) ha2 hbpos hb1
  have hv1 : v ≤ a / b * ((2 ^ 53 + 1) / 2 ^ 53) := by
    have : a / b * ((2 ^ 53 + 1) / 2 ^ 53) = a / b + a / b / 2 ^ 53 := by ring
    linarith
  have hv2 : a / b * ((2 ^ 53 - 1) / 2 ^ 53) ≤ v := by
    have : a / b * ((2 ^ 53 - 1) / 2 ^ 53) = a / b - a / b / 2 ^ 53 := by ring
    linarith
  have hup : v ≤ t / c * ((2 ^ 53 + 1) / (2 ^ 53 - 1) * ((2 ^ 53 + 1) / 2 ^ 53)) := by
    calc v ≤ a / b * ((2 ^ 53 + 1) / 2 ^ 53) := hv1
      _ ≤ t / c * ((2 ^ 53 + 1) / (2 ^ 53 - 1)) * ((2 ^ 53 + 1) / 2 ^ 53) :=
          mul_le_mul_of_nonneg_right hr1 (by norm_num)
      _ = _ := by ring
  have hdn : t / c * ((2 ^ 53 - 1) / (2 ^ 53 + 1) * ((2 ^ 53 - 1) / 2 ^ 53)) ≤ v := by
    calc t / c * ((2 ^ 53 - 1) / (2 ^ 53 + 1) * ((2 ^ 53 - 1) / 2 ^ 53))
        = t / c * ((2 ^ 53 - 1) / (2 ^ 53 + 1)) * ((2 ^ 53 - 1) / 2 ^ 53) := by ring
      _ ≤ a / b * ((2 ^ 53 - 1) / 2 ^ 53) := mul_le_mul_of_nonneg_right hr2 (by norm_num)
      _ ≤ v := hv2
  have k1 : ((2 : ℚ) ^ 53 + 1) / (2 ^ 53 - 1) * ((2 ^ 53 + 1) / 2 ^ 53) ≤ 1 + 1 / 2 ^ 51 := by
    norm_num
  have k2 : (1 : ℚ) - 1 / 2 ^ 51 ≤ (2 ^ 53 - 1) / (2 ^ 53 + 1) * ((2 ^ 53 - 1) / 2 ^ 53) := by
    norm_num
  have e1 : t / c * (1 + 1 / 2 ^ 51) = t / c + t / c / 2 ^ 51 := by ring
  have e2 : t / c * (1 - 1 / 2 ^ 51) = t / c - t / c / 2 ^ 51 := by ring
  have u1 := mul_le_mul_of_nonneg_left k1 (le_of_lt hq)
  have u2 := mul_le_mul_of_nonneg_left k2 (le_of_lt hq)
  constructor <;> linarith

theorem round_double_eval (x : ℚ) (k m : ℤ) (hx : 0 < x) (h1 : (2 : ℚ) ^ k ≤ x)
    (h2 : x < 2 ^ (k + 1)) (hm : round_half_even (x / 2 ^ (k - 52)) = m) :
    round_double x = (m : ℚ) * 2 ^ (k - 52) := by
  unfold round_double
  rw [if_neg (ne_of_gt hx), abs_of_pos hx, int_log_eq x k hx h1 h2, hm]

theorem round_double_one_over_49 : round_double (1 / 49) = 5882252574524729 / 2 ^ 58 := by
  rw [round_double_eval (1 / 49) (-6) 5882252574524729 (by norm_num) (by norm_num)
    (by norm_num) ?_]
  · norm_num
  · have hf : ⌊(1 : ℚ) / 49 / 2 ^ ((-6 : ℤ) - 52)⌋ = 5882252574524729 := by
      rw [Int.floor_eq_iff]
      norm_num
    unfold round_half_even
    rw [hf]
    norm_num

theorem round_double_one_third : round_double (1 / 3) = 6004799503160661 / 2 ^ 54 := by
  rw [round_double_eval (1 / 3) (-2) 6004799503160661 (by norm_num) (by norm_num)
    (by norm_num) ?_]
  · norm_num
  · have hf : ⌊(1 : ℚ) / 3 / 2 ^ ((-2 : ℤ) - 52)⌋ = 6004799503160661 := by
      rw [Int.floor_eq_iff]
      norm_num
    unfold round_half_even
    rw [hf]
    norm_num

theorem round_double_tie : round_double (2 ^ 53 + 1) = 2 ^ 53 := by
  rw [round_double_eval (2 ^ 53 + 1) 53 (2 ^ 52) (by norm_num) (by norm_num)
    (by norm_num) ?_]
  · norm_num
  · have hf : ⌊((2 : ℚ) ^ 53 + 1) / 2 ^ ((53 : ℤ) - 52)⌋ = 2 ^ 52 := by
      rw [Int.floor_eq_iff]
      norm_num
    unfold round_half_even
    rw [hf]
    norm_num

/-- C16 (average length), amended.  `get_average_length` always has a value; it is
0 when `collection_size` is 0, and otherwise the divisor is not zero and the value
is the quotient computed in `double` arithmetic: `total_length` and
`collection_size` are converted to `double` and divided, each step rounded to the
nearest `double`.  The value is within a relative error of `2^-51` of the exact
quotient `total_length / collection_size`; when both operands are below `2^53` it
is the exact quotient rounded once, within a relative error of `2^-53`, and it is
the exact quotient itself, so that it times `collection_size` is `total_length`,
whenever the exact quotient is a `double`.  A default-constructed record has
average length 0. -/
theorem get_average_length_spec (stats : Weight.Internal) :
    (∃ avg, stats.get_average_length = some avg ∧
      (stats.collection_size = 0 → avg = 0) ∧
      (stats.collection_size ≠ 0 →
        double_of_nat stats.collection_size ≠ 0 ∧
        avg = round_double
          (double_of_nat stats.total_length / double_of_nat stats.collection_size) ∧
        |avg - (stats.total_length : ℚ) / (stats.collection_size : ℚ)|
          ≤ (stats.total_length : ℚ) / (stats.collection_size : ℚ) / 2 ^ 51 ∧
        (stats.total_length < 2 ^ 53 → stats.collection_size < 2 ^ 53 →
          avg = round_double ((stats.total_length : ℚ) / (stats.collection_size : ℚ)) ∧
          |avg - (stats.total_length : ℚ) / (stats.collection_size : ℚ)|
            ≤ (stats.total_length : ℚ) / (stats.collection_size : ℚ) / 2 ^ 53 ∧
          (is_double ((stats.total_length : ℚ) / (stats.collection_size : ℚ)) →
            avg = (stats.total_length : ℚ) / (stats.collection_size : ℚ) ∧
            avg * (stats.collection_size : ℚ) = (stats.total_length : ℚ)))))
    ∧ Weight.Internal.Internal.get_average_length = some 0 := by
  refine ⟨?_, rfl⟩
  unfold Weight.Internal.get_average_length double_div
  by_cases h : stats.collection_size = 0
  · exact ⟨0, by simp [h], fun _ => rfl, fun h' => absurd h h'⟩
  have hc : (0 : ℚ) < (stats.collection_size : ℚ) := by
    exact_mod_cast Nat.pos_of_ne_zero h
  have hb : 0 < double_of_nat stats.collection_size := round_double_pos _ hc
  refine ⟨round_double
      (double_of_nat stats.total_length / double_of_nat stats.collection_size),
    by rw [if_neg h, if_neg (ne_of_gt hb)], fun h' => absurd h' h,
    fun _ => ⟨ne_of_gt hb, rfl, ?_, ?_⟩⟩
  · by_cases ht0 : stats.total_length = 0
    · simp [ht0, double_of_nat, round_double_zero]
    have ht : (0 : ℚ) < (stats.total_length : ℚ) := by
      exact_mod_cast Nat.pos_of_ne_zero ht0
    have ha : 0 < double_of_nat stats.total_length := round_double_pos _ ht
    exact rounded_quotient_err _ _ _ _ _ ht hc (round_double_err _ ht) (round_double_err _ hc)
      (round_double_err _ (div_pos ha hb))
  · intro h1 h2
    rw [double_of_nat_small _ h1, double_of_nat_small _ h2]
    refine ⟨rfl, ?_, ?_⟩
    · by_cases ht0 : stats.total_length = 0
      · simp [ht0, round_double_zero]
      have ht : (0 : ℚ) < (stats.total_length : ℚ) := by
        exact_mod_cast Nat.pos_of_ne_zero ht0
      exact round_double_err _ (div_pos ht hc)
    · intro hd
      rw [round_double_of_double _ hd]
      exact ⟨rfl, by field_simp⟩

/-- A collection of 4 documents of total length 10 has average length 5/2, the
exact quotient; one of 3 documents of total length 1 has the `double` nearest to
1/3. -/
theorem get_average_length_spec_witness :
    (⟨10, 4, 0, [], []⟩ : Weight.Internal).get_average_length = some (5 / 2)
    ∧ (⟨1, 3, 0, [], []⟩ : Weight.Internal).get_average_length
      = some (6004799503160661 / 2 ^ 54) := by
  constructor
  · obtain ⟨avg, h1, _, h3⟩ := (get_average_length_spec ⟨10, 4, 0, [], []⟩).1
    obtain ⟨_, _, _, h4⟩ := h3 (by decide)
    have h5 := (h4 (by norm_num) (by norm_num)).2.2 ⟨5, -1, by norm_num, by norm_num⟩
    rw [h1, h5.1]
    norm_num
  · obtain ⟨avg, h1, _, h3⟩ := (get_average_length_spec ⟨1, 3, 0, [], []⟩).1
    obtain ⟨_, _, _, h4⟩ := h3 (by decide)
    have h5 := (h4 (by norm_num) (by norm_num)).1
    rw [h1, h5]
    have : (((⟨1, 3, 0, [], []⟩ : Weight.Internal).total_length : ℕ) : ℚ)
        / (((⟨1, 3, 0, [], []⟩ : Weight.Internal).collection_size : ℕ) : ℚ) = 1 / 3 := by
      norm_num
    rw [this, round_double_one_third]

/-- C16 as stated fails: for a collection of 49 documents of total length 1 the
value is the `double` nearest to 1/49, which is not the exact quotient 1/49, and
times 49 it is not 1; and for one document of length `2^53 + 1`, which is not a
`double`, the value is `2^53`. -/
theorem get_average_length_claim_fails :
    (⟨1, 49, 0, [], []⟩ : Weight.Internal).get_average_length
      = some (5882252574524729 / 2 ^ 58)
    ∧ (5882252574524729 / 2 ^ 58 : ℚ) ≠ 1 / 49
    ∧ (5882252574524729 / 2 ^ 58 : ℚ) * 49 ≠ 1
    ∧ (¬ ∃ avg, (⟨1, 49, 0, [], []⟩ : Weight.Internal).get_average_length = some avg ∧
        avg = ((1 : ℕ) : ℚ) / ((49 : ℕ) : ℚ) ∧ avg * ((49 : ℕ) : ℚ) = ((1 : ℕ) : ℚ))
    ∧ (⟨2 ^ 53 + 1, 1, 0, [], []⟩ : Weight.Internal).get_average_length = some (2 ^ 53) := by
  have h : (⟨1, 49, 0, [], []⟩ : Weight.Internal).get_average_length
      = some (5882252574524729 / 2 ^ 58) := by
    simp only [Weight.Internal.get_average_length, double_div]
    rw [if_neg (by decide), double_of_nat_small 1 (by norm_num),
      double_of_nat_small 49 (by norm_num), if_neg (by norm_num)]
    have : ((1 : ℕ) : ℚ) / ((49 : ℕ) : ℚ) = 1 / 49 := by norm_num
    rw [this, round_double_one_over_49]
  refine ⟨h, by norm_num, by norm_num, ?_, ?_⟩
  · rintro ⟨avg, h1, h2, _⟩
    rw [h] at h1
    simp only [Option.some.injEq] at h1
    rw [← h1] at h2
    norm_num at h2
  · simp only [Weight.Internal.get_average_length, double_div]
    have h1 : double_of_nat (2 ^ 53 + 1) = 2 ^ 53 := by
      unfold double_of_nat
      have : (((2 ^ 53 + 1 : ℕ)) : ℚ) = 2 ^ 53 + 1 := by norm_num
      rw [this, round_double_tie]
    rw [if_neg (by decide), h1, double_of_nat_small 1 (by norm_num), if_neg (by norm_num)]
    have h2 : (2 : ℚ) ^ 53 / ((1 : ℕ) : ℚ) = ((2 ^ 53 : ℕ) : ℚ) * 2 ^ (0 : ℤ) := by norm_num
    rw [h2, round_double_of_double _ ⟨2 ^ 52, 1, by norm_num, by norm_num⟩]
    norm_num

/-! ## `CmpMaxOrTerms` as an ordering -/

/-- C17 (comparator meaning), amended.  `CmpMaxOrTerms(a, b)` is true if and only
if `a` has a non-zero `termfreq_max` and either `b` has `termfreq_max` 0 or the
maximum weight of `a` is strictly greater than that of `b`: a postlist with
`termfreq_max` 0 comes after every postlist with a non-zero `termfreq_max`, whatever
the weights, and the others are compared by maximum weight.  When the postlists
with a non-zero `termfreq_max` have a positive maximum weight this is the same as:
`a` has a strictly greater term weight than `b`, the term weight being 0 when
`termfreq_max` is 0 and the maximum weight otherwise. -/
theorem cmp_max_or_terms_meaning (E : Env) (a b : PostList) :
    (CmpMaxOrTerms E a b = true ↔
      E.get_termfreq_max a ≠ 0 ∧
        (E.get_termfreq_max b = 0 ∨ E.get_maxweight a > E.get_maxweight b))
    ∧ ((E.get_termfreq_max a ≠ 0 → 0 < E.get_maxweight a) →
        (E.get_termfreq_max b ≠ 0 → 0 < E.get_maxweight b) →
        (CmpMaxOrTerms E a b = true ↔ term_weight E a > term_weight E b)) := by
  constructor
  · unfold CmpMaxOrTerms
    by_cases ha : E.get_termfreq_max a = 0
    · simp [ha]
    · by_cases hb : E.get_termfreq_max b = 0 <;> simp [ha, hb]
  · intro hpa hpb
    unfold CmpMaxOrTerms term_weight
    by_cases ha : E.get_termfreq_max a = 0
    · by_cases hb : E.get_termfreq_max b = 0
      · simp [ha, hb]
      · have := hpb hb
        simp [ha, hb, le_of_lt this]
    · by_cases hb : E.get_termfreq_max b = 0
      · have := hpa ha
        simp [ha, hb, this]
      · simp [ha, hb]

/-- The comparison of two terms of scenario S5, both with a non-zero `termfreq_max`
and a positive maximum weight. -/
theorem cmp_max_or_terms_meaning_witness :
    CmpMaxOrTerms (stubEnv true true) (.LeafPostList (leafw "D" 4 (9 / 10)) 1)
        (.LeafPostList (leafw "B" 2 (8 / 10)) 1) = true ↔
      term_weight (stubEnv true true) (.LeafPostList (leafw "D" 4 (9 / 10)) 1)
        > term_weight (stubEnv true true) (.LeafPostList (leafw "B" 2 (8 / 10)) 1) :=
  (cmp_max_or_terms_meaning (stubEnv true true) (.LeafPostList (leafw "D" 4 (9 / 10)) 1)
    (.LeafPostList (leafw "B" 2 (8 / 10)) 1)).2
    (fun _ => by with_unfolding_all decide) (fun _ => by with_unfolding_all decide)

/-- C17 as stated fails: for a postlist `a` with a non-zero `termfreq_max` and
maximum weight 0 and a postlist `b` with `termfreq_max` 0 the term weights are both
0, so `a` has no strictly greater term weight than `b`, yet `CmpMaxOrTerms(a, b)`
is true. -/
theorem cmp_max_or_terms_claim_fails :
    term_weight (stubEnv true true) (.LeafPostList (leafw "a" 1 0) 0) = 0
    ∧ term_weight (stubEnv true true) (.LeafPostList (leafw "b" 0 0) 0) = 0
    ∧ CmpMaxOrTerms (stubEnv true true) (.LeafPostList (leafw "a" 1 0) 0)
        (.LeafPostList (leafw "b" 0 0) 0) = true
    ∧ ¬ (CmpMaxOrTerms (stubEnv true true) (.LeafPostList (leafw "a" 1 0) 0)
          (.LeafPostList (leafw "b" 0 0) 0) = true ↔
        term_weight (stubEnv true true) (.LeafPostList (leafw "a" 1 0) 0)
          > term_weight (stubEnv true true) (.LeafPostList (leafw "b" 0 0) 0)) := by
  have h1 : term_weight (stubEnv true true) (.LeafPostList (leafw "a" 1 0) 0) = 0 := rfl
  have h2 : term_weight (stubEnv true true) (.LeafPostList (leafw "b" 0 0) 0) = 0 := rfl
  have h3 : CmpMaxOrTerms (stubEnv true true) (.LeafPostList (leafw "a" 1 0) 0)
      (.LeafPostList (leafw "b" 0 0) 0) = true := rfl
  refine ⟨h1, h2, h3, ?_⟩
  rw [h1, h2, h3]
  simp

/-- C18 (strict weak ordering).  Over exact maxweights `CmpMaxOrTerms` is a strict
weak ordering: it is irreflexive, it is transitive, and "neither before the other"
is transitive. -/
theorem cmp_max_or_terms_strict_weak (E : Env) :
    (∀ a, CmpMaxOrTerms E a a = false)
    ∧ (∀ a b c, CmpMaxOrTerms E a b = true → CmpMaxOrTerms E b c = true →
        CmpMaxOrTerms E a c = true)
    ∧ (∀ a b c, CmpMaxOrTerms E a b = false → CmpMaxOrTerms E b a = false →
        CmpMaxOrTerms E b c = false → CmpMaxOrTerms E c b = false →
        CmpMaxOrTerms E a c = false ∧ CmpMaxOrTerms E c a = false) :=
  ⟨(strictWeak_maxorterms E).irrefl, (strictWeak_maxorterms E).trans,
    (strictWeak_maxorterms E).incomp_trans⟩

/-- Transitivity at three terms of scenario S5: `D` before `B` and `B` before `C`
give `D` before `C`. -/
theorem cmp_max_or_terms_strict_weak_witness :
    CmpMaxOrTerms (stubEnv true true) (.LeafPostList (leafw "D" 4 (9 / 10)) 1)
        (.LeafPostList (leafw "B" 2 (8 / 10)) 1) = true
    ∧ CmpMaxOrTerms (stubEnv true true) (.LeafPostList (leafw "B" 2 (8 / 10)) 1)
        (.LeafPostList (leafw "C" 3 (5 / 10)) 1) = true
    ∧ CmpMaxOrTerms (stubEnv true true) (.LeafPostList (leafw "D" 4 (9 / 10)) 1)
        (.LeafPostList (leafw "C" 3 (5 / 10)) 1) = true :=
  ⟨by with_unfolding_all rfl, by with_unfolding_all rfl,
    (cmp_max_or_terms_strict_weak (stubEnv true true)).2.1
      (.LeafPostList (leafw "D" 4 (9 / 10)) 1) (.LeafPostList (leafw "B" 2 (8 / 10)) 1)
      (.LeafPostList (leafw "C" 3 (5 / 10)) 1) (by with_unfolding_all rfl)
      (by with_unfolding_all rfl)⟩

/-! ## The shape of the OR tree -/

theorem OrTree.of_node_eq {op op2 : Op} (h : ∀ l r, or_node op l r = or_node op2 l r)
    {t : PostList} {ls : List PostList} (ht : OrTree op t ls) : OrTree op2 t ls := by
  induction ht with
  | leaf p => exact OrTree.leaf p
  | node _ _ ihl ihr =>
    rw [h]
    exact OrTree.node ihl ihr

theorem or_node_synonym_op (op : Op) (l r : PostList) :
    or_node (if op = .OP_SYNONYM then Op.OP_OR else op) l r = or_node op l r := by
  cases op <;> rfl

/-- `do_or_like` for a node that is not an elite set and has at least two
subqueries: the children are built, made into a heap, and the loop runs. -/
theorem do_or_like_plain (E : Env) (fields : QueryFields)
    (hop : fields.op = .OP_OR ∨ fields.op = .OP_XOR ∨ fields.op = .OP_SYNONYM)
    (subqs : List Query) (hn : 2 ≤ subqs.length) (f : ℚ) :
    do_or_like E (.node fields subqs) f
      = (do_or_like_children E subqs f).bind fun postlists =>
          (xassert E (decide
            ((E.make_heap (ComparePostListTermFreqAscending E) postlists).length ≥ 2))).bind
          fun _ => or_like_loop E (if fields.op = .OP_SYNONYM then Op.OP_OR else fields.op)
            (E.make_heap (ComparePostListTermFreqAscending E) postlists).length
            (E.make_heap (ComparePostListTermFreqAscending E) postlists) := by
  have hne : (if fields.op = .OP_SYNONYM then Op.OP_OR else fields.op) ≠ .OP_ELITE_SET := by
    rcases hop with h | h | h <;> rw [h] <;> decide
  simp only [do_or_like, do_or_like_body]
  rw [xassert_of_eq_true E (by rcases hop with h | h | h <;> rw [h] <;> rfl), Run.pure_bind,
    xassert_of_eq_true E (by simpa using hn), Run.pure_bind]
  simp only [if_neg hne, Run.pure_bind]

/-- `do_or_like` for an elite-set node with at least two subqueries. -/
theorem do_or_like_elite (E : Env) (fields : QueryFields) (hop : fields.op = .OP_ELITE_SET)
    (subqs : List Query) (hn : 2 ≤ subqs.length) (f : ℚ) :
    do_or_like E (.node fields subqs) f
      = (do_or_like_children E subqs f).bind fun postlists =>
          (elite_set_select E fields.parameter postlists).bind fun sel =>
            match sel with
            | .inl pl => Run.pure pl
            | .inr postlists =>
              (xassert E (decide
                ((E.make_heap (ComparePostListTermFreqAscending E) postlists).length ≥ 2))).bind
              fun _ => or_like_loop E .OP_ELITE_SET
                (E.make_heap (ComparePostListTermFreqAscending E) postlists).length
                (E.make_heap (ComparePostListTermFreqAscending E) postlists) := by
  simp only [do_or_like, do_or_like_body]
  rw [xassert_of_eq_true E (by rw [hop]; rfl), Run.pure_bind,
    xassert_of_eq_true E (by simpa using hn), Run.pure_bind]
  simp only [hop]
  rfl

/-- C19 (OR-tree shape).  With heap algorithms that meet their contract, for a node
with `n >= 2` subqueries whose children are all built (`postlists`, with the steps
`clog`): if the operator is OR, XOR or SYNONYM, `do_or_like` returns a tree `t`
of binary nodes whose leaves are exactly the `n` built postlists, each once, after
creating exactly `n - 1` objects, each a binary node; if the operator is ELITE_SET
and the elite-set block leaves `m >= 2` postlists `kept`, it returns a tree over
exactly these after creating exactly `m - 1` binary nodes.  Every binary node is an
`XorPostList` when the operator is XOR and an `OrPostList` otherwise. -/
theorem or_tree_shape (E : Env) (hE : E.Conforming) (fields : QueryFields)
    (subqs : List Query) (hn : 2 ≤ subqs.length) (f : ℚ) (postlists : List PostList)
    (clog : List Event) (hc : do_or_like_children E subqs f = ⟨.ok postlists, clog⟩) :
    (fields.op = .OP_OR ∨ fields.op = .OP_XOR ∨ fields.op = .OP_SYNONYM →
      ∃ t log leaves,
        do_or_like E (.node fields subqs) f = ⟨.ok t, clog ++ log⟩ ∧
        OrTree fields.op t leaves ∧ leaves.Perm postlists ∧
        postlists.length = subqs.length ∧ log.length = subqs.length - 1 ∧
        ∀ e ∈ log, ∃ l r, e = .create
          (if fields.op = .OP_XOR then PostList.XorPostList l r else PostList.OrPostList l r))
    ∧ (fields.op = .OP_ELITE_SET → ∀ (kept : List PostList) (dlog : List Event),
        elite_set_select E fields.parameter postlists = ⟨.ok (.inr kept), dlog⟩ →
        2 ≤ kept.length →
        ∃ t log leaves,
          do_or_like E (.node fields subqs) f = ⟨.ok t, clog ++ (dlog ++ log)⟩ ∧
          OrTree .OP_OR t leaves ∧ leaves.Perm kept ∧ log.length = kept.length - 1 ∧
          ∀ e ∈ log, ∃ l r, e = .create (.OrPostList l r)) := by
  have hlen := do_or_like_children_length E f subqs postlists clog hc
  constructor
  · intro hop
    obtain ⟨t, log, ls, hrun, hls, hlp, hll, hlg⟩ :=
      or_like_build_ok E hE (if fields.op = .OP_SYNONYM then Op.OP_OR else fields.op)
        postlists (by omega)
    refine ⟨t, log, ls, ?_, hls.of_node_eq (or_node_synonym_op fields.op), hlp, hlen,
      by omega, ?_⟩
    · rw [do_or_like_plain E fields hop subqs hn f]
      exact Run.bind_eq_of_ok hc hrun
    · intro e he
      obtain ⟨l, r, h⟩ := hlg e he
      exact ⟨l, r, by rw [h, or_node_synonym_op]; rfl⟩
  · intro hop kept dlog hsel hk
    obtain ⟨t, log, ls, hrun, hls, hlp, hll, hlg⟩ :=
      or_like_build_ok E hE .OP_ELITE_SET kept hk
    refine ⟨t, log, ls, ?_, hls.of_not_xor (by decide), hlp, by omega, ?_⟩
    · rw [do_or_like_elite E fields hop subqs hn f]
      refine Run.bind_eq_of_ok hc ?_
      exact Run.bind_eq_of_ok hsel hrun
    · intro e he
      obtain ⟨l, r, h⟩ := hlg e he
      exact ⟨l, r, by rw [h]; rfl⟩

/-- The shape of the tree in the stub environment for `XOR(a, b, c)` and for scenario
S5, `ELITE_SET(k=2, A, B, C, D)`, where `D` and `B` are left after pruning. -/
theorem or_tree_shape_witness :
    (∃ t log leaves,
      do_or_like (stubEnv true true)
          (opq .OP_XOR 0 [leafq "a" 100, leafq "b" 10, leafq "c" 1000]) 1
        = ⟨.ok t, [.create (.LeafPostList (leafq "a" 100) 1),
            .create (.LeafPostList (leafq "b" 10) 1),
            .create (.LeafPostList (leafq "c" 1000) 1)] ++ log⟩ ∧
      OrTree .OP_XOR t leaves ∧
      leaves.Perm [.LeafPostList (leafq "a" 100) 1, .LeafPostList (leafq "b" 10) 1,
        .LeafPostList (leafq "c" 1000) 1] ∧
      [PostList.LeafPostList (leafq "a" 100) 1, .LeafPostList (leafq "b" 10) 1,
        .LeafPostList (leafq "c" 1000) 1].length = 3 ∧ log.length = 3 - 1 ∧
      ∀ e ∈ log, ∃ l r, e = .create (.XorPostList l r))
    ∧ (∃ t log leaves,
      do_or_like (stubEnv true true) (.node ⟨.OP_ELITE_SET, "", 2, "", 0, 0, none⟩ s5_terms) 1
        = ⟨.ok t, s5_postlists.map Event.create
            ++ ([.delete (.LeafPostList (leafw "C" 3 (5 / 10)) 1),
                .delete (.LeafPostList (leafw "A" 1 (2 / 10)) 1)] ++ log)⟩ ∧
      OrTree .OP_OR t leaves ∧
      leaves.Perm [.LeafPostList (leafw "D" 4 (9 / 10)) 1,
        .LeafPostList (leafw "B" 2 (8 / 10)) 1] ∧
      log.length = 2 - 1 ∧ ∀ e ∈ log, ∃ l r, e = .create (.OrPostList l r)) :=
  ⟨(or_tree_shape (stubEnv true true) (stubEnv_conforming true true)
      ⟨.OP_XOR, "", 0, "", 0, 0, none⟩ [leafq "a" 100, leafq "b" 10, leafq "c" 1000]
      (by decide) 1 _ _ rfl).1 (Or.inr (Or.inl rfl)),
    (or_tree_shape (stubEnv true true) (stubEnv_conforming true true)
      ⟨.OP_ELITE_SET, "", 2, "", 0, 0, none⟩ s5_terms (by decide) 1 s5_postlists
      (s5_postlists.map Event.create) rfl).2 rfl
      [.LeafPostList (leafw "D" 4 (9 / 10)) 1, .LeafPostList (leafw "B" 2 (8 / 10)) 1]
      [.delete (.LeafPostList (leafw "C" 3 (5 / 10)) 1),
        .delete (.LeafPostList (leafw "A" 1 (2 / 10)) 1)]
      (by with_unfolding_all rfl) (by decide)⟩

/-! ## The order of the merges -/

theorem Run.create_bind {β : Type} (pl : PostList) (k : PostList → Run β) :
    (Run.create pl).bind k = ⟨(k pl).outcome, .create pl :: (k pl).log⟩ := rfl

/-- One round of the build loop on a heap of at least two postlists, with heap
algorithms that meet their contract: `r` is the front of the heap and has the least
estimate of all entries, `l` has the least estimate of the others, the node
`or_node op l r` is created, and the loop ends when nothing else is left or goes on
with a heap `next` of the node and the other entries. -/
theorem or_like_round (E : Env) (hE : E.Conforming) (op : Op) (fuel : Nat)
    (v : List PostList) (hv : IsHeap (ComparePostListTermFreqAscending E) v)
    (h2 : 2 ≤ v.length) :
    ∃ r l rest next,
      v.head? = some r ∧ v.Perm (r :: l :: rest) ∧
      (∀ x ∈ v, E.get_termfreq_est r ≤ E.get_termfreq_est x) ∧
      (∀ x ∈ l :: rest, E.get_termfreq_est l ≤ E.get_termfreq_est x) ∧
      IsHeap (ComparePostListTermFreqAscending E) next ∧
      next.Perm (or_node op l r :: rest) ∧
      or_like_loop E op (fuel + 1) v
        = (Run.create (or_node op l r)).bind fun pl =>
            if rest.length = 0 then Run.pure pl else or_like_loop E op fuel next := by
  have hc := strictWeak_termfreq E
  have hle : ∀ {x : PostList} {w : List PostList},
      IsHeap (ComparePostListTermFreqAscending E) (x :: w) →
      ∀ y ∈ x :: w, E.get_termfreq_est x ≤ E.get_termfreq_est y := by
    intro x w hw y hy
    have := hw.head_max hc y hy
    simpa [ComparePostListTermFreqAscending] using this
  cases v with
  | nil => simp at h2
  | cons r v' =>
    obtain ⟨w, hpop, hperm, hw⟩ := hE.pop_heap_spec _ r v' hc hv
    have hwl : w.length = v'.length := hperm.length_eq
    cases w with
    | nil => simp at hwl h2; omega
    | cons l w' =>
      obtain ⟨w2, hpop2, hperm2, hw2⟩ := hE.pop_heap_spec _ l w' hc hw
      have hpush := hE.push_heap_spec _ w2 (or_node op l r) hc hw2
      refine ⟨r, l, w', E.push_heap (ComparePostListTermFreqAscending E)
        (w2 ++ [or_node op l r]), rfl, List.Perm.cons r hperm.symm, hle hv, hle hw,
        hpush.2, ?_, ?_⟩
      · exact hpush.1.trans ((List.perm_append_comm).trans (List.Perm.cons _ hperm2))
      · simp only [or_like_loop, hpop, List.dropLast_concat, Run.create_bind]
        rw [show (if op = Op.OP_XOR then l.XorPostList r else l.OrPostList r)
          = or_node op l r from rfl]
        cases w' with
        | nil => rfl
        | cons y w'' =>
          simp [hpop2]

theorem first_or_node_append (l1 l2 : List Event) (h : first_or_node l1 = none) :
    first_or_node (l1 ++ l2) = first_or_node l2 := by
  induction l1 with
  | nil => rfl
  | cons e l1 ih =>
    cases e with
    | create pl =>
      simp only [first_or_node, List.cons_append] at h ⊢
      split at h
      · exact Option.noConfusion h
      · rename_i hpl
        rw [if_neg hpl]
        exact ih h
    | delete pl =>
      simp only [first_or_node, List.cons_append] at h ⊢
      exact ih h

/-- A second environment whose algorithms meet the contract. -/
theorem revEnv_conforming (has_positions assertions : Bool) :
    (revEnv has_positions assertions).Conforming := by
  have h := stubEnv_conforming has_positions assertions
  refine ⟨?_, ?_, h.pop_heap_spec, h.push_heap_spec, h.nth_element_perm, h.nth_element_spec⟩
  · intro comp v _
    exact (List.perm_insertionSort _ v.reverse).trans (List.reverse_perm v)
  · intro comp v hc
    exact isHeap_of_pairwise (sorted_desc comp hc v.reverse)

/-- C13 (scenario S4), amended.  With heap algorithms that meet their contract,
for an OR node over four children (four leaves in particular, which create no
binary node themselves) whose built postlists `A`, `B`, `C`, `D` have the estimates
100, 10, 1000 and 1, `do_or_like` returns a tree, and the first binary node it
constructs is `OrPostList(B, D)`: it combines the two children of least estimate,
`D` (as `r`) and `B` (as `l`). -/
theorem s4_first_merge (E : Env) (hE : E.Conforming) (fields : QueryFields)
    (hop : fields.op = .OP_OR) (qa qb qc qd : Query) (f : ℚ) (A B C D : PostList)
    (clog : List Event)
    (hc : do_or_like_children E [qa, qb, qc, qd] f = ⟨.ok [A, B, C, D], clog⟩)
    (hclog : first_or_node clog = none)
    (hA : E.get_termfreq_est A = 100) (hB : E.get_termfreq_est B = 10)
    (hC : E.get_termfreq_est C = 1000) (hD : E.get_termfreq_est D = 1) :
    ∃ t log, do_or_like E (.node fields [qa, qb, qc, qd]) f = ⟨.ok t, log⟩ ∧
      first_or_node log = some (.OrPostList B D) := by
  have hsw := strictWeak_termfreq E
  have hperm := hE.make_heap_perm _ [A, B, C, D] hsw
  have hheap := hE.make_heap_heap _ [A, B, C, D] hsw
  have hlen : (E.make_heap (ComparePostListTermFreqAscending E) [A, B, C, D]).length = 3 + 1 :=
    hperm.length_eq
  obtain ⟨t, log, _, hrun, _, _, _, _⟩ := or_like_build_ok E hE .OP_OR [A, B, C, D] (by simp)
  rw [xassert_of_eq_true E (by simp only [decide_eq_true_eq]; omega), Run.pure_bind,
    hlen] at hrun
  obtain ⟨r, l, rest, next, _, hp, hr, hl, _, _, hround⟩ :=
    or_like_round E hE .OP_OR 3 _ hheap (by omega)
  have hp4 : (r :: l :: rest).Perm [A, B, C, D] := hp.symm.trans hperm
  have hrD : r = D := by
    have hmem : r ∈ [A, B, C, D] := hp4.subset (List.mem_cons_self _ _)
    have hle := hr D (hperm.symm.subset (by simp))
    simp only [List.mem_cons, List.mem_singleton, List.not_mem_nil, or_false] at hmem
    rcases hmem with h | h | h | h
    · rw [h, hA, hD] at hle; omega
    · rw [h, hB, hD] at hle; omega
    · rw [h, hC, hD] at hle; omega
    · exact h
  have hp3 : (l :: rest).Perm [A, B, C] := by
    rw [hrD] at hp4
    have h4 : [A, B, C, D].Perm (D :: [A, B, C]) :=
      @List.perm_append_comm _ [A, B, C] [D]
    exact (hp4.trans h4).cons_inv
  have hlB : l = B := by
    have hmem : l ∈ [A, B, C] := hp3.subset (List.mem_cons_self _ _)
    have hle := hl B (hp3.symm.subset (by simp))
    simp only [List.mem_cons, List.mem_singleton, List.not_mem_nil, or_false] at hmem
    rcases hmem with h | h | h
    · rw [h, hA, hB] at hle; omega
    · exact h
    · rw [h, hC, hB] at hle; omega
  rw [hround, Run.create_bind, hrD, hlB] at hrun
  have hlog := (Run.mk.injEq _ _ _ _ ▸ hrun : _ ∧ _).2
  refine ⟨t, clog ++ log, ?_, ?_⟩
  · rw [do_or_like_plain E fields (Or.inl hop) _ (by simp) f]
    refine Run.bind_eq_of_ok hc ?_
    rw [xassert_of_eq_true E (by simp only [decide_eq_true_eq]; omega), Run.pure_bind, hop,
      if_neg (by decide), hlen, hround, Run.create_bind, hrD, hlB]
    exact hrun
  · rw [first_or_node_append _ _ hclog, ← hlog]
    rfl

/-- Scenario S4 in the stub environment. -/
theorem s4_first_merge_witness :
    ∃ t log, do_or_like (stubEnv true true) (opq .OP_OR 0 s4_terms) 1 = ⟨.ok t, log⟩ ∧
      first_or_node log
        = some (.OrPostList (.LeafPostList (leafq "B" 10) 1) (.LeafPostList (leafq "D" 1) 1)) :=
  s4_first_merge (stubEnv true true) (stubEnv_conforming true true) ⟨.OP_OR, "", 0, "", 0, 0, none⟩
    rfl (leafq "A" 100) (leafq "B" 10) (leafq "C" 1000) (leafq "D" 1) 1
    (.LeafPostList (leafq "A" 100) 1) (.LeafPostList (leafq "B" 10) 1)
    (.LeafPostList (leafq "C" 1000) 1) (.LeafPostList (leafq "D" 1) 1)
    [.create (.LeafPostList (leafq "A" 100) 1), .create (.LeafPostList (leafq "B" 10) 1),
      .create (.LeafPostList (leafq "C" 1000) 1), .create (.LeafPostList (leafq "D" 1) 1)]
    rfl rfl rfl rfl rfl rfl

/-- C13 as stated fails: in the stub database the leaves of `OR(A, B, C, D)` have
the estimates 100, 10, 1000 and 1, and the first binary node `do_or_like`
constructs is not one that combines `A` and `D`. -/
theorem s4_first_merge_claim_fails :
    (stubEnv true true).Conforming
    ∧ (stubEnv true true).get_termfreq_est (.LeafPostList (leafq "A" 100) 1) = 100
    ∧ (stubEnv true true).get_termfreq_est (.LeafPostList (leafq "B" 10) 1) = 10
    ∧ (stubEnv true true).get_termfreq_est (.LeafPostList (leafq "C" 1000) 1) = 1000
    ∧ (stubEnv true true).get_termfreq_est (.LeafPostList (leafq "D" 1) 1) = 1
    ∧ ¬ (first_or_node (do_or_like (stubEnv true true) (opq .OP_OR 0 s4_terms) 1).log
          = some (.OrPostList (.LeafPostList (leafq "A" 100) 1) (.LeafPostList (leafq "D" 1) 1))
        ∨ first_or_node (do_or_like (stubEnv true true) (opq .OP_OR 0 s4_terms) 1).log
          = some (.OrPostList (.LeafPostList (leafq "D" 1) 1)
              (.LeafPostList (leafq "A" 100) 1))) := by
  refine ⟨stubEnv_conforming true true, rfl, rfl, rfl, rfl, ?_⟩
  have h : first_or_node (do_or_like (stubEnv true true) (opq .OP_OR 0 s4_terms) 1).log
      = some (.OrPostList (.LeafPostList (leafq "B" 10) 1) (.LeafPostList (leafq "D" 1) 1)) :=
    rfl
  rw [h]
  simp [leafq]

/-- C14 (tie-breaking), amended.  With heap algorithms that meet their contract the
children of a node are made into a heap, and every round of the build loop on a
heap of at least two entries takes out first an entry `r` of least estimate among
all entries, then an entry `l` of least estimate among the others, and goes on with
a heap again; the comparison functor does not tell entries of equal estimate apart.
Which of two children of equal estimate is taken out first is left to the heap
functions: for `OR(a, b)` with equal estimates the earlier child `a` is taken out
first with the reference algorithms, and the later child `b` with `reversed_make_heap`,
which meets the contract as well. -/
theorem tie_breaking (E : Env) (hE : E.Conforming) (op : Op) :
    (∀ postlists, IsHeap (ComparePostListTermFreqAscending E)
        (E.make_heap (ComparePostListTermFreqAscending E) postlists))
    ∧ (∀ (fuel : Nat) (v : List PostList), IsHeap (ComparePostListTermFreqAscending E) v →
        2 ≤ v.length →
        ∃ r l rest next,
          v.head? = some r ∧ v.Perm (r :: l :: rest) ∧
          (∀ x ∈ v, E.get_termfreq_est r ≤ E.get_termfreq_est x) ∧
          (∀ x ∈ l :: rest, E.get_termfreq_est l ≤ E.get_termfreq_est x) ∧
          IsHeap (ComparePostListTermFreqAscending E) next ∧
          next.Perm (or_node op l r :: rest) ∧
          or_like_loop E op (fuel + 1) v
            = (Run.create (or_node op l r)).bind fun pl =>
                if rest.length = 0 then Run.pure pl else or_like_loop E op fuel next)
    ∧ (∀ a b, E.get_termfreq_est a = E.get_termfreq_est b →
        ComparePostListTermFreqAscending E a b = false ∧
        ComparePostListTermFreqAscending E b a = false)
    ∧ removal_order (do_or_like (stubEnv true true) (opq .OP_OR 0 [leafq "a" 5, leafq "b" 5]) 1).log
        = [.LeafPostList (leafq "a" 5) 1, .LeafPostList (leafq "b" 5) 1]
    ∧ (revEnv true true).Conforming
    ∧ removal_order (do_or_like (revEnv true true) (opq .OP_OR 0 [leafq "a" 5, leafq "b" 5]) 1).log
        = [.LeafPostList (leafq "b" 5) 1, .LeafPostList (leafq "a" 5) 1] := by
  refine ⟨fun postlists => hE.make_heap_heap _ postlists (strictWeak_termfreq E),
    fun fuel v hv h2 => or_like_round E hE op fuel v hv h2, ?_, rfl, revEnv_conforming true true,
    rfl⟩
  intro a b hab
  simp [ComparePostListTermFreqAscending, hab]

/-- The rounds of the loop in the stub environment, started on the heap of three
postlists with the estimates 1, 5 and 5. -/
theorem tie_breaking_witness :
    (∃ r l rest next,
      [PostList.LeafPostList (leafq "d" 1) 1, .LeafPostList (leafq "a" 5) 1,
          .LeafPostList (leafq "b" 5) 1].head? = some r ∧
      [PostList.LeafPostList (leafq "d" 1) 1, .LeafPostList (leafq "a" 5) 1,
          .LeafPostList (leafq "b" 5) 1].Perm (r :: l :: rest) ∧
      (∀ x ∈ [PostList.LeafPostList (leafq "d" 1) 1, .LeafPostList (leafq "a" 5) 1,
          .LeafPostList (leafq "b" 5) 1],
        (stubEnv true true).get_termfreq_est r ≤ (stubEnv true true).get_termfreq_est x) ∧
      (∀ x ∈ l :: rest,
        (stubEnv true true).get_termfreq_est l ≤ (stubEnv true true).get_termfreq_est x) ∧
      IsHeap (ComparePostListTermFreqAscending (stubEnv true true)) next ∧
      next.Perm (or_node .OP_OR l r :: rest) ∧
      or_like_loop (stubEnv true true) .OP_OR (2 + 1)
          [.LeafPostList (leafq "d" 1) 1, .LeafPostList (leafq "a" 5) 1,
            .LeafPostList (leafq "b" 5) 1]
        = (Run.create (or_node .OP_OR l r)).bind fun pl =>
            if rest.length = 0 then Run.pure pl
            else or_like_loop (stubEnv true true) .OP_OR 2 next) :=
  (tie_breaking (stubEnv true true) (stubEnv_conforming true true) .OP_OR).2.1 2
    [.LeafPostList (leafq "d" 1) 1, .LeafPostList (leafq "a" 5) 1,
      .LeafPostList (leafq "b" 5) 1]
    (isHeap_of_pairwise (by simp [ComparePostListTermFreqAscending, stubEnv, stub_termfreq,
      leafq, Query.wqf]))
    (by decide)

/-- C14 as stated fails: `reversed_make_heap` meets the contract of `make_heap`, the
two children of `OR(a, b)` have equal estimates, and the child `b`, which appears
later in the input, is taken out of the heap first: `a` is not taken out before `b`. -/
theorem tie_breaking_claim_fails :
    (revEnv true true).Conforming
    ∧ do_or_like_children (revEnv true true) [leafq "a" 5, leafq "b" 5] 1
        = ⟨.ok [.LeafPostList (leafq "a" 5) 1, .LeafPostList (leafq "b" 5) 1],
            [.create (.LeafPostList (leafq "a" 5) 1), .create (.LeafPostList (leafq "b" 5) 1)]⟩
    ∧ (revEnv true true).get_termfreq_est (.LeafPostList (leafq "a" 5) 1)
        = (revEnv true true).get_termfreq_est (.LeafPostList (leafq "b" 5) 1)
    ∧ (do_or_like (revEnv true true) (opq .OP_OR 0 [leafq "a" 5, leafq "b" 5]) 1).outcome
        = .ok (.OrPostList (.LeafPostList (leafq "a" 5) 1) (.LeafPostList (leafq "b" 5) 1))
    ∧ ¬ removed_before
        (removal_order
          (do_or_like (revEnv true true) (opq .OP_OR 0 [leafq "a" 5, leafq "b" 5]) 1).log)
        (.LeafPostList (leafq "a" 5) 1) (.LeafPostList (leafq "b" 5) 1) := by
  refine ⟨revEnv_conforming true true, rfl, rfl, rfl, ?_⟩
  have h : removal_order
      (do_or_like (revEnv true true) (opq .OP_OR 0 [leafq "a" 5, leafq "b" 5]) 1).log
      = [.LeafPostList (leafq "b" 5) 1, .LeafPostList (leafq "a" 5) 1] := rfl
  rw [h]
  rintro ⟨pre, post, heq, hmem⟩
  match pre, heq with
  | [], heq =>
    simp [leafq] at heq
  | [_], heq =>
    simp only [List.cons_append, List.nil_append, List.cons.injEq] at heq
    rw [← heq.2.2] at hmem
    simp at hmem
  | _ :: _ :: pre, heq =>
    simp at heq

/-! ## SYNONYM -/

/-- For `do_or_like` a SYNONYM node is the OR node with the same members. -/
theorem do_or_like_synonym (E : Env) (tname str_parameter : String) (parameter : Nat)
    (dbl_parameter : ℚ) (wqf : Nat) (external_source : Option Nat) (cs : List Query) (g : ℚ) :
    do_or_like E
        (.node ⟨.OP_SYNONYM, tname, parameter, str_parameter, dbl_parameter, wqf, external_source⟩
          cs) g
      = do_or_like E
        (.node ⟨.OP_OR, tname, parameter, str_parameter, dbl_parameter, wqf, external_source⟩
          cs) g := rfl

/-- C12 (SYNONYM), amended.  For a SYNONYM node `s` with children `cs`, with `OR(cs)`
the node with the same members and operator OR: `do_subquery` calls `do_synonym`;
with incoming factor 0 `do_synonym` does exactly what `do_or_like` does for `OR(cs)`
with factor 0, with no synonym wrapper; with incoming factor `f != 0`, provided the
`wqf` of the node is 0 (which `do_synonym` asserts) or assertions are compiled out,
it runs `do_or_like` for `OR(cs)` with factor 0 and wraps the tree `T` it returns
in `make_synonym_postlist(T, f)`.  Every object created in the run for `OR(cs)`
that takes a factor gets factor 0, so only the wrapper carries `f`.  With heap
algorithms that meet their contract, at least two children and all children built,
`do_synonym` does return: `T` when `f` is 0 and the wrapper around `T` otherwise. -/
theorem synonym_build (E : Env) (tname str_parameter : String) (parameter : Nat)
    (dbl_parameter : ℚ) (wqf : Nat) (external_source : Option Nat) (cs : List Query) (f : ℚ) :
    do_subquery E
        (.node ⟨.OP_SYNONYM, tname, parameter, str_parameter, dbl_parameter, wqf, external_source⟩
          cs) f
      = do_synonym E
        (.node ⟨.OP_SYNONYM, tname, parameter, str_parameter, dbl_parameter, wqf, external_source⟩
          cs) f
    ∧ (f = 0 →
      do_synonym E
          (.node ⟨.OP_SYNONYM, tname, parameter, str_parameter, dbl_parameter, wqf,
            external_source⟩ cs) f
        = do_or_like E
          (.node ⟨.OP_OR, tname, parameter, str_parameter, dbl_parameter, wqf, external_source⟩
            cs) 0)
    ∧ (f ≠ 0 → (E.assertions = false ∨ wqf = 0) →
      do_synonym E
          (.node ⟨.OP_SYNONYM, tname, parameter, str_parameter, dbl_parameter, wqf,
            external_source⟩ cs) f
        = (do_or_like E
          (.node ⟨.OP_OR, tname, parameter, str_parameter, dbl_parameter, wqf, external_source⟩
            cs) 0).bind fun T => Run.create (.SynonymPostList T f))
    ∧ (∀ e ∈ (do_or_like E
          (.node ⟨.OP_OR, tname, parameter, str_parameter, dbl_parameter, wqf, external_source⟩
            cs) 0).log, ∀ g, e.factor = some g → g = 0)
    ∧ (E.Conforming → 2 ≤ cs.length → ∀ postlists clog,
        do_or_like_children E cs 0 = ⟨.ok postlists, clog⟩ →
        ∃ T log,
          do_or_like E
            (.node ⟨.OP_OR, tname, parameter, str_parameter, dbl_parameter, wqf, external_source⟩
              cs) 0 = ⟨.ok T, log⟩ ∧
          (f = 0 →
            do_synonym E
              (.node ⟨.OP_SYNONYM, tname, parameter, str_parameter, dbl_parameter, wqf,
                external_source⟩ cs) f = ⟨.ok T, log⟩) ∧
          (f ≠ 0 → (E.assertions = false ∨ wqf = 0) →
            do_synonym E
              (.node ⟨.OP_SYNONYM, tname, parameter, str_parameter, dbl_parameter, wqf,
                external_source⟩ cs) f
              = ⟨.ok (.SynonymPostList T f), log ++ [.create (.SynonymPostList T f)]⟩)) := by
  have h0 : f = 0 →
      do_synonym E
          (.node ⟨.OP_SYNONYM, tname, parameter, str_parameter, dbl_parameter, wqf,
            external_source⟩ cs) f
        = do_or_like E
          (.node ⟨.OP_OR, tname, parameter, str_parameter, dbl_parameter, wqf, external_source⟩
            cs) 0 := by
    intro hf
    simp only [do_synonym, do_synonym_body, if_pos hf]
    exact do_or_like_synonym E tname str_parameter parameter dbl_parameter wqf external_source
      cs 0
  have h1 : f ≠ 0 → (E.assertions = false ∨ wqf = 0) →
      do_synonym E
          (.node ⟨.OP_SYNONYM, tname, parameter, str_parameter, dbl_parameter, wqf,
            external_source⟩ cs) f
        = (do_or_like E
          (.node ⟨.OP_OR, tname, parameter, str_parameter, dbl_parameter, wqf, external_source⟩
            cs) 0).bind fun T => Run.create (.SynonymPostList T f) := by
    intro hf hw
    have hx : xassert E (wqf == 0) = Run.pure () := by
      unfold xassert
      rcases hw with h | h <;> simp [h]
    simp only [do_synonym, do_synonym_body, if_neg hf, hx, Run.pure_bind]
    rw [do_or_like_synonym]
  refine ⟨rfl, h0, h1, ((zero_factor_runs E).1 (.node ⟨.OP_OR, tname, parameter, str_parameter,
    dbl_parameter, wqf, external_source⟩ cs)).1, ?_⟩
  intro hE hn postlists clog hc
  obtain ⟨T, log, _, hrun, _⟩ :=
    (or_like_build_ok E hE .OP_OR postlists
      (by rw [do_or_like_children_length E 0 cs postlists clog hc]; exact hn))
  have hor : do_or_like E
      (.node ⟨.OP_OR, tname, parameter, str_parameter, dbl_parameter, wqf, external_source⟩
        cs) 0 = ⟨.ok T, clog ++ log⟩ := by
    rw [do_or_like_plain E _ (Or.inl rfl) cs hn 0]
    exact Run.bind_eq_of_ok hc hrun
  refine ⟨T, clog ++ log, hor, fun hf => by rw [h0 hf, hor], fun hf hw => ?_⟩
  rw [h1 hf hw]
  exact Run.bind_eq_of_ok hor rfl

/-- A synonym of two terms in the stub environment, with factor 2 and `wqf` 0: the
wrapper with factor 2 around the tree built for `OR(a, b)` with factor 0. -/
theorem synonym_build_witness :
    ∃ T log,
      do_or_like (stubEnv true true) (opq .OP_OR 0 [leafq "a" 3, leafq "b" 5]) 0 = ⟨.ok T, log⟩ ∧
      do_synonym (stubEnv true true) (opq .OP_SYNONYM 0 [leafq "a" 3, leafq "b" 5]) 2
        = ⟨.ok (.SynonymPostList T 2), log ++ [.create (.SynonymPostList T 2)]⟩ := by
  obtain ⟨T, log, h1, _, h3⟩ :=
    (synonym_build (stubEnv true true) "" "" 0 0 0 none [leafq "a" 3, leafq "b" 5] 2).2.2.2.2
      (stubEnv_conforming true true) (by decide)
      [.LeafPostList (leafq "a" 3) 0, .LeafPostList (leafq "b" 5) 0]
      [.create (.LeafPostList (leafq "a" 3) 0), .create (.LeafPostList (leafq "b" 5) 0)] rfl
  exact ⟨T, log, h1, h3 (by norm_num) (Or.inr rfl)⟩

/-- C12 as stated fails: in a build with assertions, for the SYNONYM node with `wqf`
1 over the terms `a` and `b` and the incoming factor 1, `do_or_like` returns a tree
for `OR(a, b)` with factor 0, but `do_synonym` (and so `do_subquery`) fails the
assertion on `wqf` and returns nothing, creating nothing. -/
theorem synonym_build_claim_fails :
    (do_or_like (stubEnv true true)
        (.node ⟨.OP_OR, "", 0, "", 0, 1, none⟩ [leafq "a" 3, leafq "b" 5]) 0).outcome
      = .ok (.OrPostList (.LeafPostList (leafq "b" 5) 0) (.LeafPostList (leafq "a" 3) 0))
    ∧ do_synonym (stubEnv true true)
        (.node ⟨.OP_SYNONYM, "", 0, "", 0, 1, none⟩ [leafq "a" 3, leafq "b" 5]) 1
      = ⟨.aborted, []⟩
    ∧ do_subquery (stubEnv true true)
        (.node ⟨.OP_SYNONYM, "", 0, "", 0, 1, none⟩ [leafq "a" 3, leafq "b" 5]) 1
      = ⟨.aborted, []⟩
    ∧ ¬ ∃ T, (do_synonym (stubEnv true true)
        (.node ⟨.OP_SYNONYM, "", 0, "", 0, 1, none⟩ [leafq "a" 3, leafq "b" 5]) 1).outcome
      = .ok (.SynonymPostList T 1) := by
  have h : do_synonym (stubEnv true true)
      (.node ⟨.OP_SYNONYM, "", 0, "", 0, 1, none⟩ [leafq "a" 3, leafq "b" 5]) 1
      = ⟨.aborted, []⟩ := by with_unfolding_all rfl
  refine ⟨rfl, h, h, ?_⟩
  rw [h]
  rintro ⟨T, hT⟩
  exact Outcome.noConfusion hT

/-! ## Failures -/

theorem filter_records_mono {lo lo2 hi hi2 : Nat} (hlo : lo2 ≤ lo) (hhi : hi ≤ hi2)
    {node : PositionalNode} {φ : PosFilter} (h : filter_records lo hi node φ) :
    filter_records lo2 hi2 node φ := by
  obtain ⟨a, b, c, d, e⟩ := h
  exact ⟨a, b, by omega, d, by omega⟩

theorem FlatRec.weaken {E : Env} {f : ℚ} {s : AndState} {leaves : List Query}
    {nodes : List PositionalNode} {m n : Nat} {run : Run AndState}
    (h : FlatRec E f s leaves nodes m run) (hn : n ≤ m) : FlatRec E f s leaves nodes n run := by
  obtain ⟨pls, fs, h1, h2, h3, h4, h5⟩ := h
  exact ⟨pls, fs, h1, h2, h3, h4, by omega⟩

theorem FlatRec.of_loop {E : Env} {op : Op} {i : Nat} {f : ℚ} {s : AndState}
    {leaves : List Query} {nodes : List PositionalNode} {m : Nat} {run : Run AndState}
    (h : FlatRec E (loop_factor op i f) s leaves nodes m run) :
    FlatRec E f s leaves nodes m run := by
  obtain ⟨pls, fs, h1, h2, h3, h4, h5⟩ := h
  refine ⟨pls, fs, h1, ?_, h3, h4, h5⟩
  refine h2.imp ?_
  rintro d pl ⟨g, hg, hd⟩
  refine ⟨g, ?_, hd⟩
  unfold loop_factor at hg
  split at hg
  · rcases hg with h | h <;> exact Or.inr h
  · exact hg

/-- Two flattening runs one after the other. -/
theorem FlatRec.then_ {E : Env} {f : ℚ} {s : AndState} {l1 l2 : List Query}
    {n1 n2 : List PositionalNode} {m1 m2 : Nat}
    {run : Run AndState} {k : AndState → Run AndState}
    (h1 : FlatRec E f s l1 n1 m1 run)
    (h2 : ∀ s1, run.outcome = .ok s1 → FlatRec E f s1 l2 n2 m2 (k s1)) :
    FlatRec E f s (l1 ++ l2) (n1 ++ n2) (m1 + m2) (run.bind k) := by
  obtain ⟨pls1, fs1, ho1, hf1, hr1, hb1, hm1⟩ := h1
  obtain ⟨pls2, fs2, ho2, hf2, hr2, hb2, hm2⟩ := h2 _ ho1
  refine ⟨pls1 ++ pls2, fs1 ++ fs2, ?_, List.rel_append hf1 hf2, ?_, ?_, ?_⟩
  · rw [Run.bind_outcome_of_ok ho1, ho2]
    simp
  · simp only [List.length_append] at hr2 ⊢
    refine List.rel_append (hr1.imp fun _ _ h => filter_records_mono (le_refl _) (by omega) h)
      (hr2.imp fun _ _ h => filter_records_mono (by omega) (by omega) h)
  · intro φ hφ
    rcases List.mem_append.mp hφ with h | h
    · exact hb1 φ h
    · exact hb2 φ h
  · simp only [List.length_append]
    omega

/-- The body of the flattening around a loop that is fine: for a positional node
the subtraction `end - queries.size()` does not wrap around, and the filter
recorded spans `queries.size()` entries within what the loop appended. -/
theorem do_and_like_body_rec (E : Env) (fields : QueryFields) (n : Nat)
    (loop : Op → AndState → Run AndState) (f : ℚ) (s : AndState) (leaves : List Query)
    (nodes : List PositionalNode)
    (hop : is_and_like fields.op = true) (hn : 2 ≤ n)
    (hsize : s.and_plists.length + leaves.length < SIZE_T_RANGE)
    (hloop : ∀ op, FlatRec E f s leaves nodes n (loop op s)) :
    FlatRec E f s leaves
      (nodes ++ (if (fields.op == .OP_PHRASE || fields.op == .OP_NEAR) && E.has_positions
        then [⟨fields.op, fields.parameter, n⟩] else []))
      n (do_and_like_body E fields n loop s) := by
  unfold do_and_like_body
  simp only [hop, xassert_true, Run.pure_bind]
  rw [xassert_of_eq_true E (by simpa using hn), Run.pure_bind]
  obtain ⟨pls, fs, ho, hf, hr, hb, hm⟩ := hloop
    (if (fields.op == Op.OP_PHRASE || fields.op == Op.OP_NEAR) && !E.has_positions
      then Op.OP_AND else fields.op)
  have hlen : leaves.length = pls.length := hf.length_eq
  unfold FlatRec
  rw [Run.bind_outcome_of_ok ho]
  by_cases hp : ((fields.op == Op.OP_PHRASE || fields.op == Op.OP_NEAR) && E.has_positions) = true
  · have hpos : E.has_positions = true := by
      simp only [Bool.and_eq_true] at hp
      exact hp.2
    have hp1 : fields.op = Op.OP_PHRASE ∨ fields.op = Op.OP_NEAR := by
      simpa [hpos] using hp
    refine ⟨pls, fs ++ [⟨fields.op, size_t_sub (s.and_plists ++ pls).length n,
      (s.and_plists ++ pls).length, fields.parameter⟩], ?_, hf, ?_, ?_, hm⟩
    · simp [hpos, hp1, Run.pure]
    · rw [if_pos hp]
      refine List.rel_append hr (List.Forall₂.cons ?_ List.Forall₂.nil)
      simp only [List.length_append]
      rw [size_t_sub_eq (by omega) (by omega)]
      exact ⟨rfl, rfl, by simp only; omega, by simp only; omega, le_refl _⟩
    · intro φ hφ
      rcases List.mem_append.mp hφ with h | h
      · exact hb φ h
      · simp only [List.mem_singleton] at h
        subst h
        rcases hp1 with h | h
        · exact Or.inr h
        · exact Or.inl h
  · refine ⟨pls, fs, ?_, hf, ?_, hb, hm⟩
    · simp [hp, Run.pure]
    · rw [if_neg hp, List.append_nil]
      exact hr

/-- The flattening of a query that satisfies `and_wf`, whose flattened leaves can
all be built and are fewer than `size_t` can count, succeeds; it appends the
postlists of those leaves, at least one for each direct child, and records the
filters of the positional nodes it meets. -/
theorem flatten_rec (E : Env) :
    (∀ q, and_wf q = true → ∀ f s,
      (∀ d ∈ flat_leaves q, ∀ g, g = f ∨ g = 0 →
        ∃ pl, (do_subquery E d g).outcome = .ok pl) →
      s.and_plists.length + (flat_leaves q).length < SIZE_T_RANGE →
      FlatRec E f s (flat_leaves q) (positional_nodes E.has_positions q) 1
        (and_like_child E q f s) ∧
      (q.and_like = true →
        FlatRec E f s (flat_leaves q) (positional_nodes E.has_positions q) q.arity
          (do_and_like_flatten E q f s))) ∧
    (∀ qs, and_wf_list qs = true → ∀ op i f s,
      (∀ d ∈ flat_leaves_list qs, ∀ g, g = f ∨ g = 0 →
        ∃ pl, (do_subquery E d g).outcome = .ok pl) →
      s.and_plists.length + (flat_leaves_list qs).length < SIZE_T_RANGE →
      FlatRec E f s (flat_leaves_list qs) (positional_nodes_list E.has_positions qs) qs.length
        (do_and_like_loop E op qs i f s)) := by
  apply Query.induct
  · intro hwf
    simp [and_wf] at hwf
  · intro fields subqs ihL _ hwf f s hb hsize
    by_cases hal : is_and_like fields.op = true
    · have hfl : flat_leaves (.node fields subqs) = flat_leaves_list subqs := by
        simp [flat_leaves, hal]
      have hpn : positional_nodes E.has_positions (.node fields subqs)
          = positional_nodes_list E.has_positions subqs ++
            (if (fields.op == .OP_PHRASE || fields.op == .OP_NEAR) && E.has_positions
              then [⟨fields.op, fields.parameter, subqs.length⟩] else []) := by
        simp [positional_nodes, hal]
      rw [hfl] at hb hsize ⊢
      rw [hpn]
      have hwf' : 2 ≤ subqs.length ∧ and_wf_list subqs = true := by
        simpa [and_wf, hal] using hwf
      have key : FlatRec E f s (flat_leaves_list subqs)
          (positional_nodes_list E.has_positions subqs ++
            (if (fields.op == .OP_PHRASE || fields.op == .OP_NEAR) && E.has_positions
              then [⟨fields.op, fields.parameter, subqs.length⟩] else []))
          subqs.length (do_and_like_flatten E (.node fields subqs) f s) := by
        simp only [do_and_like_flatten]
        exact do_and_like_body_rec E fields subqs.length _ f s _ _ hal hwf'.1 hsize
          (fun op => ihL hwf'.2 op 0 f s hb hsize)
      refine ⟨?_, fun _ => key⟩
      have : and_like_child E (.node fields subqs) f s
          = do_and_like_flatten E (.node fields subqs) f s := by
        simp [and_like_child, hal]
      rw [this]
      exact key.weaken (by omega)
    · have hfl : flat_leaves (.node fields subqs) = [.node fields subqs] := by
        simp [flat_leaves, hal]
      have hpn : positional_nodes E.has_positions (.node fields subqs) = [] := by
        simp [positional_nodes, hal]
      rw [hfl] at hb hsize ⊢
      rw [hpn]
      refine ⟨?_, fun h => absurd h (by simpa [Query.and_like] using hal)⟩
      obtain ⟨pl, hpl⟩ := hb (.node fields subqs) (by simp) f (Or.inl rfl)
      refine ⟨[pl], [], ?_, ?_, List.Forall₂.nil, by simp, by simp⟩
      · simp only [and_like_child, hal]
        rw [if_neg (by simp), Run.bind_outcome_of_ok hpl]
        simp [Run.pure]
      · exact List.Forall₂.cons ⟨f, Or.inl rfl, hpl⟩ List.Forall₂.nil
  · intro _ op i f s _ _
    rw [do_and_like_loop_nil]
    exact ⟨[], [], by simp [Run.pure], by simp [flat_leaves_list],
      by simp [positional_nodes_list], by simp, by simp⟩
  · intro q qs ihq ihqs hwf op i f s hb hsize
    have hwf' : and_wf q = true ∧ and_wf_list qs = true := by
      simpa [and_wf_list] using hwf
    simp only [flat_leaves_list, positional_nodes_list, List.length_append] at hb hsize ⊢
    rw [do_and_like_loop_cons]
    have hlf : ∀ g, g = loop_factor op i f ∨ g = 0 → g = f ∨ g = 0 := by
      intro g hg
      unfold loop_factor at hg
      split at hg
      · rcases hg with h | h <;> exact Or.inr h
      · exact hg
    have h1 := (ihq hwf'.1 (loop_factor op i f) s
      (fun d hd g hg => hb d (List.mem_append_left _ hd) g (hlf g hg)) (by omega)).1
    have h2 : ∀ s1, (and_like_child E q (loop_factor op i f) s).outcome = .ok s1 →
        FlatRec E (loop_factor op i f) s1 (flat_leaves_list qs)
          (positional_nodes_list E.has_positions qs) qs.length
          (do_and_like_loop E op qs (i + 1) (loop_factor op i f) s1) := by
      intro s1 hs1
      obtain ⟨pls1, fs1, ho1, hf1, _, _, _⟩ := h1
      have hl : s1.and_plists.length = s.and_plists.length + (flat_leaves q).length := by
        rw [ho1] at hs1
        simp only [Outcome.ok.injEq] at hs1
        rw [← hs1, hf1.length_eq]
        simp
      exact ihqs hwf'.2 op (i + 1) (loop_factor op i f) s1
        (fun d hd g hg => hb d (List.mem_append_right _ hd) g (hlf g hg)) (by omega)
    exact ((h1.then_ h2).weaken (by simp; omega)).of_loop

/-- Filters whose ranges lie within the flat list are all applied, each putting
around the postlist the wrapper `wrap_claimed` names. -/
theorem apply_pos_filters_wrap (E : Env) (plists : List PostList)
    (hsize : plists.length < SIZE_T_RANGE) :
    ∀ (fs : List PosFilter) (pl : PostList),
      (∀ φ ∈ fs, φ.begin_ ≤ φ.end_ ∧ φ.end_ ≤ plists.length ∧
        (φ.op = .OP_NEAR ∨ φ.op = .OP_PHRASE)) →
      (apply_pos_filters E plists fs pl).outcome = .ok (fs.foldl (wrap_claimed plists) pl) := by
  intro fs
  induction fs with
  | nil =>
    intro pl _
    rfl
  | cons φ rest ih =>
    intro pl h
    obtain ⟨h1, h2, h3⟩ := h φ (List.mem_cons_self _ _)
    have hrest := fun pl0 => ih pl0 (fun ψ hψ => h ψ (List.mem_cons_of_mem _ hψ))
    have hsub : size_t_sub φ.end_ φ.begin_ = φ.end_ - φ.begin_ :=
      size_t_sub_eq h1 (by omega)
    simp only [apply_pos_filters, List.foldl_cons, wrap_claimed, hsub]
    rw [if_pos ⟨h1, h2⟩]
    by_cases hnear : φ.op = .OP_NEAR
    · rw [if_pos hnear, if_pos hnear, Run.bind_outcome_of_ok (Run.create_outcome _)]
      exact hrest _
    · have hphrase : φ.op = .OP_PHRASE := h3.resolve_left hnear
      rw [if_neg hnear, if_neg hnear]
      have ha : xassert E (φ.op == .OP_PHRASE) = Run.pure () :=
        xassert_of_eq_true E (by simp [hphrase])
      by_cases hw : φ.window = φ.end_ - φ.begin_
      · rw [if_pos hw, if_pos hw, ha, Run.pure_bind,
          Run.bind_outcome_of_ok (Run.create_outcome _)]
        exact hrest _
      · rw [if_neg hw, if_neg hw, ha, Run.pure_bind,
          Run.bind_outcome_of_ok (Run.create_outcome _)]
        exact hrest _

theorem forall₂_exists_left {α β : Type} {R : α → β → Prop} {l1 : List α} {l2 : List β}
    (h : List.Forall₂ R l1 l2) : ∀ b ∈ l2, ∃ a ∈ l1, R a b := by
  induction h with
  | nil =>
    intro b hb
    simp at hb
  | cons hab _ ih =>
    intro b hb
    rcases List.mem_cons.mp hb with h | h
    · subst h
      exact ⟨_, List.mem_cons_self _ _, hab⟩
    · obtain ⟨a, ha, hr⟩ := ih b h
      exact ⟨a, List.mem_cons_of_mem _ ha, hr⟩

/-- The two-argument `do_and_like` on an AND-like query that satisfies `and_wf`,
whose flattened leaves can all be built and are fewer than `size_t` can count: the
flattening succeeds from the empty state, the assertion on the size of the flat
list holds, every filter is applied within bounds, and the result is the
`MultiAndPostList` over the flat list with the wrappers of the recorded filters
around it, in the order of recording. -/
theorem do_and_like_rec (E : Env) (q : Query) (f : ℚ) (hroot : q.and_like = true)
    (hwf : and_wf q = true)
    (hbuild : ∀ d ∈ flat_leaves q, ∀ g, g = f ∨ g = 0 →
      ∃ pl, (do_subquery E d g).outcome = .ok pl)
    (hsize : (flat_leaves q).length < SIZE_T_RANGE) :
    ∃ pls fs,
      (do_and_like_flatten E q f ⟨[], []⟩).outcome = .ok ⟨pls, fs⟩ ∧
      (do_and_like E q f).outcome
        = .ok (fs.foldl (wrap_claimed pls) (.MultiAndPostList pls)) ∧
      List.Forall₂ (fun d pl => ∃ g, (g = f ∨ g = 0) ∧ (do_subquery E d g).outcome = .ok pl)
        (flat_leaves q) pls ∧
      List.Forall₂ (filter_records 0 pls.length) (positional_nodes E.has_positions q) fs ∧
      q.arity ≤ pls.length ∧ 2 ≤ pls.length := by
  obtain ⟨pls, fs, ho, hf, hr, hb, hm⟩ :=
    ((flatten_rec E).1 q hwf f ⟨[], []⟩ hbuild (by simpa using hsize)).2 hroot
  simp only [List.nil_append, List.length_nil, Nat.zero_add] at ho hr
  have h2 : 2 ≤ pls.length := by
    cases q with
    | null => simp [Query.and_like] at hroot
    | node fields subqs =>
      have : 2 ≤ subqs.length := by
        have hal : is_and_like fields.op = true := by simpa [Query.and_like] using hroot
        have := hwf
        simp only [and_wf, hal, Bool.not_true, Bool.false_or, Bool.and_eq_true,
          decide_eq_true_eq] at this
        exact this.1
      simp only [Query.arity] at hm
      omega
  have hbounds : ∀ φ ∈ fs, φ.begin_ ≤ φ.end_ ∧ φ.end_ ≤ pls.length ∧
      (φ.op = .OP_NEAR ∨ φ.op = .OP_PHRASE) := by
    intro φ hφ
    obtain ⟨node, _, hrec⟩ := forall₂_exists_left hr φ hφ
    obtain ⟨_, _, _, hbe, hend⟩ := hrec
    exact ⟨by omega, hend, hb φ hφ⟩
  refine ⟨pls, fs, ho, ?_, hf, hr, hm, h2⟩
  rw [do_and_like, Run.bind_outcome_of_ok ho, do_and_like_build,
    xassert_of_eq_true E (by simpa using h2), Run.pure_bind,
    Run.bind_outcome_of_ok (Run.create_outcome _)]
  exact apply_pos_filters_wrap E pls (by rw [← hf.length_eq]; exact hsize) fs _ hbounds

/-- C20 (positional slice safety).  Let `q` be an AND-like query in which every
AND-like node reached through AND-like nodes has at least two children, none null,
whose flattened leaves can all be built, and let the flat list stay within `size_t`.
Then any call of the flattening `do_and_like` on `q`, from any state `s`, returns
and appends at least as many postlists as `q` has direct children, so that
`queries.size()` is at most the size of the flat list and the subtraction
`end - queries.size()` does not wrap around; the filters it records are those of
the positional nodes it meets, each with `begin + (number of direct children) = end`
and `begin <= end <= size of the flat list`, `begin` not before the start of the
call; and it appends at least 2 postlists.  From the empty state the flat list has
at least 2 entries, every recorded range is a slice of the flat list of exactly
`end - begin` entries, and the two-argument `do_and_like` returns a postlist (no
assertion fails and no slice is out of bounds). -/
theorem positional_slice_safety (E : Env) (q : Query) (f : ℚ) (s : AndState)
    (hroot : q.and_like = true) (hwf : and_wf q = true)
    (hbuild : ∀ d ∈ flat_leaves q, ∀ g, g = f ∨ g = 0 →
      ∃ pl, (do_subquery E d g).outcome = .ok pl)
    (hsize : s.and_plists.length + (flat_leaves q).length < SIZE_T_RANGE) :
    (∃ pls fs,
      (do_and_like_flatten E q f s).outcome
        = .ok ⟨s.and_plists ++ pls, s.pos_filters ++ fs⟩ ∧
      q.arity ≤ pls.length ∧
      q.arity ≤ (s.and_plists ++ pls).length ∧
      size_t_sub (s.and_plists ++ pls).length q.arity
        = (s.and_plists ++ pls).length - q.arity ∧
      List.Forall₂ (filter_records s.and_plists.length (s.and_plists ++ pls).length)
        (positional_nodes E.has_positions q) fs ∧
      (∀ φ ∈ fs, φ.begin_ ≤ φ.end_ ∧ φ.end_ ≤ (s.and_plists ++ pls).length) ∧
      2 ≤ pls.length)
    ∧ (∃ pls fs pl,
      (do_and_like_flatten E q f ⟨[], []⟩).outcome = .ok ⟨pls, fs⟩ ∧
      2 ≤ pls.length ∧
      (∀ φ ∈ fs, φ.begin_ ≤ φ.end_ ∧ φ.end_ ≤ pls.length ∧
        ((pls.drop φ.begin_).take (φ.end_ - φ.begin_)).length = φ.end_ - φ.begin_) ∧
      (do_and_like E q f).outcome = .ok pl) := by
  constructor
  · obtain ⟨pls, fs, ho, hf, hr, _, hm⟩ := ((flatten_rec E).1 q hwf f s hbuild hsize).2 hroot
    have h2 : 2 ≤ q.arity := by
      cases q with
      | null => simp [Query.and_like] at hroot
      | node fields subqs =>
        have hal : is_and_like fields.op = true := by simpa [Query.and_like] using hroot
        have := hwf
        simp only [and_wf, hal, Bool.not_true, Bool.false_or, Bool.and_eq_true,
          decide_eq_true_eq] at this
        exact this.1
    have hlen : (s.and_plists ++ pls).length = s.and_plists.length + pls.length :=
      List.length_append _ _
    have hll : (flat_leaves q).length = pls.length := hf.length_eq
    refine ⟨pls, fs, ho, hm, by omega, size_t_sub_eq (by omega) (by omega), ?_, ?_, by omega⟩
    · rw [hlen]
      exact hr
    · intro φ hφ
      obtain ⟨node, _, _, _, _, hbe, hend⟩ := forall₂_exists_left hr φ hφ
      exact ⟨by omega, by omega⟩
  · obtain ⟨pls, fs, ho, hrun, _, hr, _, h2⟩ :=
      do_and_like_rec E q f hroot hwf hbuild (by omega)
    refine ⟨pls, fs, _, ho, h2, ?_, hrun⟩
    intro φ hφ
    obtain ⟨node, _, _, _, _, hbe, hend⟩ := forall₂_exists_left hr φ hφ
    refine ⟨by omega, hend, ?_⟩
    simp only [List.length_take, List.length_drop]
    omega

/-- The flattening of `NEAR(a, PHRASE(b, c))` in the stub environment with positions. -/
theorem positional_slice_safety_witness :
    (∃ pls fs,
      (do_and_like_flatten (stubEnv true true)
          (opq .OP_NEAR 5 [leafq "a" 1, opq .OP_PHRASE 2 [leafq "b" 1, leafq "c" 1]]) 1
          ⟨[], []⟩).outcome
        = .ok ⟨[] ++ pls, [] ++ fs⟩ ∧
      (opq .OP_NEAR 5 [leafq "a" 1, opq .OP_PHRASE 2 [leafq "b" 1, leafq "c" 1]]).arity
        ≤ pls.length ∧
      (opq .OP_NEAR 5 [leafq "a" 1, opq .OP_PHRASE 2 [leafq "b" 1, leafq "c" 1]]).arity
        ≤ ([] ++ pls).length ∧
      size_t_sub ([] ++ pls).length
          (opq .OP_NEAR 5 [leafq "a" 1, opq .OP_PHRASE 2 [leafq "b" 1, leafq "c" 1]]).arity
        = ([] ++ pls).length
          - (opq .OP_NEAR 5 [leafq "a" 1, opq .OP_PHRASE 2 [leafq "b" 1, leafq "c" 1]]).arity ∧
      List.Forall₂ (filter_records 0 ([] ++ pls).length)
        (positional_nodes true
          (opq .OP_NEAR 5 [leafq "a" 1, opq .OP_PHRASE 2 [leafq "b" 1, leafq "c" 1]])) fs ∧
      (∀ φ ∈ fs, φ.begin_ ≤ φ.end_ ∧ φ.end_ ≤ ([] ++ pls).length) ∧
      2 ≤ pls.length)
    ∧ (do_and_like_flatten (stubEnv true true)
          (opq .OP_NEAR 5 [leafq "a" 1, opq .OP_PHRASE 2 [leafq "b" 1, leafq "c" 1]]) 1
          ⟨[], []⟩).outcome
        = .ok ⟨[.LeafPostList (leafq "a" 1) 1, .LeafPostList (leafq "b" 1) 1,
            .LeafPostList (leafq "c" 1) 1],
          [⟨.OP_PHRASE, 1, 3, 2⟩, ⟨.OP_NEAR, 1, 3, 5⟩]⟩ :=
  ⟨(positional_slice_safety (stubEnv true true)
      (opq .OP_NEAR 5 [leafq "a" 1, opq .OP_PHRASE 2 [leafq "b" 1, leafq "c" 1]]) 1 ⟨[], []⟩
      rfl rfl
      (by
        intro d hd g _
        have hl : flat_leaves
            (opq .OP_NEAR 5 [leafq "a" 1, opq .OP_PHRASE 2 [leafq "b" 1, leafq "c" 1]])
            = [leafq "a" 1, leafq "b" 1, leafq "c" 1] := rfl
        rw [hl] at hd
        simp only [List.mem_cons, List.mem_singleton, List.not_mem_nil, or_false] at hd
        rcases hd with h | h | h <;> subst h <;>
          exact do_subquery_leafq _ (fun _ _ => rfl) _ _ _)
      (by decide)).1,
    rfl⟩

end Xapian
